import Mathlib

/-!
# XMSS key generation, treehash, L-tree and signing (src/lib/xmss.h)

Shallow embedding of the inline functions of `xmss.h`.

* Buffers that the code only addresses in steps of `WOTS_N` bytes (`stack`, `authpath`,
  `nodes`, `tmp_wotspk`) are maps from the chunk number to a chunk: `buf + k*WOTS_N` is `buf k`.
* The headers `parameters.h`, `macros.h`, `shash.h`, `adrs.h`, `fips202.h` and `wotsp.h` are
  not part of the sources at hand; what they declare is a parameter of the embedding
  (`hash_env`, `xmss_env`, `XMSS_NUM_NODES`).
* Counters keep the width they have in C: a `uint16_t` assignment is taken `% 65536`, a
  `uint8_t` one `% 256`. A `for` loop over a `uint16_t` counter is `uint16_for`: it ends only
  when the counter reaches the bound, and the functions built on it return `none` when it
  does not.
* `stack_offset` is a `uint32_t`; it never exceeds the number of leaves brought in
  (`treehash_fold_offset_le`), which is below `2^16`, and is kept as a natural number.
-/

/-! ## Hash inputs -/

/-- The 96 bytes of `hashh_t.basic` as `xmss_ltree_gen` and `xmss_treehash` fill them: all zero
(`memset`) except the key and the address words they assign. -/
structure hashh_basic (α : Type) where
  key : α
  type : Nat
  ltree : Nat
  height : Nat
  index : Nat

/-- What `macros.h` and `shash.h` provide to the two tree algorithms: the byte-order macro, the
two type tags and the 2-to-1 compression `shash_h(out, in, &hashh_in)`, which reads the chunks
`in` and `in + WOTS_N` and writes the chunk `out`. -/
structure hash_env (α : Type) where
  HtoNL : Nat → Nat
  SHASH_TYPE_H : Nat
  SHASH_TYPE_HASH : Nat
  shash_h : hashh_basic α → α → α → α

/-! ## Chunk buffers -/

/-- The buffer `buf` after `memcpy(buf + k*WOTS_N, v, WOTS_N)`: chunk `k` replaced by `v`.
Also the array `stack_levels` after an assignment to its element `k`. -/
@[noinline]
def chunk_write {β : Type} (buf : Nat → β) (k : Nat) (v : β) : Nat → β :=
  fun j => if j = k then v else buf j

/-! ## Loops over a 16-bit counter -/

/-- The loop `for (uint16_t idx = start; idx < N; idx++) s = body s idx`, with `fuel` tests of
its guard allowed: `some s` when the guard fails at one of them, `none` when all of them
pass. The counter wraps at `2^16`, so `65536` tests decide the loop: with `N ≤ 65535` it is
left by then (`uint16_for_eq_foldl`), with a larger `N` it is never left
(`uint16_for_diverges`). -/
def uint16_for {σ : Type} (N : Nat) (body : σ → Nat → σ) : Nat → Nat → σ → Option σ
  | 0, _, _ => none
  | fuel + 1, idx, s =>
    if idx < N then uint16_for N body fuel ((idx + 1) % 65536) (body s idx) else some s

/-! ## xmss_treehash -/

/-- The locals of `xmss_treehash` together with the caller's `authpath` buffer. -/
structure treehash_state (α : Type) where
  stack : Nat → α
  stack_levels : Nat → Nat
  stack_offset : Nat
  authpath : Nat → α

/-- Lines 113-119: bring leaf `idx` in at level 0 and, when it is the sibling leaf of
`leaf_index`, copy it to `authpath`. -/
def treehash_push {α : Type} (nodes : Nat → α) (leaf_index idx : Nat)
    (s : treehash_state α) : treehash_state α :=
  let stack := chunk_write s.stack s.stack_offset (nodes idx)
  let stack_levels := chunk_write s.stack_levels s.stack_offset 0
  let stack_offset := s.stack_offset + 1
  { stack := stack
    stack_levels := stack_levels
    stack_offset := stack_offset
    authpath :=
      if (leaf_index ^^^ 1) = idx then chunk_write s.authpath 0 (stack (stack_offset - 1))
      else s.authpath }

/-- Lines 122-140: one pass through the body of the `while` loop. -/
def treehash_merge {α : Type} (E : hash_env α) (pub_seed : α) (leaf_index idx : Nat)
    (s : treehash_state α) : treehash_state α :=
  let tree_idx := (idx >>> (s.stack_levels (s.stack_offset - 1) + 1)) % 65536
  let h_in : hashh_basic α :=
    { key := pub_seed
      type := E.HtoNL E.SHASH_TYPE_HASH
      ltree := 0
      height := E.HtoNL (s.stack_levels (s.stack_offset - 1))
      index := E.HtoNL tree_idx }
  let in_out := s.stack_offset - 2
  let stack := chunk_write s.stack in_out
    (E.shash_h h_in (s.stack in_out) (s.stack (in_out + 1)))
  let stack_levels := chunk_write s.stack_levels (s.stack_offset - 2)
    ((s.stack_levels (s.stack_offset - 2) + 1) % 65536)
  let stack_offset := s.stack_offset - 1
  { stack := stack
    stack_levels := stack_levels
    stack_offset := stack_offset
    authpath :=
      if ((leaf_index >>> stack_levels (stack_offset - 1)) ^^^ 1) = tree_idx then
        chunk_write s.authpath (stack_levels (stack_offset - 1)) (stack (stack_offset - 1))
      else s.authpath }

/-- Line 121: the guard of the `while` loop. -/
def treehash_guard {α : Type} (s : treehash_state α) : Bool :=
  decide (1 < s.stack_offset) &&
    decide (s.stack_levels (s.stack_offset - 1) = s.stack_levels (s.stack_offset - 2))

/-- Lines 121-141: the `while` loop, at most `fuel` passes. Every pass lowers `stack_offset`
and needs it above 1, so `stack_offset` passes are always enough (`treehash_while_exit`). -/
def treehash_while {α : Type} (E : hash_env α) (pub_seed : α) (leaf_index idx : Nat) :
    Nat → treehash_state α → treehash_state α
  | 0, s => s
  | fuel + 1, s =>
    if treehash_guard s then
      treehash_while E pub_seed leaf_index idx fuel (treehash_merge E pub_seed leaf_index idx s)
    else s

/-- Lines 112-141: the body of the `for` loop for leaf `idx`. -/
def treehash_body {α : Type} (E : hash_env α) (nodes : Nat → α) (pub_seed : α)
    (leaf_index : Nat) (s : treehash_state α) (idx : Nat) : treehash_state α :=
  let s1 := treehash_push nodes leaf_index idx s
  treehash_while E pub_seed leaf_index idx s1.stack_offset s1

/-- What the uninitialised arrays `stack` and `stack_levels` happen to hold (`stack0`,
`levels0`), `stack_offset = 0` and the caller's `authpath`: the state before the `for` loop. -/
def treehash_init {α : Type} (stack0 : Nat → α) (levels0 : Nat → Nat) (authpath : Nat → α) :
    treehash_state α :=
  { stack := stack0, stack_levels := levels0, stack_offset := 0, authpath := authpath }

/-- Lines 106-142: the state when the `for` loop over the `uint16_t idx` is left; `none` when
it is never left. -/
def xmss_treehash_run {α : Type} (E : hash_env α) (XMSS_NUM_NODES : Nat)
    (stack0 : Nat → α) (levels0 : Nat → Nat)
    (authpath nodes : Nat → α) (pub_seed : α) (leaf_index : Nat) : Option (treehash_state α) :=
  uint16_for XMSS_NUM_NODES (treehash_body E nodes pub_seed leaf_index) 65536 0
    (treehash_init stack0 levels0 authpath)

/-- The two outputs of `xmss_treehash`: `root_out` (line 143, chunk 0 of `stack`) and the
`authpath` buffer. -/
def xmss_treehash {α : Type} (E : hash_env α) (XMSS_NUM_NODES : Nat)
    (stack0 : Nat → α) (levels0 : Nat → Nat)
    (authpath nodes : Nat → α) (pub_seed : α) (leaf_index : Nat) : Option (α × (Nat → α)) :=
  (xmss_treehash_run E XMSS_NUM_NODES stack0 levels0 authpath nodes pub_seed leaf_index).map
    (fun s => (s.stack 0, s.authpath))

/-- The body of the `for` loop of `xmss_treehash` run for `idx = 0, ..., XMSS_NUM_NODES - 1` in
turn: the state `xmss_treehash_run` returns when `XMSS_NUM_NODES ≤ 65535`
(`xmss_treehash_run_eq`). -/
def treehash_fold {α : Type} (E : hash_env α) (XMSS_NUM_NODES : Nat)
    (stack0 : Nat → α) (levels0 : Nat → Nat)
    (authpath nodes : Nat → α) (pub_seed : α) (leaf_index : Nat) : treehash_state α :=
  (List.range XMSS_NUM_NODES).foldl (treehash_body E nodes pub_seed leaf_index)
    (treehash_init stack0 levels0 authpath)

/-- The pair (`root_out`, `authpath`) read off `treehash_fold`. -/
def treehash_fold_out {α : Type} (E : hash_env α) (XMSS_NUM_NODES : Nat)
    (stack0 : Nat → α) (levels0 : Nat → Nat)
    (authpath nodes : Nat → α) (pub_seed : α) (leaf_index : Nat) : α × (Nat → α) :=
  ((treehash_fold E XMSS_NUM_NODES stack0 levels0 authpath nodes pub_seed leaf_index).stack 0,
    (treehash_fold E XMSS_NUM_NODES stack0 levels0 authpath nodes pub_seed leaf_index).authpath)

/-! ## Reference Merkle tree -/

/-- The address block of a tree-node merge at `height`, position `index`. -/
def tree_adrs {α : Type} (E : hash_env α) (pub_seed : α) (height index : Nat) : hashh_basic α :=
  { key := pub_seed
    type := E.HtoNL E.SHASH_TYPE_HASH
    ltree := 0
    height := E.HtoNL height
    index := E.HtoNL index }

/-- Reference Merkle node at height `l`, position `p`, over the leaves `nodes`. -/
def merkle_node {α : Type} (E : hash_env α) (nodes : Nat → α) (pub_seed : α) : Nat → Nat → α
  | 0, p => nodes p
  | l + 1, p =>
    E.shash_h (tree_adrs E pub_seed l p)
      (merkle_node E nodes pub_seed l (2 * p)) (merkle_node E nodes pub_seed l (2 * p + 1))

/-- Verifier side: hash leaf value `cur` of index `i` upward through the first `n` slots of
`authpath`, starting at height `k`. -/
def auth_climb {α : Type} (E : hash_env α) (pub_seed : α) (authpath : Nat → α) (i : Nat) :
    Nat → Nat → α → α
  | 0, _, cur => cur
  | n + 1, k, cur =>
    auth_climb E pub_seed authpath i n (k + 1)
      (if (i >>> k) % 2 = 0 then
        E.shash_h (tree_adrs E pub_seed k (i >>> (k + 1))) cur (authpath k)
      else
        E.shash_h (tree_adrs E pub_seed k (i >>> (k + 1))) (authpath k) cur)

/-! ## Test environment -/

/-- A small concrete environment over `Nat` chunks, for evaluating the definitions. -/
def test_env : hash_env Nat where
  HtoNL := fun x => x
  SHASH_TYPE_H := 1
  SHASH_TYPE_HASH := 2
  shash_h := fun h a b => 1000 * (h.key + h.type + 7 * h.ltree + 3 * h.height + 5 * h.index)
    + 31 * a + 17 * b + 1

/-! ## Stack view of the treehash state -/

/-- The entries `f (n-1), ..., f 0`: array slots below `n`, topmost first. -/
def stack_list {β : Type} (f : Nat → β) : Nat → List β
  | 0 => []
  | n + 1 => f n :: stack_list f n

/-- The live part of a treehash state: the stack entries (value, level) below `stack_offset`,
topmost first, and the `authpath` buffer. -/
def treehash_view {α : Type} (s : treehash_state α) : List (α × Nat) × (Nat → α) :=
  (stack_list (fun j => (s.stack j, s.stack_levels j)) s.stack_offset, s.authpath)

/-- The `while` loop on the stack view: `top` is the topmost entry, `rest` what lies below. -/
def cascade {α : Type} (E : hash_env α) (pub_seed : α) (leaf_index idx : Nat) :
    α × Nat → List (α × Nat) → (Nat → α) → List (α × Nat) × (Nat → α)
  | top, [], ap => ([top], ap)
  | top, y :: rest, ap =>
    if top.2 = y.2 then
      cascade E pub_seed leaf_index idx
        (E.shash_h (tree_adrs E pub_seed top.2 ((idx >>> (top.2 + 1)) % 65536)) y.1 top.1,
          (y.2 + 1) % 65536)
        rest
        (if ((leaf_index >>> ((y.2 + 1) % 65536)) ^^^ 1) = (idx >>> (top.2 + 1)) % 65536 then
          chunk_write ap ((y.2 + 1) % 65536)
            (E.shash_h (tree_adrs E pub_seed top.2 ((idx >>> (top.2 + 1)) % 65536)) y.1 top.1)
        else ap)
    else (top :: y :: rest, ap)

/-- The body of the `for` loop on the stack view. -/
def view_body {α : Type} (E : hash_env α) (nodes : Nat → α) (pub_seed : α) (leaf_index : Nat)
    (v : List (α × Nat) × (Nat → α)) (idx : Nat) : List (α × Nat) × (Nat → α) :=
  cascade E pub_seed leaf_index idx (nodes idx, 0) v.1
    (if (leaf_index ^^^ 1) = idx then chunk_write v.2 0 (nodes idx) else v.2)

/-- The write that the creation of node (`l`, `q`) makes to `authpath`. -/
def auth_write {α : Type} (E : hash_env α) (nodes : Nat → α) (pub_seed : α) (leaf_index : Nat)
    (l q : Nat) (ap : Nat → α) : Nat → α :=
  if ((leaf_index >>> l) ^^^ 1) = q then chunk_write ap l (merkle_node E nodes pub_seed l q)
  else ap

/-- All writes to `authpath` made while the subtree below node (`l`, `p`) is built, the one for
the node itself included, in the order the loop makes them. -/
def auth_subtree {α : Type} (E : hash_env α) (nodes : Nat → α) (pub_seed : α)
    (leaf_index : Nat) : Nat → Nat → (Nat → α) → Nat → α
  | 0, p, ap => auth_write E nodes pub_seed leaf_index 0 p ap
  | l + 1, p, ap =>
    auth_write E nodes pub_seed leaf_index (l + 1) p
      (auth_subtree E nodes pub_seed leaf_index l (2 * p + 1)
        (auth_subtree E nodes pub_seed leaf_index l (2 * p) ap))

/-! ## xmss_ltree_gen -/

/-- The locals `l` and `tree_height` of `xmss_ltree_gen` and the buffer `tmp_wotspk`. -/
structure ltree_state (α : Type) where
  l : Nat
  tree_height : Nat
  tmp_wotspk : Nat → α

/-- The address block of an L-tree merge (lines 72-78). -/
def ltree_adrs {α : Type} (E : hash_env α) (pub_seed : α) (index tree_height i : Nat) :
    hashh_basic α :=
  { key := pub_seed
    type := E.HtoNL E.SHASH_TYPE_H
    ltree := E.HtoNL index
    height := E.HtoNL tree_height
    index := E.HtoNL i }

/-- Lines 71-83: pass `i` of the `for` loop: chunks `2i` and `2i+1` are hashed into
chunk `i` of the same buffer. -/
def ltree_pair {α : Type} (E : hash_env α) (pub_seed : α) (index : Nat)
    (s : ltree_state α) (i : Nat) : ltree_state α :=
  { l := s.l
    tree_height := s.tree_height
    tmp_wotspk := chunk_write s.tmp_wotspk i
      (E.shash_h (ltree_adrs E pub_seed index s.tree_height i)
        (s.tmp_wotspk (2 * i)) (s.tmp_wotspk (2 * i + 1))) }

/-- Lines 69-94: one pass through the body of the `while` loop. The counter `i` of the `for`
loop is a `uint8_t` and `bound ≤ 127`, so it reaches `bound`. -/
def ltree_round {α : Type} (E : hash_env α) (pub_seed : α) (index : Nat)
    (s : ltree_state α) : ltree_state α :=
  let bound := s.l >>> 1
  let s1 := (List.range bound).foldl (ltree_pair E pub_seed index) s
  if s.l &&& 1 ≠ 0 then
    { l := ((s.l >>> 1) + 1) % 256
      tree_height := (s.tree_height + 1) % 256
      tmp_wotspk := chunk_write s1.tmp_wotspk (s.l >>> 1) (s1.tmp_wotspk (s.l - 1)) }
  else
    { l := s.l >>> 1
      tree_height := (s.tree_height + 1) % 256
      tmp_wotspk := s1.tmp_wotspk }

/-- Lines 68-95: the `while (l>1)` loop, at most `fuel` passes. -/
def ltree_while {α : Type} (E : hash_env α) (pub_seed : α) (index : Nat) :
    Nat → ltree_state α → ltree_state α
  | 0, s => s
  | fuel + 1, s =>
    if 1 < s.l then ltree_while E pub_seed index fuel (ltree_round E pub_seed index s) else s

/-- The state in which `xmss_ltree_gen` leaves its loop. `l` starts at `(uint8_t) WOTS_LEN`
and every pass lowers it, so `l` passes are enough. -/
def xmss_ltree_run {α : Type} (E : hash_env α) (WOTS_LEN : Nat) (tmp_wotspk : Nat → α)
    (pub_seed : α) (index : Nat) : ltree_state α :=
  ltree_while E pub_seed index (WOTS_LEN % 256)
    { l := WOTS_LEN % 256, tree_height := 0, tmp_wotspk := tmp_wotspk }

/-- The chunk `xmss_ltree_gen` writes to `leaf` (line 96). -/
def xmss_ltree_gen {α : Type} (E : hash_env α) (WOTS_LEN : Nat) (tmp_wotspk : Nat → α)
    (pub_seed : α) (index : Nat) : α :=
  (xmss_ltree_run E WOTS_LEN tmp_wotspk pub_seed index).tmp_wotspk 0

/-! ## Reference L-tree -/

/-- One level of the reference reduction, out of place: consecutive pairs are compressed under
the pair number `j`, `j+1`, ...; a last chunk without partner is carried over. -/
def ltree_level_ref {α : Type} (E : hash_env α) (pub_seed : α) (index t : Nat) :
    Nat → List α → List α
  | j, a :: b :: rest =>
    E.shash_h (ltree_adrs E pub_seed index t j) a b ::
      ltree_level_ref E pub_seed index t (j + 1) rest
  | _, [a] => [a]
  | _, [] => []

/-- The reference reduction: levels of height `t`, `t+1`, ... until one chunk is left. `none`
when there is no chunk at all or after `fuel` levels the width is still above 1. -/
def ltree_ref {α : Type} (E : hash_env α) (pub_seed : α) (index : Nat) :
    Nat → Nat → List α → Option α
  | _, _, [] => none
  | _, _, [a] => some a
  | 0, _, _ :: _ :: _ => none
  | fuel + 1, t, a :: b :: rest =>
    ltree_ref E pub_seed index fuel (t + 1) (ltree_level_ref E pub_seed index t 0 (a :: b :: rest))

/-! ## Byte records -/

/-- Arrays of `n` bytes. -/
abbrev bytes (n : Nat) : Type := { l : List Nat // l.length = n }

/-- Chunks of `WOTS_N = 32` bytes. -/
abbrev chunk : Type := bytes 32

/-- Modelled from the spec: `parameters.h` is not among the sources; the chunk size `WOTS_N` is
32 bytes (the code itself copies `WOTS_N` bytes to and from its 32-byte fields). -/
abbrev WOTS_N : Nat := 32

/-- The `len` bytes of `b` from byte `off` on. -/
def bytes.slice {n : Nat} (b : bytes n) (off len : Nat) (h : off + len ≤ n) : bytes len :=
  ⟨(b.1.drop off).take len, by
    rw [List.length_take, List.length_drop, b.2]; omega⟩

/-- The array `dst` after `memcpy(dst + off, src, m)`. -/
def bytes.memcpy {n m : Nat} (dst : bytes n) (off : Nat) (src : bytes m) (h : off + m ≤ n) :
    bytes n :=
  ⟨dst.1.take off ++ (src.1 ++ dst.1.drop (off + m)), by
    rw [List.length_append, List.length_append, List.length_take, List.length_drop, dst.2,
      src.2]; omega⟩

/-- The packed union `xmss_sk_t` (lines 12-27): 132 bytes, seen as `raw`, as the fields `index`,
`seed`, `prf_seed`, `pub_seed`, `root`, or through `seeds.raw`. -/
structure xmss_sk_t where
  raw : bytes 132

/-- The four bytes of `index` (offset 0). -/
def xmss_sk_t.index (sk : xmss_sk_t) : bytes 4 := sk.raw.slice 0 4 (by omega)

/-- The field `seed` (offset 4). -/
def xmss_sk_t.seed (sk : xmss_sk_t) : chunk := sk.raw.slice 4 32 (by omega)

/-- The field `prf_seed` (offset 36). -/
def xmss_sk_t.prf_seed (sk : xmss_sk_t) : chunk := sk.raw.slice 36 32 (by omega)

/-- The field `pub_seed` (offset 68). -/
def xmss_sk_t.pub_seed (sk : xmss_sk_t) : chunk := sk.raw.slice 68 32 (by omega)

/-- The field `root` (offset 100). -/
def xmss_sk_t.root (sk : xmss_sk_t) : chunk := sk.raw.slice 100 32 (by omega)

/-- The view `seeds.raw`: 96 bytes after the 4 bytes of `_padding`. -/
def xmss_sk_t.seeds_raw (sk : xmss_sk_t) : bytes 96 := sk.raw.slice 4 96 (by omega)

/-- The packed union `xmss_pk_t` (lines 29-35): `root` at offset 0, `pub_seed` at offset 32. -/
structure xmss_pk_t where
  raw : bytes 64

/-- The field `root` of the public key. -/
def xmss_pk_t.root (pk : xmss_pk_t) : chunk := pk.raw.slice 0 32 (by omega)

/-- The field `pub_seed` of the public key. -/
def xmss_pk_t.pub_seed (pk : xmss_pk_t) : chunk := pk.raw.slice 32 32 (by omega)

/-- The named fields of `xmss_signature_t` (lines 45-53); `wots_sig` and `auth_path` by chunk.
`auth_path k` for `k` past the field is the memory that follows the field. -/
structure xmss_signature_t where
  index : Nat
  randomness : chunk
  wots_sig : Nat → chunk
  auth_path : Nat → chunk

/-- The 160 bytes of `hashh_t.digest` as `xmss_sign` fills them (lines 222-227). -/
structure hashh_digest where
  type31 : Nat
  R : chunk
  root : chunk
  index : Nat
  msg_hash : chunk

/-- What the absent headers provide to key generation and signing, besides `hash_env`:
`NtoHL` and `SHASH_TYPE_PRF`; the PRF input block `shash_input_t` with `PRF_init` and the three
members the code assigns (`key`, `adrs.otshash.OTS`, `R.index`); `shash96` and `shash160`;
`shake256(out, outlen, in, inlen)`; `wotsp_gen_pk` and `wotsp_sign`, arguments in the order of
the calls, results by chunk. -/
structure xmss_env extends hash_env chunk where
  NtoHL : Nat → Nat
  SHASH_TYPE_PRF : Nat
  shash_input_t : Type
  PRF_init : Nat → shash_input_t
  set_key : shash_input_t → chunk → shash_input_t
  set_adrs_otshash_OTS : shash_input_t → Nat → shash_input_t
  set_R_index : shash_input_t → Nat → shash_input_t
  shash96 : shash_input_t → chunk
  shash160 : hashh_digest → chunk
  shake256 : (outlen : Nat) → List Nat → bytes outlen
  wotsp_gen_pk : chunk → chunk → Nat → Nat → chunk
  wotsp_sign : chunk → chunk → chunk → Nat → Nat → chunk

/-! ## Key generation -/

/-- Lines 56-60. -/
def xmss_pk (pk_out : xmss_pk_t) (sk_in : xmss_sk_t) : xmss_pk_t :=
  { raw := (pk_out.raw.memcpy 0 sk_in.root (by omega)).memcpy 32 sk_in.pub_seed (by omega) }

/-- Lines 146-156, software back-end (`#else` branch): the `output_size = 3*WOTS_N` bytes
written to `random_bits`. -/
def xmss_randombits (E : xmss_env) (sk_seed : bytes 48) : bytes 96 :=
  E.shake256 ((3 * WOTS_N) % 256) sk_seed.1

/-- Lines 158-165. -/
def xmss_get_seed_i (E : xmss_env) (sk : xmss_sk_t) (idx : Nat) : chunk :=
  E.shash96
    (E.set_adrs_otshash_OTS (E.set_key (E.PRF_init E.SHASH_TYPE_PRF) sk.seed) (E.HtoNL idx))

/-- Lines 167-170: `random_bits` is `sk->seeds.raw`, byte 4 of the record. -/
def xmss_gen_keys_1_get_seeds (E : xmss_env) (sk : xmss_sk_t) (sk_seed : bytes 48) :
    xmss_sk_t :=
  { raw := sk.raw.memcpy 4 (xmss_randombits E sk_seed) (by omega) }

/-- Lines 172-181: the chunk written to `xmss_node`. -/
def xmss_gen_keys_2_get_nodes (E : xmss_env) (WOTS_LEN : Nat) (sk : xmss_sk_t) (idx : Nat) :
    chunk :=
  xmss_ltree_gen E.tohash_env WOTS_LEN
    (E.wotsp_gen_pk (xmss_get_seed_i E sk idx) sk.pub_seed idx) sk.pub_seed idx

/-- The record after `memcpy(sk->root, r, WOTS_N)`: `root` is byte 100 of the record. -/
def xmss_sk_t.set_root (sk : xmss_sk_t) (r : chunk) : xmss_sk_t :=
  { raw := sk.raw.memcpy 100 r (by omega) }

/-- Lines 183-187: `root_out` is `sk->root`; `authpath0` is what the uninitialised local
`authpath` holds. `none` when `xmss_treehash` does not return. -/
def xmss_gen_keys_3_get_root (E : xmss_env) (XMSS_NUM_NODES : Nat)
    (stack0 : Nat → chunk) (levels0 : Nat → Nat) (authpath0 : Nat → chunk)
    (xmss_nodes : Nat → chunk) (sk : xmss_sk_t) : Option xmss_sk_t :=
  (xmss_treehash E.tohash_env XMSS_NUM_NODES stack0 levels0 authpath0 xmss_nodes
    sk.pub_seed 0).map (fun out => sk.set_root out.1)

/-- Lines 193-196: the local array `xmss_nodes` after the loop over the `uint16_t idx`;
`nodes0` is what it holds before. `none` when the loop is never left. -/
def xmss_gen_keys_nodes (E : xmss_env) (WOTS_LEN XMSS_NUM_NODES : Nat) (sk : xmss_sk_t)
    (nodes0 : Nat → chunk) : Option (Nat → chunk) :=
  uint16_for XMSS_NUM_NODES
    (fun xmss_nodes idx =>
      chunk_write xmss_nodes idx (xmss_gen_keys_2_get_nodes E WOTS_LEN sk idx))
    65536 0 nodes0

/-- Lines 189-199: the record `*sk` after `xmss_gen_keys`. `nodes0`, `authpath0`, `stack0`,
`levels0` are the prior contents of the uninitialised local arrays. `none` when the call does
not return. -/
def xmss_gen_keys (E : xmss_env) (WOTS_LEN XMSS_NUM_NODES : Nat)
    (nodes0 authpath0 stack0 : Nat → chunk) (levels0 : Nat → Nat)
    (sk : xmss_sk_t) (sk_seed : bytes 48) : Option xmss_sk_t :=
  (xmss_gen_keys_nodes E WOTS_LEN XMSS_NUM_NODES (xmss_gen_keys_1_get_seeds E sk sk_seed)
      nodes0).bind
    (fun xmss_nodes =>
      xmss_gen_keys_3_get_root E XMSS_NUM_NODES stack0 levels0 authpath0 xmss_nodes
        (xmss_gen_keys_1_get_seeds E sk sk_seed))

/-- The loop body of `xmss_gen_keys` run for `idx = 0, ..., XMSS_NUM_NODES - 1` in turn: the
array `xmss_gen_keys_nodes` returns when `XMSS_NUM_NODES ≤ 65535`. -/
def gen_keys_nodes_fold (E : xmss_env) (WOTS_LEN XMSS_NUM_NODES : Nat) (sk : xmss_sk_t)
    (nodes0 : Nat → chunk) : Nat → chunk :=
  (List.range XMSS_NUM_NODES).foldl
    (fun xmss_nodes idx =>
      chunk_write xmss_nodes idx (xmss_gen_keys_2_get_nodes E WOTS_LEN sk idx))
    nodes0

/-- The record `xmss_gen_keys_3_get_root` returns when `XMSS_NUM_NODES ≤ 65535`. -/
def gen_root_fold (E : xmss_env) (XMSS_NUM_NODES : Nat)
    (stack0 : Nat → chunk) (levels0 : Nat → Nat) (authpath0 : Nat → chunk)
    (xmss_nodes : Nat → chunk) (sk : xmss_sk_t) : xmss_sk_t :=
  sk.set_root
    (treehash_fold_out E.tohash_env XMSS_NUM_NODES stack0 levels0 authpath0 xmss_nodes
      sk.pub_seed 0).1

/-- The record `xmss_gen_keys` returns when `XMSS_NUM_NODES ≤ 65535` (`xmss_gen_keys_eq`). -/
def gen_keys_fold (E : xmss_env) (WOTS_LEN XMSS_NUM_NODES : Nat)
    (nodes0 authpath0 stack0 : Nat → chunk) (levels0 : Nat → Nat)
    (sk : xmss_sk_t) (sk_seed : bytes 48) : xmss_sk_t :=
  gen_root_fold E XMSS_NUM_NODES stack0 levels0 authpath0
    (gen_keys_nodes_fold E WOTS_LEN XMSS_NUM_NODES (xmss_gen_keys_1_get_seeds E sk sk_seed) nodes0)
    (xmss_gen_keys_1_get_seeds E sk sk_seed)

/-! ## Signing -/

/-- Lines 211-216: the per-signature randomness. -/
def xmss_sign_randomness (E : xmss_env) (sk : xmss_sk_t) (index : Nat) : chunk :=
  E.shash96 (E.set_R_index (E.set_key (E.PRF_init E.SHASH_TYPE_PRF) sk.prf_seed) (E.HtoNL index))

/-- Lines 220-228: the digest that is one-time signed. -/
def xmss_sign_digest (E : xmss_env) (msg : chunk) (sk : xmss_sk_t) (index : Nat) : chunk :=
  E.shash160
    { type31 := E.SHASH_TYPE_HASH
      R := xmss_sign_randomness E sk index
      root := sk.root
      index := E.NtoHL index
      msg_hash := msg }

/-- Lines 201-246: the record `*sig` after `xmss_sign`. The function has no return value and
no exit but its end; `none` when `xmss_treehash` does not return. `sig->auth_path` is the
`authpath` buffer of `xmss_treehash`, the root it computes is dropped. -/
def xmss_sign (E : xmss_env) (XMSS_NUM_NODES : Nat) (stack0 : Nat → chunk) (levels0 : Nat → Nat)
    (sig : xmss_signature_t) (msg : chunk) (sk : xmss_sk_t) (xmss_nodes : Nat → chunk)
    (index : Nat) : Option xmss_signature_t :=
  (xmss_treehash E.tohash_env XMSS_NUM_NODES stack0 levels0 sig.auth_path xmss_nodes
      sk.pub_seed index).map
    (fun out =>
      { index := E.NtoHL index
        randomness := xmss_sign_randomness E sk index
        wots_sig :=
          E.wotsp_sign (xmss_sign_digest E msg sk index) sk.pub_seed
            (xmss_get_seed_i E sk index) index
        auth_path := out.2 })

/-! ## Concrete inputs -/

/-- The chunk whose 32 bytes are all `v`. -/
def chunk_of (v : Nat) : chunk := ⟨List.replicate 32 v, by simp⟩

/-- The first byte of a chunk. -/
def chunk_tag (c : chunk) : Nat := c.1.headD 0

/-- A small concrete environment over byte chunks, for evaluating key generation and
signing. -/
def test_xmss_env : xmss_env where
  HtoNL := fun x => x
  SHASH_TYPE_H := 1
  SHASH_TYPE_HASH := 2
  shash_h := fun h a b =>
    chunk_of ((chunk_tag h.key + h.type + 7 * h.ltree + 3 * h.height + 5 * h.index
      + 31 * chunk_tag a + 17 * chunk_tag b + 1) % 256)
  NtoHL := fun x => x
  SHASH_TYPE_PRF := 3
  shash_input_t := Nat × Nat × Nat × Nat
  PRF_init := fun t => (t, 0, 0, 0)
  set_key := fun b k => (b.1, chunk_tag k, b.2.2.1, b.2.2.2)
  set_adrs_otshash_OTS := fun b v => (b.1, b.2.1, v, b.2.2.2)
  set_R_index := fun b v => (b.1, b.2.1, b.2.2.1, v)
  shash96 := fun b => chunk_of ((b.1 + 3 * b.2.1 + 5 * b.2.2.1 + 11 * b.2.2.2) % 256)
  shash160 := fun d =>
    chunk_of ((d.type31 + chunk_tag d.R + 3 * chunk_tag d.root + 5 * d.index
      + 7 * chunk_tag d.msg_hash) % 256)
  shake256 := fun outlen inp => ⟨(List.range outlen).map (fun j => (j + inp.sum + 1) % 256),
    by simp⟩
  wotsp_gen_pk := fun seed pub idx k => chunk_of ((chunk_tag seed + 3 * chunk_tag pub + idx + k) % 256)
  wotsp_sign := fun msg pub seed idx k =>
    chunk_of ((chunk_tag msg + 3 * chunk_tag pub + 5 * chunk_tag seed + idx + k) % 256)

/-- A secret-key record whose `index` bytes are `v, 0, 0, 0` and whose other bytes are 0. -/
def test_sk (v : Nat) : xmss_sk_t := { raw := ⟨v :: List.replicate 131 0, by simp⟩ }

/-- The all-zero 48-byte master secret. -/
def test_master : bytes 48 := ⟨List.replicate 48 0, by simp⟩

/-- A signature record with every field zero. -/
def test_sig : xmss_signature_t :=
  { index := 0, randomness := chunk_of 0, wots_sig := fun _ => chunk_of 0,
    auth_path := fun _ => chunk_of 0 }

/-- A public-key record whose 64 bytes are all `v`. -/
def test_pk (v : Nat) : xmss_pk_t := { raw := ⟨List.replicate 64 v, by simp⟩ }

/-! ## Byte order -/

/-- The four bytes of the 32-bit value `v`, most significant byte first (network byte
order). -/
def be_bytes32 (v : Nat) : bytes 4 :=
  ⟨[v / 16777216 % 256, v / 65536 % 256, v / 256 % 256, v % 256], rfl⟩

/-- The four bytes of the 32-bit value `v`, least significant byte first. -/
def le_bytes32 (v : Nat) : bytes 4 :=
  ⟨[v % 256, v / 256 % 256, v / 65536 % 256, v / 16777216 % 256], rfl⟩

/-- The value that four bytes in network byte order encode. -/
def be_decode32 (b : bytes 4) : Nat :=
  match b.1 with
  | [b3, b2, b1, b0] => b3 * 16777216 + b2 * 65536 + b1 * 256 + b0
  | _ => 0

/-- The four bytes that a `uint32_t` field of value `v` occupies in memory, on a little-endian
host (`little = true`) or a big-endian one. -/
def host_bytes32 (little : Bool) (v : Nat) : bytes 4 :=
  if little then le_bytes32 v else be_bytes32 v

/-- Modelled from the spec: `macros.h`, which defines `NtoHL` and `HtoNL`, is not among the
sources. By the spec every multi-byte integer of a hashed or serialised structure is in network
byte order, so the macro turns a 32-bit value into the value whose bytes in host memory are the
network-order bytes of the argument: the swap of the four bytes on a little-endian host, the
value itself on a big-endian one. -/
def NtoHL_spec (little : Bool) (x : Nat) : Nat :=
  if little then
    (x % 256) * 16777216 + (x / 256 % 256) * 65536 + (x / 65536 % 256) * 256
      + x / 16777216 % 256
  else x % 4294967296

/-- The test environment on a little-endian host: `NtoHL` and `HtoNL` swap the bytes. -/
def test_xmss_env_le : xmss_env :=
  { test_xmss_env with HtoNL := NtoHL_spec true, NtoHL := NtoHL_spec true }

/-! ## xmss_randombits, hardware back-end -/

/-- Lines 149-152, the `LEDGER_SPECIFIC` branch of `xmss_randombits`. `cx_sha3_xof_init` with
size 256 and `cx_hash` with `CX_LAST` belong to the device SDK and are taken to be the same
SHAKE-256 as `shake256`. The length handed to `cx_hash` is `sizeof(sk_seed)`; `sk_seed` is a
parameter declared as an array, hence a pointer, and `sizeof_ptr` is the size of a pointer (4 on
the device). The output is handed to `randombits`, a name that `xmss.h` does not declare; the
value here is what the XOF gives out. -/
def xmss_randombits_ledger (E : xmss_env) (sizeof_ptr : Nat) (sk_seed : bytes 48) : bytes 96 :=
  E.shake256 ((3 * WOTS_N) % 256) (sk_seed.1.take sizeof_ptr)

/-- The 48-byte master secret whose last byte is 1 and whose other bytes are 0. -/
def test_master_last : bytes 48 := ⟨List.replicate 47 0 ++ [1], by simp⟩

/-! ## The widths and the calls of the L-tree -/

/-- The width after `j` passes of the `while` loop of `xmss_ltree_gen` started at width `w`,
as the claim has it: each pass replaces a width above 1 by its half, rounded up. -/
def ltree_width : Nat → Nat → Nat
  | 0, w => w
  | j + 1, w => if 1 < w then ltree_width j ((w + 1) / 2) else w

/-- The pairs (`tree_height`, `i`) of the calls of `shash_h` in one pass of the `while` loop
from state `s`, in the order of the calls: pass `i` of the `for` loop puts `tree_height` and
`i` in the address (lines 77-78). -/
def ltree_round_calls {α : Type} (s : ltree_state α) : List (Nat × Nat) :=
  (List.range (s.l >>> 1)).map (fun i => (s.tree_height, i))

/-- The pairs (height, index) of all calls of `shash_h` made by the `while` loop from state
`s`, at most `fuel` passes. -/
def ltree_while_calls {α : Type} (E : hash_env α) (pub_seed : α) (index : Nat) :
    Nat → ltree_state α → List (Nat × Nat)
  | 0, _ => []
  | fuel + 1, s =>
    if 1 < s.l then
      ltree_round_calls s ++ ltree_while_calls E pub_seed index fuel (ltree_round E pub_seed index s)
    else []

/-- The pairs (height, index) of all calls of `shash_h` in one run of `xmss_ltree_gen`. -/
def xmss_ltree_calls {α : Type} (E : hash_env α) (WOTS_LEN : Nat) (tmp_wotspk : Nat → α)
    (pub_seed : α) (index : Nat) : List (Nat × Nat) :=
  ltree_while_calls E pub_seed index (WOTS_LEN % 256)
    { l := WOTS_LEN % 256, tree_height := 0, tmp_wotspk := tmp_wotspk }

/-! ## The calls and the writes of xmss_treehash -/

/-- What a run of `xmss_treehash` does to the outside: a call of `shash_h` whose address has
the words `height` and `index` (the arguments of the two `HtoNL`, lines 126-127), or a `memcpy`
into slot `slot` of `authpath` (lines 118 and 138). -/
inductive treehash_event where
  | call (height index : Nat)
  | write (slot : Nat)
  deriving DecidableEq

/-- The pair (height, index) of a call; nothing for a write. -/
def treehash_event.address : treehash_event → Option (Nat × Nat)
  | treehash_event.call h i => some (h, i)
  | treehash_event.write _ => none

/-- Lines 117-119: the write that bringing leaf `idx` in makes, if any. -/
def treehash_push_events (leaf_index idx : Nat) : List treehash_event :=
  if (leaf_index ^^^ 1) = idx then [treehash_event.write 0] else []

/-- Lines 122-140: the call of one pass through the body of the `while` loop from state `s`,
and its write, if any. The words and the slot are those of `treehash_merge`. -/
def treehash_merge_events {α : Type} (leaf_index idx : Nat) (s : treehash_state α) :
    List treehash_event :=
  let tree_idx := (idx >>> (s.stack_levels (s.stack_offset - 1) + 1)) % 65536
  let stack_levels := chunk_write s.stack_levels (s.stack_offset - 2)
    ((s.stack_levels (s.stack_offset - 2) + 1) % 65536)
  let stack_offset := s.stack_offset - 1
  treehash_event.call (s.stack_levels (s.stack_offset - 1)) tree_idx ::
    (if ((leaf_index >>> stack_levels (stack_offset - 1)) ^^^ 1) = tree_idx then
      [treehash_event.write (stack_levels (stack_offset - 1))]
    else [])

/-- The calls and writes of the `while` loop from state `s`, at most `fuel` passes, in order. -/
def treehash_while_events {α : Type} (E : hash_env α) (pub_seed : α) (leaf_index idx : Nat) :
    Nat → treehash_state α → List treehash_event
  | 0, _ => []
  | fuel + 1, s =>
    if treehash_guard s then
      treehash_merge_events leaf_index idx s ++
        treehash_while_events E pub_seed leaf_index idx fuel
          (treehash_merge E pub_seed leaf_index idx s)
    else []

/-- The calls and writes of the body of the `for` loop for leaf `idx` from state `s`. -/
def treehash_body_events {α : Type} (E : hash_env α) (nodes : Nat → α) (pub_seed : α)
    (leaf_index : Nat) (s : treehash_state α) (idx : Nat) : List treehash_event :=
  treehash_push_events leaf_index idx ++
    treehash_while_events E pub_seed leaf_index idx
      (treehash_push nodes leaf_index idx s).stack_offset (treehash_push nodes leaf_index idx s)

/-- The calls and writes of the body run for the leaves of the list in turn, from state `s`. -/
def treehash_events_from {α : Type} (E : hash_env α) (nodes : Nat → α) (pub_seed : α)
    (leaf_index : Nat) : List Nat → treehash_state α → List treehash_event
  | [], _ => []
  | idx :: rest, s =>
    treehash_body_events E nodes pub_seed leaf_index s idx ++
      treehash_events_from E nodes pub_seed leaf_index rest
        (treehash_body E nodes pub_seed leaf_index s idx)

/-- All calls and writes of one run of `xmss_treehash` over `XMSS_NUM_NODES ≤ 65535` leaves,
in order. -/
def xmss_treehash_events {α : Type} (E : hash_env α) (XMSS_NUM_NODES : Nat)
    (stack0 : Nat → α) (levels0 : Nat → Nat)
    (authpath nodes : Nat → α) (pub_seed : α) (leaf_index : Nat) : List treehash_event :=
  treehash_events_from E nodes pub_seed leaf_index (List.range XMSS_NUM_NODES)
    (treehash_init stack0 levels0 authpath)

/-- The calls and writes of the `while` loop, read off the stack view: `top` is the level of
the topmost entry, the list what lies below. -/
def cascade_events {α : Type} (leaf_index idx : Nat) : Nat → List (α × Nat) → List treehash_event
  | _, [] => []
  | top, y :: rest =>
    if top = y.2 then
      (treehash_event.call top ((idx >>> (top + 1)) % 65536) ::
        (if ((leaf_index >>> ((y.2 + 1) % 65536)) ^^^ 1) = (idx >>> (top + 1)) % 65536 then
          [treehash_event.write ((y.2 + 1) % 65536)]
        else [])) ++ cascade_events leaf_index idx ((y.2 + 1) % 65536) rest
    else []

/-- The calls and writes of the body run for the leaves of the list in turn, read off the
stack view. -/
def view_events_from {α : Type} (E : hash_env α) (nodes : Nat → α) (pub_seed : α)
    (leaf_index : Nat) : List Nat → List (α × Nat) × (Nat → α) → List treehash_event
  | [], _ => []
  | idx :: rest, v =>
    (treehash_push_events leaf_index idx ++ cascade_events leaf_index idx 0 v.1) ++
      view_events_from E nodes pub_seed leaf_index rest
        (view_body E nodes pub_seed leaf_index v idx)

/-- The calls and writes that building the subtree below node (`l`, `p`) takes, in order: the
two halves, then the call that merges them, then the write of the node, if any. -/
def tree_events (leaf_index : Nat) : Nat → Nat → List treehash_event
  | 0, p => if (leaf_index ^^^ 1) = p then [treehash_event.write 0] else []
  | l + 1, p =>
    tree_events leaf_index l (2 * p) ++ tree_events leaf_index l (2 * p + 1) ++
      (treehash_event.call l p ::
        (if ((leaf_index >>> (l + 1)) ^^^ 1) = p then [treehash_event.write (l + 1)] else []))

/-! ## The shape of the stack -/

/-- The stack, topmost entry first, that holds `m` finished nodes of level `l` merged as far as
they go: one entry for every 1-bit among the lowest `n` bits of `m`, bit `j` giving the node of
level `l + j` that ends the blocks counted so far. -/
def bits_stack {α : Type} (E : hash_env α) (nodes : Nat → α) (pub_seed : α) :
    Nat → Nat → Nat → List (α × Nat)
  | 0, _, _ => []
  | n + 1, l, m =>
    if m % 2 = 1 then
      (merkle_node E nodes pub_seed l (m - 1), l) :: bits_stack E nodes pub_seed n (l + 1) (m / 2)
    else bits_stack E nodes pub_seed n (l + 1) (m / 2)

/-! ## Helpers -/

theorem chunk_write_same {β : Type} (buf : Nat → β) (k : Nat) (v : β) :
    chunk_write buf k v k = v := by
  simp [chunk_write]

theorem chunk_write_other {β : Type} (buf : Nat → β) (k : Nat) (v : β) (j : Nat) (h : j ≠ k) :
    chunk_write buf k v j = buf j := by
  simp [chunk_write, h]


theorem xor_one_even (y : Nat) : (2 * y) ^^^ 1 = 2 * y + 1 := by
  apply Nat.eq_of_testBit_eq
  intro j
  cases j with
  | zero => simp [Nat.testBit_zero]
  | succ j =>
    rw [Nat.testBit_xor, Nat.testBit_succ, Nat.testBit_succ, Nat.testBit_succ]
    have h1 : (1:Nat) / 2 = 0 := by norm_num
    have h2 : 2 * y / 2 = y := by omega
    have h3 : (2 * y + 1) / 2 = y := by omega
    simp [h1, h2, h3]

theorem xor_one_odd (y : Nat) : (2 * y + 1) ^^^ 1 = 2 * y := by
  apply Nat.eq_of_testBit_eq
  intro j
  cases j with
  | zero => simp [Nat.testBit_zero]; omega
  | succ j =>
    rw [Nat.testBit_xor, Nat.testBit_succ, Nat.testBit_succ, Nat.testBit_succ]
    have h1 : (1:Nat) / 2 = 0 := by norm_num
    have h2 : 2 * y / 2 = y := by omega
    have h3 : (2 * y + 1) / 2 = y := by omega
    simp [h1, h2, h3]

theorem xor_one_div_two (x : Nat) : (x ^^^ 1) / 2 = x / 2 := by
  rcases Nat.even_or_odd' x with ⟨y, h | h⟩
  · rw [h, xor_one_even]; omega
  · rw [h, xor_one_odd]; omega

theorem shiftRight_last (p k : Nat) : ((p + 1) * 2 ^ k - 1) >>> k = p := by
  rw [Nat.shiftRight_eq_div_pow]
  have hpos : 0 < 2 ^ k := Nat.pow_pos (by norm_num)
  have h : (p + 1) * 2 ^ k = p * 2 ^ k + 2 ^ k := by ring
  apply Nat.div_eq_of_lt_le
  · omega
  · omega

theorem shiftRight_le_self (x k : Nat) : x >>> k ≤ x := by
  rw [Nat.shiftRight_eq_div_pow]
  exact Nat.div_le_self x (2 ^ k)

/-! ## The loop refines its stack view -/

theorem stack_list_congr {β : Type} (f g : Nat → β) :
    ∀ n, (∀ j, j < n → f j = g j) → stack_list f n = stack_list g n
  | 0, _ => rfl
  | n + 1, h => by
    simp only [stack_list]
    rw [h n (Nat.lt_succ_self n),
      stack_list_congr f g n (fun j hj => h j (Nat.lt_succ_of_lt hj))]

theorem treehash_while_view {α : Type} (E : hash_env α) (pub_seed : α) (leaf_index idx : Nat) :
    ∀ (fuel : Nat) (s : treehash_state α), s.stack_offset ≤ fuel + 1 → 1 ≤ s.stack_offset →
      treehash_view (treehash_while E pub_seed leaf_index idx fuel s) =
        cascade E pub_seed leaf_index idx
          (s.stack (s.stack_offset - 1), s.stack_levels (s.stack_offset - 1))
          (stack_list (fun j => (s.stack j, s.stack_levels j)) (s.stack_offset - 1))
          s.authpath := by
  intro fuel
  induction fuel with
  | zero =>
    intro s h1 h2
    have h : s.stack_offset = 1 := by omega
    simp [treehash_while, treehash_view, h, stack_list, cascade]
  | succ fuel ih =>
    intro s h1 h2
    obtain ⟨st, lv, off, ap⟩ := s
    simp only at h1 h2
    obtain ⟨n, rfl⟩ : ∃ n, off = n + 1 := ⟨off - 1, by omega⟩
    cases n with
    | zero =>
      simp [treehash_while, treehash_guard, treehash_view, stack_list, cascade]
    | succ n =>
      by_cases hg : lv (n + 1) = lv n
      · have hguard : treehash_guard
            ({ stack := st, stack_levels := lv, stack_offset := n + 1 + 1, authpath := ap } :
              treehash_state α) = true := by
          simp [treehash_guard, hg]
        rw [treehash_while, if_pos hguard]
        rw [ih _ (by simp [treehash_merge]; omega) (by simp [treehash_merge])]
        have e1 : n + 1 + 1 - 2 = n := by omega
        have e2 : n + 1 + 1 - 1 = n + 1 := by omega
        have e3 : n + 1 - 1 = n := by omega
        simp only [treehash_merge, e1, e2, e3, chunk_write_same, stack_list]
        have hl : stack_list (fun j => (chunk_write st n
              (E.shash_h
                { key := pub_seed, type := E.HtoNL E.SHASH_TYPE_HASH, ltree := 0,
                  height := E.HtoNL (lv (n + 1)),
                  index := E.HtoNL (idx >>> (lv (n + 1) + 1) % 65536) }
                (st n) (st (n + 1))) j,
              chunk_write lv n ((lv n + 1) % 65536) j)) n
            = stack_list (fun j => (st j, lv j)) n := by
          apply stack_list_congr
          intro j hj
          have hne : j ≠ n := by omega
          simp [chunk_write_other _ _ _ _ hne]
        rw [hl]
        conv_rhs => rw [cascade]
        simp only [hg, if_true, tree_adrs]
      · have hguard : treehash_guard
            ({ stack := st, stack_levels := lv, stack_offset := n + 1 + 1, authpath := ap } :
              treehash_state α) = false := by
          simp [treehash_guard, hg]
        rw [treehash_while, hguard]
        simp [treehash_view, stack_list, cascade, hg]

theorem treehash_body_view {α : Type} (E : hash_env α) (nodes : Nat → α) (pub_seed : α)
    (leaf_index : Nat) (s : treehash_state α) (idx : Nat) :
    treehash_view (treehash_body E nodes pub_seed leaf_index s idx) =
      view_body E nodes pub_seed leaf_index (treehash_view s) idx := by
  unfold treehash_body
  simp only
  rw [treehash_while_view E pub_seed leaf_index idx _ _ (Nat.le_succ _)
    (by simp [treehash_push])]
  have hl : stack_list (fun j => ((treehash_push nodes leaf_index idx s).stack j,
      (treehash_push nodes leaf_index idx s).stack_levels j)) s.stack_offset
      = stack_list (fun j => (s.stack j, s.stack_levels j)) s.stack_offset := by
    apply stack_list_congr
    intro j hj
    have hne : j ≠ s.stack_offset := by omega
    simp [treehash_push, chunk_write_other _ _ _ _ hne]
  have e1 : s.stack_offset + 1 - 1 = s.stack_offset := by omega
  simp only [treehash_push, e1, chunk_write_same] at hl ⊢
  rw [hl]
  rfl

theorem treehash_fold_view {α : Type} (E : hash_env α) (nodes : Nat → α) (pub_seed : α)
    (leaf_index : Nat) (L : List Nat) :
    ∀ s : treehash_state α,
      treehash_view (L.foldl (treehash_body E nodes pub_seed leaf_index) s) =
        L.foldl (view_body E nodes pub_seed leaf_index) (treehash_view s) := by
  induction L with
  | nil => intro s; rfl
  | cons a L ih =>
    intro s
    simp only [List.foldl_cons]
    rw [ih, treehash_body_view]

/-! ## Building a subtree -/

theorem cascade_stop {α : Type} (E : hash_env α) (pub_seed : α) (leaf_index idx : Nat)
    (top : α × Nat) (stk : List (α × Nat)) (ap : Nat → α)
    (h : ∀ e ∈ stk.head?, e.2 ≠ top.2) :
    cascade E pub_seed leaf_index idx top stk ap = (top :: stk, ap) := by
  cases stk with
  | nil => rfl
  | cons y rest =>
    have hy : y.2 ≠ top.2 := h y (by simp)
    rw [cascade, if_neg (fun e => hy e.symm)]

theorem cascade_merge {α : Type} (E : hash_env α) (pub_seed : α) (leaf_index idx : Nat)
    (x y : α) (l : Nat) (rest : List (α × Nat)) (ap : Nat → α)
    (hidx : idx < 65536) (hl : l + 1 < 65536) :
    cascade E pub_seed leaf_index idx (x, l) ((y, l) :: rest) ap =
      cascade E pub_seed leaf_index idx
        (E.shash_h (tree_adrs E pub_seed l (idx >>> (l + 1))) y x, l + 1) rest
        (if ((leaf_index >>> (l + 1)) ^^^ 1) = idx >>> (l + 1) then
          chunk_write ap (l + 1) (E.shash_h (tree_adrs E pub_seed l (idx >>> (l + 1))) y x)
        else ap) := by
  have h1 : (idx >>> (l + 1)) % 65536 = idx >>> (l + 1) :=
    Nat.mod_eq_of_lt (lt_of_le_of_lt (shiftRight_le_self idx (l + 1)) hidx)
  have h2 : (l + 1) % 65536 = l + 1 := Nat.mod_eq_of_lt hl
  rw [cascade]
  simp only [if_true, h1, h2]

theorem subtree_fold {α : Type} (E : hash_env α) (nodes : Nat → α) (pub_seed : α)
    (leaf_index : Nat) :
    ∀ (l p : Nat) (stk : List (α × Nat)) (ap : Nat → α),
      (p + 1) * 2 ^ l ≤ 65536 → l < 65535 → (∀ e ∈ stk.head?, l ≤ e.2) →
      (List.range' (p * 2 ^ l) (2 ^ l)).foldl (view_body E nodes pub_seed leaf_index) (stk, ap) =
        cascade E pub_seed leaf_index ((p + 1) * 2 ^ l - 1)
          (merkle_node E nodes pub_seed l p, l) stk
          (auth_subtree E nodes pub_seed leaf_index l p ap) := by
  intro l
  induction l with
  | zero =>
    intro p stk ap _ _ _
    simp [view_body, auth_subtree, auth_write, merkle_node]
  | succ l ih =>
    intro p stk ap hp hl hstk
    have hpos : 0 < 2 ^ l := Nat.pow_pos (by norm_num)
    have hpow : 2 ^ (l + 1) = 2 ^ l + 2 ^ l := by rw [pow_succ]; omega
    have hsplit : List.range' (p * 2 ^ (l + 1)) (2 ^ (l + 1)) =
        List.range' (2 * p * 2 ^ l) (2 ^ l) ++ List.range' ((2 * p + 1) * 2 ^ l) (2 ^ l) := by
      rw [hpow]
      have e1 : p * (2 ^ l + 2 ^ l) = 2 * p * 2 ^ l := by ring
      have e2 : (2 * p + 1) * 2 ^ l = 2 * p * 2 ^ l + 1 * 2 ^ l := by ring
      rw [e1, e2, List.range'_append]
    have hA : (2 * p + 1) * 2 ^ l ≤ 65536 := by
      have e : (p + 1) * 2 ^ (l + 1) = (2 * p + 1) * 2 ^ l + 2 ^ l := by rw [pow_succ]; ring
      omega
    have hB : (2 * p + 1 + 1) * 2 ^ l ≤ 65536 := by
      have e : (p + 1) * 2 ^ (l + 1) = (2 * p + 1 + 1) * 2 ^ l := by rw [pow_succ]; ring
      omega
    have hlast : (2 * p + 1 + 1) * 2 ^ l - 1 = (p + 1) * 2 ^ (l + 1) - 1 := by
      have e : (p + 1) * 2 ^ (l + 1) = (2 * p + 1 + 1) * 2 ^ l := by rw [pow_succ]; ring
      rw [e]
    rw [hsplit, List.foldl_append,
      ih (2 * p) stk ap hA (by omega) (fun e he => by have := hstk e he; omega),
      cascade_stop E pub_seed leaf_index _ _ stk _
        (fun e he => by have := hstk e he; simp only; omega),
      ih (2 * p + 1) _ _ hB (by omega) (fun e he => by simp at he; subst he; simp),
      cascade_merge E pub_seed leaf_index _ _ _ l stk _ (by omega) (by omega),
      hlast, shiftRight_last]
    rfl

theorem auth_write_apply {α : Type} (E : hash_env α) (nodes : Nat → α) (pub_seed : α)
    (leaf_index l q : Nat) (ap : Nat → α) (k : Nat) :
    auth_write E nodes pub_seed leaf_index l q ap k =
      if k = l ∧ ((leaf_index >>> l) ^^^ 1) = q then merkle_node E nodes pub_seed l q
      else ap k := by
  unfold auth_write
  by_cases hq : ((leaf_index >>> l) ^^^ 1) = q
  · by_cases hk : k = l
    · rw [if_pos hq, if_pos ⟨hk, hq⟩, hk, chunk_write_same]
    · rw [if_pos hq, if_neg (fun h => hk h.1), chunk_write_other _ _ _ _ hk]
  · rw [if_neg hq, if_neg (fun h => hq h.2)]

theorem auth_subtree_apply {α : Type} (E : hash_env α) (nodes : Nat → α) (pub_seed : α)
    (leaf_index : Nat) :
    ∀ (l p : Nat) (ap : Nat → α) (k : Nat),
      auth_subtree E nodes pub_seed leaf_index l p ap k =
        if k ≤ l ∧ ((leaf_index >>> k) ^^^ 1) >>> (l - k) = p then
          merkle_node E nodes pub_seed k ((leaf_index >>> k) ^^^ 1)
        else ap k := by
  intro l
  induction l with
  | zero =>
    intro p ap k
    rw [auth_subtree, auth_write_apply]
    by_cases hk : k = 0
    · subst hk
      by_cases hq : ((leaf_index >>> 0) ^^^ 1) = p
      · rw [if_pos ⟨rfl, hq⟩, if_pos ⟨le_refl 0, by simpa using hq⟩, hq]
      · rw [if_neg (fun h => hq h.2), if_neg (fun h => hq (by simpa using h.2))]
    · rw [if_neg (fun h => hk h.1), if_neg (fun h => hk (by omega))]
  | succ l ih =>
    intro p ap k
    rw [auth_subtree, auth_write_apply, ih, ih]
    by_cases hk : k = l + 1
    · subst hk
      have hnot : ¬ (l + 1 ≤ l) := by omega
      by_cases hq : ((leaf_index >>> (l + 1)) ^^^ 1) = p
      · rw [if_pos ⟨rfl, hq⟩, if_pos ⟨le_refl _, by simpa using hq⟩, hq]
      · rw [if_neg (fun h => hq h.2), if_neg (fun h => hnot h.1), if_neg (fun h => hnot h.1),
          if_neg (fun h => hq (by simpa using h.2))]
    · rw [if_neg (fun h => hk h.1)]
      by_cases hkl : k ≤ l
      · have hsh : ((leaf_index >>> k) ^^^ 1) >>> (l + 1 - k)
            = (((leaf_index >>> k) ^^^ 1) >>> (l - k)) / 2 := by
          rw [show l + 1 - k = (l - k) + 1 by omega, Nat.shiftRight_succ]
        rw [hsh]
        by_cases h1 : ((leaf_index >>> k) ^^^ 1) >>> (l - k) = 2 * p + 1
        · rw [if_pos ⟨hkl, h1⟩, if_pos ⟨by omega, by omega⟩]
        · rw [if_neg (fun h => h1 h.2)]
          by_cases h0 : ((leaf_index >>> k) ^^^ 1) >>> (l - k) = 2 * p
          · rw [if_pos ⟨hkl, h0⟩, if_pos ⟨by omega, by omega⟩]
          · rw [if_neg (fun h => h0 h.2), if_neg (fun h => by have := h.2; omega)]
      · rw [if_neg (fun h => hkl h.1), if_neg (fun h => hkl h.1),
          if_neg (fun h => by have := h.1; omega)]

theorem stack_list_length {β : Type} (f : Nat → β) : ∀ n, (stack_list f n).length = n
  | 0 => rfl
  | n + 1 => by simp [stack_list, stack_list_length f n]

/-- The state in which the loop of `xmss_treehash` is left after `2^H` leaves: one stack entry, the
Merkle root at level `H`, and the `authpath` writes of the whole tree. -/
theorem treehash_fold_final {α : Type} (E : hash_env α) (H : Nat) (hH : H ≤ 15)
    (stack0 : Nat → α) (levels0 : Nat → Nat) (authpath nodes : Nat → α) (pub_seed : α)
    (leaf_index : Nat) :
    treehash_view
        (treehash_fold E (2 ^ H) stack0 levels0 authpath nodes pub_seed leaf_index) =
      ([(merkle_node E nodes pub_seed H 0, H)],
        auth_subtree E nodes pub_seed leaf_index H 0 authpath) := by
  have hpow : 2 ^ H ≤ 2 ^ 15 := Nat.pow_le_pow_right (by norm_num) hH
  have h := subtree_fold E nodes pub_seed leaf_index H 0 [] authpath
    (by norm_num at hpow ⊢; omega) (by omega) (by simp)
  rw [Nat.zero_mul] at h
  unfold treehash_fold
  rw [treehash_fold_view, List.range_eq_range']
  simp only [treehash_view, treehash_init, stack_list]
  rw [h]
  rfl

theorem treehash_fold_fields {α : Type} (E : hash_env α) (H : Nat) (hH : H ≤ 15)
    (stack0 : Nat → α) (levels0 : Nat → Nat) (authpath nodes : Nat → α) (pub_seed : α)
    (leaf_index : Nat) :
    (treehash_fold E (2 ^ H) stack0 levels0 authpath nodes pub_seed leaf_index).stack_offset
        = 1 ∧
      (treehash_fold E (2 ^ H) stack0 levels0 authpath nodes pub_seed leaf_index).stack 0
        = merkle_node E nodes pub_seed H 0 ∧
      (treehash_fold E (2 ^ H) stack0 levels0 authpath nodes pub_seed leaf_index).authpath
        = auth_subtree E nodes pub_seed leaf_index H 0 authpath := by
  have h := treehash_fold_final E H hH stack0 levels0 authpath nodes pub_seed leaf_index
  generalize treehash_fold E (2 ^ H) stack0 levels0 authpath nodes pub_seed leaf_index = s
    at h
  simp only [treehash_view, Prod.mk.injEq] at h
  obtain ⟨h1, h2⟩ := h
  have hlen : s.stack_offset = 1 := by
    have := congrArg List.length h1
    rw [stack_list_length] at this
    simpa using this
  rw [hlen] at h1
  simp only [stack_list, List.cons.injEq, Prod.mk.injEq, and_true] at h1
  exact ⟨hlen, h1.1, h2⟩

/-- After `xmss_treehash` over `2^H` leaves with a valid target, slot `k < H` of `authpath`
holds the sibling of the target's ancestor at height `k`. -/
theorem treehash_authpath_slot {α : Type} (E : hash_env α) (H : Nat) (hH : H ≤ 15)
    (stack0 : Nat → α) (levels0 : Nat → Nat) (authpath nodes : Nat → α) (pub_seed : α)
    (i : Nat) (hi : i < 2 ^ H) (k : Nat) (hk : k < H) :
    (treehash_fold_out E (2 ^ H) stack0 levels0 authpath nodes pub_seed i).2 k =
      merkle_node E nodes pub_seed k ((i >>> k) ^^^ 1) := by
  have h := (treehash_fold_fields E H hH stack0 levels0 authpath nodes pub_seed i).2.2
  simp only [treehash_fold_out]
  rw [h, auth_subtree_apply]
  have h2 : 2 ^ H = 2 ^ (H - k) * 2 ^ k := by
    rw [← pow_add]; congr 1; omega
  have h3 : i >>> k < 2 ^ (H - k) := by
    rw [Nat.shiftRight_eq_div_pow, Nat.div_lt_iff_lt_mul (Nat.pow_pos (by norm_num))]
    omega
  have h4 : 1 < 2 ^ (H - k) := Nat.one_lt_two_pow (by omega)
  have h5 : ((i >>> k) ^^^ 1) >>> (H - k) = 0 := by
    rw [Nat.shiftRight_eq_div_pow]
    exact Nat.div_eq_of_lt (Nat.xor_lt_two_pow h3 h4)
  rw [if_pos ⟨by omega, h5⟩]

/-- After `xmss_treehash` over `2^H` leaves with a valid target, the slots of index `H` and
above still hold what the caller passed in. -/
theorem treehash_authpath_frame {α : Type} (E : hash_env α) (H : Nat) (hH : H ≤ 15)
    (stack0 : Nat → α) (levels0 : Nat → Nat) (authpath nodes : Nat → α) (pub_seed : α)
    (i : Nat) (hi : i < 2 ^ H) (k : Nat) (hk : H ≤ k) :
    (treehash_fold_out E (2 ^ H) stack0 levels0 authpath nodes pub_seed i).2 k = authpath k := by
  have h := (treehash_fold_fields E H hH stack0 levels0 authpath nodes pub_seed i).2.2
  simp only [treehash_fold_out]
  rw [h, auth_subtree_apply]
  apply if_neg
  rintro ⟨h1, h2⟩
  have hk2 : k = H := by omega
  subst hk2
  have h3 : i >>> k = 0 := by
    rw [Nat.shiftRight_eq_div_pow]
    exact Nat.div_eq_of_lt hi
  rw [h3] at h2
  simp at h2

theorem auth_climb_nodes {α : Type} (E : hash_env α) (nodes : Nat → α) (pub_seed : α)
    (ap : Nat → α) (i : Nat) :
    ∀ (n k : Nat) (cur : α), cur = merkle_node E nodes pub_seed k (i >>> k) →
      (∀ j, k ≤ j → j < k + n → ap j = merkle_node E nodes pub_seed j ((i >>> j) ^^^ 1)) →
      auth_climb E pub_seed ap i n k cur = merkle_node E nodes pub_seed (k + n) (i >>> (k + n)) := by
  intro n
  induction n with
  | zero => intro k cur hcur _; simpa [auth_climb] using hcur
  | succ n ih =>
    intro k cur hcur hap
    rw [auth_climb, ih (k + 1), show k + 1 + n = k + (n + 1) by omega]
    · have hk := hap k (le_refl k) (by omega)
      have hdiv : i >>> (k + 1) = (i >>> k) / 2 := Nat.shiftRight_succ i k
      by_cases hb : (i >>> k) % 2 = 0
      · have e0 : i >>> k = 2 * (i >>> (k + 1)) := by omega
        rw [if_pos hb, hk, hcur, merkle_node]
        rw [e0, xor_one_even]
      · have e1 : i >>> k = 2 * (i >>> (k + 1)) + 1 := by omega
        rw [if_neg hb, hk, hcur, merkle_node]
        rw [e1, xor_one_odd]
    · intro j hj1 hj2
      exact hap j (by omega) (by omega)

/-! ## The L-tree loop -/

theorem ltree_pairs_apply {α : Type} (E : hash_env α) (pub_seed : α) (index : Nat)
    (s : ltree_state α) :
    ∀ (b : Nat),
      ((List.range b).foldl (ltree_pair E pub_seed index) s).l = s.l ∧
      ((List.range b).foldl (ltree_pair E pub_seed index) s).tree_height = s.tree_height ∧
      ∀ j, ((List.range b).foldl (ltree_pair E pub_seed index) s).tmp_wotspk j =
        if j < b then
          E.shash_h (ltree_adrs E pub_seed index s.tree_height j)
            (s.tmp_wotspk (2 * j)) (s.tmp_wotspk (2 * j + 1))
        else s.tmp_wotspk j := by
  intro b
  induction b with
  | zero => simp
  | succ b ih =>
    obtain ⟨ih1, ih2, ih3⟩ := ih
    rw [List.range_succ, List.foldl_append, List.foldl_cons, List.foldl_nil]
    refine ⟨ih1, ih2, ?_⟩
    intro j
    simp only [ltree_pair, ih2]
    by_cases hj : j = b
    · subst hj
      rw [chunk_write_same, ih3, ih3, if_neg (by omega), if_neg (by omega), if_pos (by omega)]
    · rw [chunk_write_other _ _ _ _ hj, ih3]
      by_cases hlt : j < b
      · rw [if_pos hlt, if_pos (by omega)]
      · rw [if_neg hlt, if_neg (by omega)]

theorem ltree_level_ref_map {α : Type} (E : hash_env α) (pub_seed : α) (index t : Nat)
    (g : Nat → α) :
    ∀ (n j : Nat),
      ltree_level_ref E pub_seed index t j ((List.range' (2 * j) n).map g) =
        (List.range' j ((n + 1) / 2)).map
          (fun k => if k < j + n / 2 then
              E.shash_h (ltree_adrs E pub_seed index t k) (g (2 * k)) (g (2 * k + 1))
            else g (2 * k)) := by
  intro n
  induction n using Nat.strong_induction_on with
  | _ n ih =>
    intro j
    match n with
    | 0 => simp [ltree_level_ref]
    | 1 => simp [ltree_level_ref]
    | n + 2 =>
      have e1 : (n + 2 + 1) / 2 = (n + 1) / 2 + 1 := by omega
      have e2 : (n + 2) / 2 = n / 2 + 1 := by omega
      rw [e1, e2]
      simp only [List.range'_succ, List.map_cons, ltree_level_ref]
      have h := ih n (by omega) (j + 1)
      rw [show 2 * (j + 1) = 2 * j + 1 + 1 by omega] at h
      rw [h, if_pos (by omega)]
      congr 1
      apply List.map_congr_left
      intro k _
      rw [show j + 1 + n / 2 = j + (n / 2 + 1) by omega]

theorem ltree_round_spec {α : Type} (E : hash_env α) (pub_seed : α) (index : Nat)
    (s : ltree_state α) (hl : s.l < 256) (ht : s.tree_height < 255) :
    (ltree_round E pub_seed index s).l = (s.l + 1) / 2 ∧
      (ltree_round E pub_seed index s).tree_height = s.tree_height + 1 ∧
      ∀ k, k < (s.l + 1) / 2 →
        (ltree_round E pub_seed index s).tmp_wotspk k =
          if k < s.l / 2 then
            E.shash_h (ltree_adrs E pub_seed index s.tree_height k)
              (s.tmp_wotspk (2 * k)) (s.tmp_wotspk (2 * k + 1))
          else s.tmp_wotspk (2 * k) := by
  have hsh : s.l >>> 1 = s.l / 2 := by rw [Nat.shiftRight_eq_div_pow, pow_one]
  have hand : s.l &&& 1 = s.l % 2 := Nat.and_one_is_mod s.l
  have hth : (s.tree_height + 1) % 256 = s.tree_height + 1 := Nat.mod_eq_of_lt (by omega)
  have hp := (ltree_pairs_apply E pub_seed index s (s.l / 2)).2.2
  unfold ltree_round
  simp only [hsh, hand, hth]
  by_cases hodd : s.l % 2 ≠ 0
  · rw [if_pos hodd]
    have hl2 : (s.l / 2 + 1) % 256 = s.l / 2 + 1 := Nat.mod_eq_of_lt (by omega)
    refine ⟨by simp only [hl2]; omega, rfl, ?_⟩
    intro k hk
    simp only
    by_cases hkl : k = s.l / 2
    · rw [hkl, chunk_write_same, hp, if_neg (by omega), if_neg (by omega)]
      congr 1
      omega
    · rw [chunk_write_other _ _ _ _ hkl, hp, if_pos (by omega), if_pos (by omega)]
  · rw [if_neg hodd]
    refine ⟨by simp only; omega, rfl, ?_⟩
    intro k hk
    simp only
    rw [hp, if_pos (by omega), if_pos (by omega)]

theorem ltree_while_ref {α : Type} (E : hash_env α) (pub_seed : α) (index : Nat) :
    ∀ (fuel : Nat) (s : ltree_state α), 1 ≤ s.l → s.l ≤ fuel → s.l + s.tree_height ≤ 255 →
      ltree_ref E pub_seed index fuel s.tree_height ((List.range s.l).map s.tmp_wotspk) =
        some ((ltree_while E pub_seed index fuel s).tmp_wotspk 0) := by
  intro fuel
  induction fuel with
  | zero => intro s h1 h2 _; omega
  | succ fuel ih =>
    intro s h1 h2 h3
    by_cases hone : s.l = 1
    · rw [ltree_while, if_neg (by omega), hone]
      simp [ltree_ref]
    · obtain ⟨n, hn⟩ : ∃ n, s.l = n + 2 := ⟨s.l - 2, by omega⟩
      obtain ⟨r1, r2, r3⟩ := ltree_round_spec E pub_seed index s (by omega) (by omega)
      rw [ltree_while, if_pos (by omega)]
      rw [← ih (ltree_round E pub_seed index s) (by rw [r1]; omega) (by rw [r1]; omega)
        (by rw [r1, r2]; omega)]
      have hlist : (List.range s.l).map s.tmp_wotspk =
          s.tmp_wotspk 0 :: s.tmp_wotspk 1 :: (List.range' 2 n).map s.tmp_wotspk := by
        rw [hn, List.range_eq_range']
        simp [List.range'_succ]
      have hlev := ltree_level_ref_map E pub_seed index s.tree_height s.tmp_wotspk s.l 0
      rw [Nat.mul_zero, ← List.range_eq_range', hlist] at hlev
      rw [hlist, ltree_ref, hlev, r1, r2, List.range_eq_range']
      congr 1
      apply List.map_congr_left
      intro k hk
      have hk2 : k < (s.l + 1) / 2 := by
        have := (List.mem_range'_1.mp hk).2
        omega
      rw [r3 k hk2, Nat.zero_add]

/-! ## Byte records: reading after writing -/

theorem splice_inside (d s : List Nat) (n m off off2 len : Nat) (hd : d.length = n)
    (hs : s.length = m) (h : off + m ≤ n) (h1 : off ≤ off2) (h2 : off2 + len ≤ off + m) :
    ((d.take off ++ (s ++ d.drop (off + m))).drop off2).take len
      = (s.drop (off2 - off)).take len := by
  apply List.ext_getElem?
  intro i
  by_cases hi : i < len
  · rw [List.getElem?_take_of_lt hi, List.getElem?_take_of_lt hi, List.getElem?_drop,
      List.getElem?_drop]
    rw [List.getElem?_append_right (by simp [hd]; omega)]
    rw [List.getElem?_append_left (by simp [hd, hs]; omega)]
    congr 1
    simp [hd]; omega
  · rw [List.getElem?_take_eq_none (by omega), List.getElem?_take_eq_none (by omega)]

theorem splice_outside (d s : List Nat) (n m off off2 len : Nat) (hd : d.length = n)
    (hs : s.length = m) (h : off + m ≤ n) (h1 : off2 + len ≤ off ∨ off + m ≤ off2) :
    ((d.take off ++ (s ++ d.drop (off + m))).drop off2).take len = (d.drop off2).take len := by
  apply List.ext_getElem?
  intro i
  by_cases hi : i < len
  · rw [List.getElem?_take_of_lt hi, List.getElem?_take_of_lt hi, List.getElem?_drop,
      List.getElem?_drop]
    rcases h1 with h1 | h1
    · rw [List.getElem?_append_left (by simp [hd]; omega)]
      rw [List.getElem?_take_of_lt (by omega)]
    · rw [List.getElem?_append_right (by simp [hd]; omega)]
      rw [List.getElem?_append_right (by simp [hd, hs]; omega)]
      rw [List.getElem?_drop]
      congr 1
      simp [hd, hs]; omega
  · rw [List.getElem?_take_eq_none (by omega), List.getElem?_take_eq_none (by omega)]

/-- Reading inside the range a `memcpy` has written gives the bytes of the source. -/
theorem bytes.slice_memcpy_inside {n m : Nat} (dst : bytes n) (off : Nat) (src : bytes m)
    (h : off + m ≤ n) (off2 len : Nat) (h1 : off ≤ off2) (h2 : off2 + len ≤ off + m) :
    (dst.memcpy off src h).slice off2 len (by omega) = src.slice (off2 - off) len (by omega) :=
  Subtype.ext (splice_inside dst.1 src.1 n m off off2 len dst.2 src.2 h h1 h2)

/-- Reading outside the range a `memcpy` has written gives the bytes that were there before. -/
theorem bytes.slice_memcpy_outside {n m : Nat} (dst : bytes n) (off : Nat) (src : bytes m)
    (h : off + m ≤ n) (off2 len : Nat) (hlen : off2 + len ≤ n)
    (h1 : off2 + len ≤ off ∨ off + m ≤ off2) :
    (dst.memcpy off src h).slice off2 len hlen = dst.slice off2 len hlen :=
  Subtype.ext (splice_outside dst.1 src.1 n m off off2 len dst.2 src.2 h h1)

theorem bytes.slice_full {n : Nat} (b : bytes n) : b.slice 0 n (by omega) = b := by
  apply Subtype.ext
  simp only [bytes.slice, List.drop_zero]
  exact List.take_of_length_le (le_of_eq b.2)

/-! ## Key generation: the fields of the record -/

theorem gen_seeds_index (E : xmss_env) (sk : xmss_sk_t) (sk_seed : bytes 48) :
    (xmss_gen_keys_1_get_seeds E sk sk_seed).index = sk.index :=
  bytes.slice_memcpy_outside sk.raw 4 (xmss_randombits E sk_seed) (by omega) 0 4 (by omega) (Or.inl (by omega))

theorem gen_seeds_root (E : xmss_env) (sk : xmss_sk_t) (sk_seed : bytes 48) :
    (xmss_gen_keys_1_get_seeds E sk sk_seed).root = sk.root :=
  bytes.slice_memcpy_outside sk.raw 4 (xmss_randombits E sk_seed) (by omega) 100 32 (by omega) (Or.inr (by omega))

theorem gen_seeds_seed (E : xmss_env) (sk : xmss_sk_t) (sk_seed : bytes 48) :
    (xmss_gen_keys_1_get_seeds E sk sk_seed).seed
      = (E.shake256 96 sk_seed.1).slice 0 32 (by omega) :=
  bytes.slice_memcpy_inside sk.raw 4 (xmss_randombits E sk_seed) (by omega) 4 32 (by omega) (by omega)

theorem gen_seeds_prf_seed (E : xmss_env) (sk : xmss_sk_t) (sk_seed : bytes 48) :
    (xmss_gen_keys_1_get_seeds E sk sk_seed).prf_seed
      = (E.shake256 96 sk_seed.1).slice 32 32 (by omega) :=
  bytes.slice_memcpy_inside sk.raw 4 (xmss_randombits E sk_seed) (by omega) 36 32 (by omega) (by omega)

theorem gen_seeds_pub_seed (E : xmss_env) (sk : xmss_sk_t) (sk_seed : bytes 48) :
    (xmss_gen_keys_1_get_seeds E sk sk_seed).pub_seed
      = (E.shake256 96 sk_seed.1).slice 64 32 (by omega) :=
  bytes.slice_memcpy_inside sk.raw 4 (xmss_randombits E sk_seed) (by omega) 68 32 (by omega) (by omega)

theorem gen_seeds_seeds_raw (E : xmss_env) (sk : xmss_sk_t) (sk_seed : bytes 48) :
    (xmss_gen_keys_1_get_seeds E sk sk_seed).seeds_raw = E.shake256 96 sk_seed.1 := by
  have h := bytes.slice_memcpy_inside sk.raw 4 (xmss_randombits E sk_seed) (by omega) 4 96
    (by omega) (by omega)
  have h2 := bytes.slice_full (xmss_randombits E sk_seed)
  exact h.trans h2

theorem gen_root_index (E : xmss_env) (N : Nat) (stack0 : Nat → chunk) (levels0 : Nat → Nat)
    (authpath0 xmss_nodes : Nat → chunk) (sk : xmss_sk_t) :
    (gen_root_fold E N stack0 levels0 authpath0 xmss_nodes sk).index = sk.index :=
  bytes.slice_memcpy_outside sk.raw 100 _ (by omega) 0 4 (by omega) (Or.inl (by omega))

theorem gen_root_seed (E : xmss_env) (N : Nat) (stack0 : Nat → chunk) (levels0 : Nat → Nat)
    (authpath0 xmss_nodes : Nat → chunk) (sk : xmss_sk_t) :
    (gen_root_fold E N stack0 levels0 authpath0 xmss_nodes sk).seed = sk.seed :=
  bytes.slice_memcpy_outside sk.raw 100 _ (by omega) 4 32 (by omega) (Or.inl (by omega))

theorem gen_root_prf_seed (E : xmss_env) (N : Nat) (stack0 : Nat → chunk) (levels0 : Nat → Nat)
    (authpath0 xmss_nodes : Nat → chunk) (sk : xmss_sk_t) :
    (gen_root_fold E N stack0 levels0 authpath0 xmss_nodes sk).prf_seed
      = sk.prf_seed :=
  bytes.slice_memcpy_outside sk.raw 100 _ (by omega) 36 32 (by omega) (Or.inl (by omega))

theorem gen_root_pub_seed (E : xmss_env) (N : Nat) (stack0 : Nat → chunk) (levels0 : Nat → Nat)
    (authpath0 xmss_nodes : Nat → chunk) (sk : xmss_sk_t) :
    (gen_root_fold E N stack0 levels0 authpath0 xmss_nodes sk).pub_seed
      = sk.pub_seed :=
  bytes.slice_memcpy_outside sk.raw 100 _ (by omega) 68 32 (by omega) (Or.inl (by omega))

theorem gen_root_root (E : xmss_env) (N : Nat) (stack0 : Nat → chunk) (levels0 : Nat → Nat)
    (authpath0 xmss_nodes : Nat → chunk) (sk : xmss_sk_t) :
    (gen_root_fold E N stack0 levels0 authpath0 xmss_nodes sk).root
      = (treehash_fold_out E.tohash_env N stack0 levels0 authpath0 xmss_nodes sk.pub_seed 0).1 := by
  have h := bytes.slice_memcpy_inside sk.raw 100
    (treehash_fold_out E.tohash_env N stack0 levels0 authpath0 xmss_nodes sk.pub_seed 0).1
    (by omega) 100 32 (by omega) (by omega)
  exact h.trans (bytes.slice_full _)

/-- The loop of `xmss_gen_keys` leaves in chunk `i < XMSS_NUM_NODES` of `xmss_nodes` the leaf
that `xmss_gen_keys_2_get_nodes` computes for `i`. -/
theorem gen_keys_nodes_apply (E : xmss_env) (L : Nat) (sk : xmss_sk_t) (nodes0 : Nat → chunk) :
    ∀ (N i : Nat), i < N →
      gen_keys_nodes_fold E L N sk nodes0 i = xmss_gen_keys_2_get_nodes E L sk i := by
  intro N
  induction N with
  | zero => intro i hi; omega
  | succ N ih =>
    intro i hi
    unfold gen_keys_nodes_fold at ih ⊢
    rw [List.range_succ, List.foldl_append, List.foldl_cons, List.foldl_nil]
    by_cases h : i = N
    · rw [h, chunk_write_same]
    · rw [chunk_write_other _ _ _ _ h, ih i (by omega)]

/-- The loop of `xmss_treehash` reads only the chunks below `XMSS_NUM_NODES` of `nodes`. -/
theorem treehash_fold_congr {α : Type} (E : hash_env α) (N : Nat) (stack0 : Nat → α)
    (levels0 : Nat → Nat) (authpath nodes1 nodes2 : Nat → α) (pub_seed : α) (leaf_index : Nat)
    (h : ∀ i, i < N → nodes1 i = nodes2 i) :
    treehash_fold E N stack0 levels0 authpath nodes1 pub_seed leaf_index =
      treehash_fold E N stack0 levels0 authpath nodes2 pub_seed leaf_index := by
  unfold treehash_fold
  apply List.foldl_ext
  intro s idx hidx
  have hlt : idx < N := List.mem_range.mp hidx
  simp only [treehash_body, treehash_push, h idx hlt]

theorem gen_keys_index (E : xmss_env) (L N : Nat) (nodes0 authpath0 stack0 : Nat → chunk)
    (levels0 : Nat → Nat) (sk : xmss_sk_t) (sk_seed : bytes 48) :
    (gen_keys_fold E L N nodes0 authpath0 stack0 levels0 sk sk_seed).index = sk.index := by
  unfold gen_keys_fold
  rw [gen_root_index, gen_seeds_index]

theorem gen_keys_seed (E : xmss_env) (L N : Nat) (nodes0 authpath0 stack0 : Nat → chunk)
    (levels0 : Nat → Nat) (sk : xmss_sk_t) (sk_seed : bytes 48) :
    (gen_keys_fold E L N nodes0 authpath0 stack0 levels0 sk sk_seed).seed
      = (E.shake256 96 sk_seed.1).slice 0 32 (by omega) := by
  unfold gen_keys_fold
  rw [gen_root_seed, gen_seeds_seed]

theorem gen_keys_prf_seed (E : xmss_env) (L N : Nat) (nodes0 authpath0 stack0 : Nat → chunk)
    (levels0 : Nat → Nat) (sk : xmss_sk_t) (sk_seed : bytes 48) :
    (gen_keys_fold E L N nodes0 authpath0 stack0 levels0 sk sk_seed).prf_seed
      = (E.shake256 96 sk_seed.1).slice 32 32 (by omega) := by
  unfold gen_keys_fold
  rw [gen_root_prf_seed, gen_seeds_prf_seed]

theorem gen_keys_pub_seed (E : xmss_env) (L N : Nat) (nodes0 authpath0 stack0 : Nat → chunk)
    (levels0 : Nat → Nat) (sk : xmss_sk_t) (sk_seed : bytes 48) :
    (gen_keys_fold E L N nodes0 authpath0 stack0 levels0 sk sk_seed).pub_seed
      = (E.shake256 96 sk_seed.1).slice 64 32 (by omega) := by
  unfold gen_keys_fold
  rw [gen_root_pub_seed, gen_seeds_pub_seed]

/-- The leaf that key generation computes for index `i`, written out from the 96 bytes `X` of
the expanded master secret. -/
theorem gen_nodes_of_seeds (E : xmss_env) (L : Nat) (sk : xmss_sk_t) (sk_seed : bytes 48)
    (i : Nat) :
    xmss_gen_keys_2_get_nodes E L (xmss_gen_keys_1_get_seeds E sk sk_seed) i =
      xmss_ltree_gen E.tohash_env L
        (E.wotsp_gen_pk
          (E.shash96 (E.set_adrs_otshash_OTS
            (E.set_key (E.PRF_init E.SHASH_TYPE_PRF)
              ((E.shake256 96 sk_seed.1).slice 0 32 (by omega))) (E.HtoNL i)))
          ((E.shake256 96 sk_seed.1).slice 64 32 (by omega)) i)
        ((E.shake256 96 sk_seed.1).slice 64 32 (by omega)) i := by
  unfold xmss_gen_keys_2_get_nodes xmss_get_seed_i
  rw [gen_seeds_seed, gen_seeds_pub_seed]

theorem gen_keys_root (E : xmss_env) (L N : Nat) (nodes0 authpath0 stack0 : Nat → chunk)
    (levels0 : Nat → Nat) (sk : xmss_sk_t) (sk_seed : bytes 48) :
    (gen_keys_fold E L N nodes0 authpath0 stack0 levels0 sk sk_seed).root =
      (treehash_fold_out E.tohash_env N stack0 levels0 authpath0
        (fun i => xmss_gen_keys_2_get_nodes E L (xmss_gen_keys_1_get_seeds E sk sk_seed) i)
        ((E.shake256 96 sk_seed.1).slice 64 32 (by omega)) 0).1 := by
  unfold gen_keys_fold
  rw [gen_root_root, gen_seeds_pub_seed]
  simp only [treehash_fold_out]
  rw [treehash_fold_congr E.tohash_env N stack0 levels0 authpath0 _
    (fun i => xmss_gen_keys_2_get_nodes E L (xmss_gen_keys_1_get_seeds E sk sk_seed) i) _ 0
    (fun i hi => gen_keys_nodes_apply E L _ nodes0 N i hi)]

theorem xmss_pk_raw (pk_out : xmss_pk_t) (sk_in : xmss_sk_t) :
    (xmss_pk pk_out sk_in).raw.1 = sk_in.root.1 ++ sk_in.pub_seed.1 := by
  have h1 := sk_in.root.2
  have h2 := sk_in.pub_seed.2
  have h3 := pk_out.raw.2
  simp only [xmss_pk, bytes.memcpy, List.take_zero, List.nil_append, Nat.zero_add]
  rw [List.take_append_of_le_length (by omega), List.take_of_length_le (by omega)]
  rw [List.drop_of_length_le (by simp)]
  simp

/-! ## The loops end -/

/-- With `stack_offset` passes allowed the `while` loop of `xmss_treehash` is left because its
guard fails, not because the passes run out. -/
theorem treehash_while_exit {α : Type} (E : hash_env α) (pub_seed : α) (leaf_index idx : Nat) :
    ∀ (fuel : Nat) (s : treehash_state α), s.stack_offset ≤ fuel + 1 →
      treehash_guard (treehash_while E pub_seed leaf_index idx fuel s) = false := by
  intro fuel
  induction fuel with
  | zero =>
    intro s h
    simp only [treehash_while, treehash_guard]
    simp
    intro h2
    omega
  | succ fuel ih =>
    intro s h
    rw [treehash_while]
    by_cases hg : treehash_guard s = true
    · rw [if_pos hg]
      apply ih
      simp only [treehash_merge]
      omega
    · rw [if_neg hg]
      simpa using hg

/-- With `l` passes allowed the `while` loop of `xmss_ltree_gen` is left with `l ≤ 1`. -/
theorem ltree_while_exit {α : Type} (E : hash_env α) (pub_seed : α) (index : Nat) :
    ∀ (fuel : Nat) (s : ltree_state α), s.l ≤ fuel → s.l + s.tree_height ≤ 255 →
      (ltree_while E pub_seed index fuel s).l ≤ 1 := by
  intro fuel
  induction fuel with
  | zero => intro s h _; rw [ltree_while]; omega
  | succ fuel ih =>
    intro s h1 h2
    rw [ltree_while]
    by_cases hl : 1 < s.l
    · rw [if_pos hl]
      obtain ⟨r1, r2, _⟩ := ltree_round_spec E pub_seed index s (by omega) (by omega)
      apply ih
      · rw [r1]; omega
      · rw [r1, r2]; omega
    · rw [if_neg hl]; omega


/-! ## Loops over a 16-bit counter: when they end -/

theorem uint16_for_range {σ : Type} (N : Nat) (body : σ → Nat → σ) (hN : N ≤ 65535) :
    ∀ (k fuel idx : Nat) (s : σ), idx + k = N → k < fuel →
      uint16_for N body fuel idx s = some ((List.range' idx k).foldl body s) := by
  intro k
  induction k with
  | zero =>
    intro fuel idx s h1 h2
    obtain ⟨f, rfl⟩ : ∃ f, fuel = f + 1 := ⟨fuel - 1, by omega⟩
    rw [uint16_for, if_neg (by omega)]
    rfl
  | succ k ih =>
    intro fuel idx s h1 h2
    obtain ⟨f, rfl⟩ : ∃ f, fuel = f + 1 := ⟨fuel - 1, by omega⟩
    rw [uint16_for, if_pos (by omega), Nat.mod_eq_of_lt (by omega),
      ih f (idx + 1) (body s idx) (by omega) (by omega)]
    rfl

/-- For a bound that the counter can reach, the 16-bit `for` loop is left, in the state the
body gives when run for `idx = 0, ..., N - 1` in turn. -/
theorem uint16_for_eq_foldl {σ : Type} (N : Nat) (body : σ → Nat → σ) (hN : N ≤ 65535) (s : σ) :
    uint16_for N body 65536 0 s = some ((List.range N).foldl body s) := by
  rw [uint16_for_range N body hN N 65536 0 s (by omega) (by omega), List.range_eq_range']

/-- For a bound above every 16-bit value the `for` loop is never left, whatever the number of
guard tests allowed. -/
theorem uint16_for_diverges {σ : Type} (N : Nat) (body : σ → Nat → σ) (hN : 65536 ≤ N) :
    ∀ (fuel idx : Nat) (s : σ), idx < 65536 → uint16_for N body fuel idx s = none := by
  intro fuel
  induction fuel with
  | zero => intro idx s _; rfl
  | succ fuel ih =>
    intro idx s h
    rw [uint16_for, if_pos (by omega)]
    exact ih _ _ (Nat.mod_lt _ (by norm_num))

theorem xmss_treehash_run_eq {α : Type} (E : hash_env α) (N : Nat) (hN : N ≤ 65535)
    (stack0 : Nat → α) (levels0 : Nat → Nat) (authpath nodes : Nat → α) (pub_seed : α)
    (leaf_index : Nat) :
    xmss_treehash_run E N stack0 levels0 authpath nodes pub_seed leaf_index =
      some (treehash_fold E N stack0 levels0 authpath nodes pub_seed leaf_index) :=
  uint16_for_eq_foldl N _ hN _

theorem xmss_treehash_eq {α : Type} (E : hash_env α) (N : Nat) (hN : N ≤ 65535)
    (stack0 : Nat → α) (levels0 : Nat → Nat) (authpath nodes : Nat → α) (pub_seed : α)
    (leaf_index : Nat) :
    xmss_treehash E N stack0 levels0 authpath nodes pub_seed leaf_index =
      some (treehash_fold_out E N stack0 levels0 authpath nodes pub_seed leaf_index) := by
  rw [xmss_treehash, xmss_treehash_run_eq E N hN]
  rfl

theorem two_pow_le_of_le_15 (H : Nat) (hH : H ≤ 15) : 2 ^ H ≤ 65535 := by
  have h : 2 ^ H ≤ 2 ^ 15 := Nat.pow_le_pow_right (by norm_num) hH
  norm_num at h
  omega

theorem xmss_gen_keys_nodes_eq (E : xmss_env) (L N : Nat) (hN : N ≤ 65535) (sk : xmss_sk_t)
    (nodes0 : Nat → chunk) :
    xmss_gen_keys_nodes E L N sk nodes0 = some (gen_keys_nodes_fold E L N sk nodes0) :=
  uint16_for_eq_foldl N _ hN _

theorem xmss_gen_keys_3_get_root_eq (E : xmss_env) (N : Nat) (hN : N ≤ 65535)
    (stack0 : Nat → chunk) (levels0 : Nat → Nat) (authpath0 xmss_nodes : Nat → chunk)
    (sk : xmss_sk_t) :
    xmss_gen_keys_3_get_root E N stack0 levels0 authpath0 xmss_nodes sk =
      some (gen_root_fold E N stack0 levels0 authpath0 xmss_nodes sk) := by
  rw [xmss_gen_keys_3_get_root, xmss_treehash_eq E.tohash_env N hN]
  rfl

/-- With at most 65535 leaves `xmss_gen_keys` returns, and returns the record `gen_keys_fold`. -/
theorem xmss_gen_keys_eq (E : xmss_env) (L N : Nat) (hN : N ≤ 65535)
    (nodes0 authpath0 stack0 : Nat → chunk) (levels0 : Nat → Nat) (sk : xmss_sk_t)
    (sk_seed : bytes 48) :
    xmss_gen_keys E L N nodes0 authpath0 stack0 levels0 sk sk_seed =
      some (gen_keys_fold E L N nodes0 authpath0 stack0 levels0 sk sk_seed) := by
  rw [xmss_gen_keys, xmss_gen_keys_nodes_eq E L N hN, Option.some_bind,
    xmss_gen_keys_3_get_root_eq E N hN]
  rfl

/-! ## The stack offset stays small -/

theorem treehash_while_offset_le {α : Type} (E : hash_env α) (pub_seed : α)
    (leaf_index idx : Nat) :
    ∀ (fuel : Nat) (s : treehash_state α),
      (treehash_while E pub_seed leaf_index idx fuel s).stack_offset ≤ s.stack_offset := by
  intro fuel
  induction fuel with
  | zero => intro s; exact le_refl _
  | succ fuel ih =>
    intro s
    rw [treehash_while]
    split
    · exact le_trans (ih _) (by simp only [treehash_merge]; omega)
    · exact le_refl _

/-- After `n` leaves the stack holds at most `n` entries, so the `uint32_t stack_offset` has
not wrapped. -/
theorem treehash_fold_offset_le {α : Type} (E : hash_env α) (stack0 : Nat → α)
    (levels0 : Nat → Nat) (authpath nodes : Nat → α) (pub_seed : α) (leaf_index : Nat) :
    ∀ n, (treehash_fold E n stack0 levels0 authpath nodes pub_seed leaf_index).stack_offset
      ≤ n := by
  intro n
  induction n with
  | zero => simp [treehash_fold, treehash_init]
  | succ n ih =>
    unfold treehash_fold at ih ⊢
    rw [List.range_succ, List.foldl_append, List.foldl_cons, List.foldl_nil, treehash_body]
    refine le_trans (treehash_while_offset_le E pub_seed leaf_index n _ _) ?_
    simp only [treehash_push]
    omega

/-! ## Claims on xmss_treehash -/

/-- C1: for `2^H` leaves (`H ≤ 15`, the range of the 16-bit leaf counter) and a valid target
`i < 2^H`, `xmss_treehash` returns, and hashing leaf `i` upward through slots `0, 1, ..., H-1`
of the authentication path it wrote (current value left when bit `k` of `i` is 0, right
otherwise, tree-node address of height `k` and index `i >> (k+1)`) gives the value the same
call wrote to `root_out`. -/
theorem xmss_treehash_authpath_reconstructs_root {α : Type} (E : hash_env α) (H : Nat)
    (hH : H ≤ 15) (stack0 : Nat → α) (levels0 : Nat → Nat) (authpath nodes : Nat → α)
    (pub_seed : α) (i : Nat) (hi : i < 2 ^ H) :
    ∃ (root_out : α) (path : Nat → α),
      xmss_treehash E (2 ^ H) stack0 levels0 authpath nodes pub_seed i = some (root_out, path) ∧
      auth_climb E pub_seed path i H 0 (nodes i) = root_out := by
  refine ⟨_, _, xmss_treehash_eq E (2 ^ H) (two_pow_le_of_le_15 H hH) stack0 levels0 authpath
    nodes pub_seed i, ?_⟩
  have hroot : (treehash_fold_out E (2 ^ H) stack0 levels0 authpath nodes pub_seed i).1
      = merkle_node E nodes pub_seed H 0 :=
    (treehash_fold_fields E H hH stack0 levels0 authpath nodes pub_seed i).2.1
  have hclimb := auth_climb_nodes E nodes pub_seed
    (treehash_fold_out E (2 ^ H) stack0 levels0 authpath nodes pub_seed i).2 i H 0 (nodes i)
    (by simp [merkle_node])
    (fun j _ hj => treehash_authpath_slot E H hH stack0 levels0 authpath nodes pub_seed i hi j
      (by omega))
  have hz : i >>> (0 + H) = 0 := by
    rw [Nat.zero_add, Nat.shiftRight_eq_div_pow]
    exact Nat.div_eq_of_lt hi
  rw [hz, Nat.zero_add] at hclimb
  exact hclimb.trans hroot.symm

/-- C1 at `H = 2`, target 2, leaves `1, 2, 3, 4`. -/
theorem xmss_treehash_authpath_reconstructs_root_witness :
    2 ≤ 15 ∧ 2 < 2 ^ 2 ∧
      ∃ (root_out : Nat) (path : Nat → Nat),
        xmss_treehash test_env (2 ^ 2) (fun _ => 0) (fun _ => 0) (fun _ => 0)
          (fun j => j + 1) 5 2 = some (root_out, path) ∧
        auth_climb test_env 5 path 2 2 0 ((fun j => j + 1) 2) = root_out :=
  ⟨by decide, by decide,
    xmss_treehash_authpath_reconstructs_root test_env 2 (by decide) (fun _ => 0) (fun _ => 0)
      (fun _ => 0) (fun j => j + 1) 5 2 (by decide)⟩

/-- C2: for `2^H` leaves (`H ≤ 15`) and any target index, `xmss_treehash` returns and the
value it writes to `root_out` is the recursively defined Merkle root `merkle_node H 0`
(`node(0,p) = leaf p`, `node(l+1,p) = shash_h(node(l,2p), node(l,2p+1))` keyed with `pub_seed`
under the tree-node address of height `l` and index `p`); when the leaf loop ends exactly one
stack entry remains (`stack_offset = 1`), of level `H`, and it is that root. -/
theorem xmss_treehash_root_eq_merkle_root {α : Type} (E : hash_env α) (H : Nat)
    (hH : H ≤ 15) (stack0 : Nat → α) (levels0 : Nat → Nat) (authpath nodes : Nat → α)
    (pub_seed : α) (leaf_index : Nat) :
    ∃ s : treehash_state α,
      xmss_treehash_run E (2 ^ H) stack0 levels0 authpath nodes pub_seed leaf_index = some s ∧
      s.stack_offset = 1 ∧
      s.stack 0 = merkle_node E nodes pub_seed H 0 ∧
      s.stack_levels 0 = H ∧
      xmss_treehash E (2 ^ H) stack0 levels0 authpath nodes pub_seed leaf_index
        = some (merkle_node E nodes pub_seed H 0, s.authpath) := by
  have hN := two_pow_le_of_le_15 H hH
  have h := treehash_fold_final E H hH stack0 levels0 authpath nodes pub_seed leaf_index
  have hf := treehash_fold_fields E H hH stack0 levels0 authpath nodes pub_seed leaf_index
  refine ⟨_, xmss_treehash_run_eq E (2 ^ H) hN stack0 levels0 authpath nodes pub_seed leaf_index,
    hf.1, hf.2.1, ?_, ?_⟩
  · simp only [treehash_view, hf.1, stack_list, Prod.mk.injEq, List.cons.injEq, and_true] at h
    exact h.1.2
  · rw [xmss_treehash_eq E (2 ^ H) hN, treehash_fold_out, hf.2.1]

/-- C2 at `H = 3`, target 6, leaves `1, ..., 8`. -/
theorem xmss_treehash_root_eq_merkle_root_witness :
    3 ≤ 15 ∧
      ∃ s : treehash_state Nat,
        xmss_treehash_run test_env (2 ^ 3) (fun _ => 0) (fun _ => 0) (fun _ => 0)
          (fun j => j + 1) 5 6 = some s ∧
        s.stack_offset = 1 ∧
        s.stack 0 = merkle_node test_env (fun j => j + 1) 5 3 0 ∧
        s.stack_levels 0 = 3 ∧
        xmss_treehash test_env (2 ^ 3) (fun _ => 0) (fun _ => 0) (fun _ => 0)
          (fun j => j + 1) 5 6
          = some (merkle_node test_env (fun j => j + 1) 5 3 0, s.authpath) :=
  ⟨by decide,
    xmss_treehash_root_eq_merkle_root test_env 3 (by decide) (fun _ => 0) (fun _ => 0)
      (fun _ => 0) (fun j => j + 1) 5 6⟩

/-- C3 (as stated, refuted): with `2^2` leaves `1, 2, 3, 4`, target 0 and an `authpath` buffer
of zeros, the call leaves 12162 in slot `2 - 1`: a slot of index `H-1` is written. -/
theorem xmss_treehash_path_length_counterexample :
    (xmss_treehash test_env (2 ^ 2) (fun _ => 0) (fun _ => 0) (fun _ => 0)
        (fun j => j + 1) 5 0).map (fun out => out.2 (2 - 1)) = some 12162 ∧
      (12162 : Nat) ≠ (fun _ => 0) (2 - 1) := by
  decide

/-- C3 (amended): for `2^H` leaves (`H ≤ 15`) and a valid target `i < 2^H` the authentication
path that `xmss_treehash` produces has exactly `H` entries: no slot of index `H` or higher is
written (it keeps what the caller's buffer held), and every slot `k < H` is written (its final
value is the same whatever the buffer and the uninitialised locals held before). -/
theorem xmss_treehash_path_extent {α : Type} (E : hash_env α) (H : Nat) (hH : H ≤ 15)
    (stack0 : Nat → α) (levels0 : Nat → Nat) (authpath nodes : Nat → α) (pub_seed : α)
    (i : Nat) (hi : i < 2 ^ H) :
    ∃ (root_out : α) (path : Nat → α),
      xmss_treehash E (2 ^ H) stack0 levels0 authpath nodes pub_seed i = some (root_out, path) ∧
      (∀ k, H ≤ k → path k = authpath k) ∧
      (∀ k, k < H → ∀ (stack1 : Nat → α) (levels1 : Nat → Nat) (authpath1 : Nat → α),
        ∃ (root1 : α) (path1 : Nat → α),
          xmss_treehash E (2 ^ H) stack1 levels1 authpath1 nodes pub_seed i
            = some (root1, path1) ∧
          path k = path1 k) := by
  have hN := two_pow_le_of_le_15 H hH
  refine ⟨_, _, xmss_treehash_eq E (2 ^ H) hN stack0 levels0 authpath nodes pub_seed i,
    fun k hk => treehash_authpath_frame E H hH stack0 levels0 authpath nodes pub_seed i hi k hk,
    ?_⟩
  intro k hk stack1 levels1 authpath1
  exact ⟨_, _, xmss_treehash_eq E (2 ^ H) hN stack1 levels1 authpath1 nodes pub_seed i,
    (treehash_authpath_slot E H hH stack0 levels0 authpath nodes pub_seed i hi k hk).trans
      (treehash_authpath_slot E H hH stack1 levels1 authpath1 nodes pub_seed i hi k hk).symm⟩

/-- C3 (amended) at `H = 2`, target 0, leaves `1, 2, 3, 4`. -/
theorem xmss_treehash_path_extent_witness :
    2 ≤ 15 ∧ 0 < 2 ^ 2 ∧
      ∃ (root_out : Nat) (path : Nat → Nat),
        xmss_treehash test_env (2 ^ 2) (fun _ => 0) (fun _ => 0) (fun _ => 0)
          (fun j => j + 1) 5 0 = some (root_out, path) ∧
        (∀ k, 2 ≤ k → path k = (fun _ => 0) k) ∧
        (∀ k, k < 2 → ∀ (stack1 : Nat → Nat) (levels1 : Nat → Nat) (authpath1 : Nat → Nat),
          ∃ (root1 : Nat) (path1 : Nat → Nat),
            xmss_treehash test_env (2 ^ 2) stack1 levels1 authpath1 (fun j => j + 1) 5 0
              = some (root1, path1) ∧
            path k = path1 k) :=
  ⟨by decide, by decide,
    xmss_treehash_path_extent test_env 2 (by decide) (fun _ => 0) (fun _ => 0) (fun _ => 0)
      (fun j => j + 1) 5 0 (by decide)⟩

/-! ## Claims on xmss_ltree_gen -/

/-- C7: for a one-time public key of `L` chunks (`1 ≤ L ≤ 255`, the range of the 8-bit width
`l`; `WOTS_LEN = 67` is one such `L`), public seed and leaf index, `xmss_ltree_gen` returns the
value of the reference level-by-level reduction `ltree_ref` of the chunks `0 .. L-1` of the
buffer: pairs `(2j, 2j+1)` compressed under the L-tree address (ltree = leaf index, height =
level, index = `j`), an odd last chunk carried over unmodified, until one chunk is left. -/
theorem xmss_ltree_gen_eq_reference {α : Type} (E : hash_env α) (L : Nat) (h1 : 1 ≤ L)
    (h2 : L ≤ 255) (tmp_wotspk : Nat → α) (pub_seed : α) (index : Nat) :
    ltree_ref E pub_seed index L 0 ((List.range L).map tmp_wotspk)
      = some (xmss_ltree_gen E L tmp_wotspk pub_seed index) := by
  have hmod : L % 256 = L := Nat.mod_eq_of_lt (by omega)
  have h := ltree_while_ref E pub_seed index L
    { l := L, tree_height := 0, tmp_wotspk := tmp_wotspk } h1 (le_refl L) (by simpa using h2)
  simp only [xmss_ltree_gen, xmss_ltree_run, hmod]
  exact h

/-- C7 at `WOTS_LEN = 67` with the chunks `1, 3, 5, ...`. -/
theorem xmss_ltree_gen_eq_reference_witness :
    1 ≤ 67 ∧ 67 ≤ 255 ∧
      ltree_ref test_env 5 9 67 0 ((List.range 67).map (fun j => 2 * j + 1))
        = some (xmss_ltree_gen test_env 67 (fun j => 2 * j + 1) 5 9) :=
  ⟨by decide, by decide,
    xmss_ltree_gen_eq_reference test_env 67 (by decide) (by decide) (fun j => 2 * j + 1) 5 9⟩

/-! ## Claims on key generation -/

/-- C5 (as stated, refuted): run on a record whose `index` bytes are `7, 0, 0, 0`,
`xmss_gen_keys` returns a record whose `index` bytes are still `7, 0, 0, 0`, not zero. -/
theorem xmss_gen_keys_index_counterexample :
    (xmss_gen_keys test_xmss_env 67 (2 ^ 1) (fun _ => chunk_of 0) (fun _ => chunk_of 0)
        (fun _ => chunk_of 0) (fun _ => 0) (test_sk 7) test_master).map xmss_sk_t.index
      = some ⟨[7, 0, 0, 0], rfl⟩ := by
  rw [xmss_gen_keys_eq test_xmss_env 67 (2 ^ 1) (by decide), Option.map_some', gen_keys_index]
  decide

/-- C5 (amended): for every master secret and every prior content of the record,
`xmss_gen_keys` (with at most 65535 leaves, so that its loops end) leaves the `index` field as
it found it; the key has `index = 0` when the caller passed a record whose `index` was 0. -/
theorem xmss_gen_keys_index_kept (E : xmss_env) (WOTS_LEN XMSS_NUM_NODES : Nat)
    (hN : XMSS_NUM_NODES ≤ 65535)
    (nodes0 authpath0 stack0 : Nat → chunk) (levels0 : Nat → Nat) (sk : xmss_sk_t)
    (sk_seed : bytes 48) :
    ∃ sk1 : xmss_sk_t,
      xmss_gen_keys E WOTS_LEN XMSS_NUM_NODES nodes0 authpath0 stack0 levels0 sk sk_seed
        = some sk1 ∧
      sk1.index = sk.index :=
  ⟨_, xmss_gen_keys_eq E WOTS_LEN XMSS_NUM_NODES hN nodes0 authpath0 stack0 levels0 sk sk_seed,
    gen_keys_index E WOTS_LEN XMSS_NUM_NODES nodes0 authpath0 stack0 levels0 sk sk_seed⟩

/-- C5 (amended) at 2 leaves, on a record whose `index` bytes are `7, 0, 0, 0`. -/
theorem xmss_gen_keys_index_kept_witness :
    2 ^ 1 ≤ 65535 ∧
      ∃ sk1 : xmss_sk_t,
        xmss_gen_keys test_xmss_env 67 (2 ^ 1) (fun _ => chunk_of 0) (fun _ => chunk_of 0)
          (fun _ => chunk_of 0) (fun _ => 0) (test_sk 7) test_master = some sk1 ∧
        sk1.index = (test_sk 7).index :=
  ⟨by decide,
    xmss_gen_keys_index_kept test_xmss_env 67 (2 ^ 1) (by decide) (fun _ => chunk_of 0)
      (fun _ => chunk_of 0) (fun _ => chunk_of 0) (fun _ => 0) (test_sk 7) test_master⟩

/-- C6 (as stated, refuted): two runs on the same master secret, one on a record whose `index`
bytes are `0, 0, 0, 0` and one on a record where they are `1, 0, 0, 0`, return different
secret-key records. -/
theorem xmss_gen_keys_determinism_counterexample :
    ∃ sk1 sk2 : xmss_sk_t,
      xmss_gen_keys test_xmss_env 67 (2 ^ 1) (fun _ => chunk_of 0) (fun _ => chunk_of 0)
        (fun _ => chunk_of 0) (fun _ => 0) (test_sk 0) test_master = some sk1 ∧
      xmss_gen_keys test_xmss_env 67 (2 ^ 1) (fun _ => chunk_of 0) (fun _ => chunk_of 0)
        (fun _ => chunk_of 0) (fun _ => 0) (test_sk 1) test_master = some sk2 ∧
      sk1 ≠ sk2 := by
  refine ⟨_, _, xmss_gen_keys_eq test_xmss_env 67 (2 ^ 1) (by decide) _ _ _ _ _ _,
    xmss_gen_keys_eq test_xmss_env 67 (2 ^ 1) (by decide) _ _ _ _ _ _, ?_⟩
  intro h
  have h2 := congrArg xmss_sk_t.index h
  rw [gen_keys_index, gen_keys_index] at h2
  revert h2
  decide

/-- C6 (amended): for `2^H` leaves (`H ≤ 15`) two runs of `xmss_gen_keys` on the same master
secret, whatever the two records and the uninitialised locals held before, return records that
agree on `seed`, `prf_seed`, `pub_seed` and `root` (bytes 4 to 131), hence give the same public
key, and compute the same leaves; the `index` field of each is what that record held before
the run. -/
theorem xmss_gen_keys_deterministic_fields (E : xmss_env) (WOTS_LEN H : Nat) (hH : H ≤ 15)
    (nodes1 authpath1 stack1 : Nat → chunk) (levels1 : Nat → Nat)
    (nodes2 authpath2 stack2 : Nat → chunk) (levels2 : Nat → Nat)
    (sk1 sk2 : xmss_sk_t) (pk1 pk2 : xmss_pk_t) (sk_seed : bytes 48) :
    ∃ (r1 r2 : xmss_sk_t) (leaves1 leaves2 : Nat → chunk),
      xmss_gen_keys E WOTS_LEN (2 ^ H) nodes1 authpath1 stack1 levels1 sk1 sk_seed = some r1 ∧
      xmss_gen_keys E WOTS_LEN (2 ^ H) nodes2 authpath2 stack2 levels2 sk2 sk_seed = some r2 ∧
      xmss_gen_keys_nodes E WOTS_LEN (2 ^ H) (xmss_gen_keys_1_get_seeds E sk1 sk_seed) nodes1
        = some leaves1 ∧
      xmss_gen_keys_nodes E WOTS_LEN (2 ^ H) (xmss_gen_keys_1_get_seeds E sk2 sk_seed) nodes2
        = some leaves2 ∧
      r1.seed = r2.seed ∧ r1.prf_seed = r2.prf_seed ∧ r1.pub_seed = r2.pub_seed ∧
      r1.root = r2.root ∧
      xmss_pk pk1 r1 = xmss_pk pk2 r2 ∧
      (∀ i, i < 2 ^ H → leaves1 i = leaves2 i) ∧
      r1.index = sk1.index ∧ r2.index = sk2.index := by
  have hN := two_pow_le_of_le_15 H hH
  have hleaf : (fun i => xmss_gen_keys_2_get_nodes E WOTS_LEN
        (xmss_gen_keys_1_get_seeds E sk1 sk_seed) i)
      = (fun i => xmss_gen_keys_2_get_nodes E WOTS_LEN
        (xmss_gen_keys_1_get_seeds E sk2 sk_seed) i) :=
    funext (fun i => by rw [gen_nodes_of_seeds, gen_nodes_of_seeds])
  have hseed := (gen_keys_seed E WOTS_LEN (2 ^ H) nodes1 authpath1 stack1 levels1 sk1 sk_seed).trans
    (gen_keys_seed E WOTS_LEN (2 ^ H) nodes2 authpath2 stack2 levels2 sk2 sk_seed).symm
  have hprf := (gen_keys_prf_seed E WOTS_LEN (2 ^ H) nodes1 authpath1 stack1 levels1 sk1
    sk_seed).trans
    (gen_keys_prf_seed E WOTS_LEN (2 ^ H) nodes2 authpath2 stack2 levels2 sk2 sk_seed).symm
  have hpub := (gen_keys_pub_seed E WOTS_LEN (2 ^ H) nodes1 authpath1 stack1 levels1 sk1
    sk_seed).trans
    (gen_keys_pub_seed E WOTS_LEN (2 ^ H) nodes2 authpath2 stack2 levels2 sk2 sk_seed).symm
  have hroot :
      (gen_keys_fold E WOTS_LEN (2 ^ H) nodes1 authpath1 stack1 levels1 sk1 sk_seed).root
        = (gen_keys_fold E WOTS_LEN (2 ^ H) nodes2 authpath2 stack2 levels2 sk2 sk_seed).root := by
    rw [gen_keys_root, gen_keys_root]
    simp only [treehash_fold_out]
    rw [(treehash_fold_fields E.tohash_env H hH stack1 levels1 authpath1 _ _ 0).2.1,
      (treehash_fold_fields E.tohash_env H hH stack2 levels2 authpath2 _ _ 0).2.1, hleaf]
  refine ⟨_, _, _, _,
    xmss_gen_keys_eq E WOTS_LEN (2 ^ H) hN nodes1 authpath1 stack1 levels1 sk1 sk_seed,
    xmss_gen_keys_eq E WOTS_LEN (2 ^ H) hN nodes2 authpath2 stack2 levels2 sk2 sk_seed,
    xmss_gen_keys_nodes_eq E WOTS_LEN (2 ^ H) hN _ nodes1,
    xmss_gen_keys_nodes_eq E WOTS_LEN (2 ^ H) hN _ nodes2,
    hseed, hprf, hpub, hroot, ?_, ?_, gen_keys_index _ _ _ _ _ _ _ _ _,
    gen_keys_index _ _ _ _ _ _ _ _ _⟩
  · have hraw : (xmss_pk pk1
          (gen_keys_fold E WOTS_LEN (2 ^ H) nodes1 authpath1 stack1 levels1 sk1 sk_seed)).raw
        = (xmss_pk pk2
          (gen_keys_fold E WOTS_LEN (2 ^ H) nodes2 authpath2 stack2 levels2 sk2 sk_seed)).raw := by
      apply Subtype.ext
      rw [xmss_pk_raw, xmss_pk_raw, hroot, hpub]
    cases hx : xmss_pk pk1
      (gen_keys_fold E WOTS_LEN (2 ^ H) nodes1 authpath1 stack1 levels1 sk1 sk_seed)
    cases hy : xmss_pk pk2
      (gen_keys_fold E WOTS_LEN (2 ^ H) nodes2 authpath2 stack2 levels2 sk2 sk_seed)
    rw [hx, hy] at hraw
    simpa using hraw
  · intro i hi
    rw [gen_keys_nodes_apply E WOTS_LEN _ nodes1 (2 ^ H) i hi,
      gen_keys_nodes_apply E WOTS_LEN _ nodes2 (2 ^ H) i hi]
    exact congrFun hleaf i

/-- C6 (amended) at 2 leaves, on records with `index` bytes `0, 0, 0, 0` and `1, 0, 0, 0` and
different contents of the local arrays. -/
theorem xmss_gen_keys_deterministic_fields_witness :
    1 ≤ 15 ∧
      ∃ (r1 r2 : xmss_sk_t) (leaves1 leaves2 : Nat → chunk),
        xmss_gen_keys test_xmss_env 67 (2 ^ 1) (fun _ => chunk_of 0) (fun _ => chunk_of 0) (fun _ => chunk_of 0)
          (fun _ => 0) (test_sk 0) test_master = some r1 ∧
        xmss_gen_keys test_xmss_env 67 (2 ^ 1) (fun _ => chunk_of 1) (fun _ => chunk_of 2) (fun _ => chunk_of 3)
          (fun _ => 4) (test_sk 1) test_master = some r2 ∧
        xmss_gen_keys_nodes test_xmss_env 67 (2 ^ 1)
          (xmss_gen_keys_1_get_seeds test_xmss_env (test_sk 0) test_master)
          (fun _ => chunk_of 0) = some leaves1 ∧
        xmss_gen_keys_nodes test_xmss_env 67 (2 ^ 1)
          (xmss_gen_keys_1_get_seeds test_xmss_env (test_sk 1) test_master)
          (fun _ => chunk_of 1) = some leaves2 ∧
        r1.seed = r2.seed ∧ r1.prf_seed = r2.prf_seed ∧ r1.pub_seed = r2.pub_seed ∧
        r1.root = r2.root ∧
        xmss_pk (test_pk 0) r1 = xmss_pk (test_pk 9) r2 ∧
        (∀ i, i < 2 ^ 1 → leaves1 i = leaves2 i) ∧
        r1.index = (test_sk 0).index ∧ r2.index = (test_sk 1).index :=
  ⟨by decide,
    xmss_gen_keys_deterministic_fields test_xmss_env 67 1 (by decide)
      (fun _ => chunk_of 0) (fun _ => chunk_of 0) (fun _ => chunk_of 0) (fun _ => 0)
      (fun _ => chunk_of 1) (fun _ => chunk_of 2) (fun _ => chunk_of 3) (fun _ => 4)
      (test_sk 0) (test_sk 1) (test_pk 0) (test_pk 9) test_master⟩

/-- C9: for every 48-byte master secret `xmss_gen_keys_1_get_seeds` takes the 96 bytes `X` that
the XOF (`shake256` with output length 96) gives for it and stores them through `seeds.raw`,
so that `seed = X[0..32)`, `prf_seed = X[32..64)`, `pub_seed = X[64..96)`; the `index` and
`root` fields of the record are unchanged. -/
theorem xmss_gen_keys_1_get_seeds_layout (E : xmss_env) (sk : xmss_sk_t) (sk_seed : bytes 48) :
    (xmss_gen_keys_1_get_seeds E sk sk_seed).seeds_raw = E.shake256 96 sk_seed.1 ∧
      (xmss_gen_keys_1_get_seeds E sk sk_seed).seed
        = (E.shake256 96 sk_seed.1).slice 0 32 (by omega) ∧
      (xmss_gen_keys_1_get_seeds E sk sk_seed).prf_seed
        = (E.shake256 96 sk_seed.1).slice 32 32 (by omega) ∧
      (xmss_gen_keys_1_get_seeds E sk sk_seed).pub_seed
        = (E.shake256 96 sk_seed.1).slice 64 32 (by omega) ∧
      (xmss_gen_keys_1_get_seeds E sk sk_seed).index = sk.index ∧
      (xmss_gen_keys_1_get_seeds E sk sk_seed).root = sk.root :=
  ⟨gen_seeds_seeds_raw E sk sk_seed, gen_seeds_seed E sk sk_seed, gen_seeds_prf_seed E sk sk_seed,
    gen_seeds_pub_seed E sk sk_seed, gen_seeds_index E sk sk_seed, gen_seeds_root E sk sk_seed⟩

/-- C10: for every master secret (and at most 65535 leaves, so that the loops end) the `root`
field that `xmss_gen_keys` leaves is the root that `xmss_treehash` computes with target 0 over
the leaf array whose entry `i` is `xmss_ltree_gen` of the one-time public key
`wotsp_gen_pk(PRF(seed, OTS address of i), pub_seed, i)` with `pub_seed` and index `i`, where
`seed = X[0..32)` and `pub_seed = X[64..96)` of the 96 bytes `X` expanded from the master
secret. -/
theorem xmss_gen_keys_root_eq_treehash (E : xmss_env) (WOTS_LEN XMSS_NUM_NODES : Nat)
    (hN : XMSS_NUM_NODES ≤ 65535)
    (nodes0 authpath0 stack0 : Nat → chunk) (levels0 : Nat → Nat) (sk : xmss_sk_t)
    (sk_seed : bytes 48) :
    ∃ (sk1 : xmss_sk_t) (out : chunk × (Nat → chunk)),
      xmss_gen_keys E WOTS_LEN XMSS_NUM_NODES nodes0 authpath0 stack0 levels0 sk sk_seed
        = some sk1 ∧
      xmss_treehash E.tohash_env XMSS_NUM_NODES stack0 levels0 authpath0
        (fun i => xmss_ltree_gen E.tohash_env WOTS_LEN
          (E.wotsp_gen_pk
            (E.shash96 (E.set_adrs_otshash_OTS
              (E.set_key (E.PRF_init E.SHASH_TYPE_PRF)
                ((E.shake256 96 sk_seed.1).slice 0 32 (by omega))) (E.HtoNL i)))
            ((E.shake256 96 sk_seed.1).slice 64 32 (by omega)) i)
          ((E.shake256 96 sk_seed.1).slice 64 32 (by omega)) i)
        ((E.shake256 96 sk_seed.1).slice 64 32 (by omega)) 0 = some out ∧
      sk1.root = out.1 := by
  refine ⟨_, _,
    xmss_gen_keys_eq E WOTS_LEN XMSS_NUM_NODES hN nodes0 authpath0 stack0 levels0 sk sk_seed,
    xmss_treehash_eq E.tohash_env XMSS_NUM_NODES hN _ _ _ _ _ _, ?_⟩
  rw [gen_keys_root]
  congr 2
  funext i
  exact gen_nodes_of_seeds E WOTS_LEN sk sk_seed i

/-- C10 at 2 leaves of 67 chunks, all-zero master secret. -/
theorem xmss_gen_keys_root_eq_treehash_witness :
    2 ^ 1 ≤ 65535 ∧
      ∃ (sk1 : xmss_sk_t) (out : chunk × (Nat → chunk)),
        xmss_gen_keys test_xmss_env 67 (2 ^ 1) (fun _ => chunk_of 0) (fun _ => chunk_of 0)
          (fun _ => chunk_of 0) (fun _ => 0) (test_sk 0) test_master = some sk1 ∧
        xmss_treehash test_xmss_env.tohash_env (2 ^ 1) (fun _ => chunk_of 0) (fun _ => 0)
          (fun _ => chunk_of 0)
          (fun i => xmss_ltree_gen test_xmss_env.tohash_env 67
            (test_xmss_env.wotsp_gen_pk
              (test_xmss_env.shash96 (test_xmss_env.set_adrs_otshash_OTS
                (test_xmss_env.set_key (test_xmss_env.PRF_init test_xmss_env.SHASH_TYPE_PRF)
                  ((test_xmss_env.shake256 96 test_master.1).slice 0 32 (by omega)))
                (test_xmss_env.HtoNL i)))
              ((test_xmss_env.shake256 96 test_master.1).slice 64 32 (by omega)) i)
            ((test_xmss_env.shake256 96 test_master.1).slice 64 32 (by omega)) i)
          ((test_xmss_env.shake256 96 test_master.1).slice 64 32 (by omega)) 0 = some out ∧
        sk1.root = out.1 :=
  ⟨by decide,
    xmss_gen_keys_root_eq_treehash test_xmss_env 67 (2 ^ 1) (by decide) (fun _ => chunk_of 0)
      (fun _ => chunk_of 0) (fun _ => chunk_of 0) (fun _ => 0) (test_sk 0) test_master⟩

/-! ## Claims on signing -/

theorem xmss_sign_eq (E : xmss_env) (N : Nat) (hN : N ≤ 65535) (stack0 : Nat → chunk)
    (levels0 : Nat → Nat) (sig : xmss_signature_t) (msg : chunk) (sk : xmss_sk_t)
    (xmss_nodes : Nat → chunk) (index : Nat) :
    xmss_sign E N stack0 levels0 sig msg sk xmss_nodes index =
      some
        { index := E.NtoHL index
          randomness := xmss_sign_randomness E sk index
          wots_sig :=
            E.wotsp_sign (xmss_sign_digest E msg sk index) sk.pub_seed
              (xmss_get_seed_i E sk index) index
          auth_path :=
            (treehash_fold_out E.tohash_env N stack0 levels0 sig.auth_path xmss_nodes
              sk.pub_seed index).2 } := by
  rw [xmss_sign, xmss_treehash_eq E.tohash_env N hN]
  rfl

/-- C8: for every secret key, leaf array, message digest `msg` and index (`NUM_LEAVES ≤ 65535`,
so that the call returns), the signature that `xmss_sign` writes has: `randomness` = the PRF
(`shash96`) keyed with `sk.prf_seed` on the block carrying `HtoNL(index)` in `R.index`;
`wots_sig` = `wotsp_sign` with `sk.pub_seed` and the per-leaf seed, over the digest
`shash160(randomness, sk.root, NtoHL(index), msg)` and not over `msg`; the per-leaf seed is the
PRF keyed with `sk.seed` on the OTS address of `index`, the derivation by which
`xmss_gen_keys_2_get_nodes` makes leaf `index`, and for a key made by `xmss_gen_keys` it is the
very seed from which that leaf was made; `auth_path` = the path `xmss_treehash` computes for
target `index`. -/
theorem xmss_sign_fields (E : xmss_env) (WOTS_LEN XMSS_NUM_NODES : Nat)
    (hN : XMSS_NUM_NODES ≤ 65535) (stack0 : Nat → chunk)
    (levels0 : Nat → Nat) (sig : xmss_signature_t) (msg : chunk) (sk : xmss_sk_t)
    (xmss_nodes : Nat → chunk) (index : Nat) :
    ∃ (s : xmss_signature_t) (out : chunk × (Nat → chunk)),
      xmss_sign E XMSS_NUM_NODES stack0 levels0 sig msg sk xmss_nodes index = some s ∧
      xmss_treehash E.tohash_env XMSS_NUM_NODES stack0 levels0 sig.auth_path xmss_nodes
        sk.pub_seed index = some out ∧
      s.randomness
        = E.shash96 (E.set_R_index (E.set_key (E.PRF_init E.SHASH_TYPE_PRF) sk.prf_seed)
            (E.HtoNL index)) ∧
      s.wots_sig
        = E.wotsp_sign
            (E.shash160
              { type31 := E.SHASH_TYPE_HASH
                R := s.randomness
                root := sk.root
                index := E.NtoHL index
                msg_hash := msg })
            sk.pub_seed (xmss_get_seed_i E sk index) index ∧
      xmss_get_seed_i E sk index
        = E.shash96 (E.set_adrs_otshash_OTS (E.set_key (E.PRF_init E.SHASH_TYPE_PRF) sk.seed)
            (E.HtoNL index)) ∧
      xmss_gen_keys_2_get_nodes E WOTS_LEN sk index
        = xmss_ltree_gen E.tohash_env WOTS_LEN
            (E.wotsp_gen_pk (xmss_get_seed_i E sk index) sk.pub_seed index) sk.pub_seed index ∧
      s.auth_path = out.2 ∧
      (∀ (nodes0 authpath0 stack1 : Nat → chunk) (levels1 : Nat → Nat) (sk0 : xmss_sk_t)
          (sk_seed : bytes 48),
        ∃ sk1 : xmss_sk_t,
          xmss_gen_keys E WOTS_LEN XMSS_NUM_NODES nodes0 authpath0 stack1 levels1 sk0 sk_seed
            = some sk1 ∧
          xmss_get_seed_i E sk1 index
            = xmss_get_seed_i E (xmss_gen_keys_1_get_seeds E sk0 sk_seed) index ∧
          sk1.pub_seed = (xmss_gen_keys_1_get_seeds E sk0 sk_seed).pub_seed) := by
  refine ⟨_, _, xmss_sign_eq E XMSS_NUM_NODES hN stack0 levels0 sig msg sk xmss_nodes index,
    xmss_treehash_eq E.tohash_env XMSS_NUM_NODES hN _ _ _ _ _ _, rfl, rfl, rfl, rfl, rfl, ?_⟩
  intro nodes0 authpath0 stack1 levels1 sk0 sk_seed
  refine ⟨_, xmss_gen_keys_eq E WOTS_LEN XMSS_NUM_NODES hN nodes0 authpath0 stack1 levels1 sk0
    sk_seed, ?_, ?_⟩
  · unfold xmss_get_seed_i
    rw [gen_keys_seed, gen_seeds_seed]
  · rw [gen_keys_pub_seed, gen_seeds_pub_seed]

/-- C8 at `2^2` leaves, index 3. -/
theorem xmss_sign_fields_witness :
    2 ^ 2 ≤ 65535 ∧
      ∃ (s : xmss_signature_t) (out : chunk × (Nat → chunk)),
        xmss_sign test_xmss_env (2 ^ 2) (fun _ => chunk_of 0) (fun _ => 0) test_sig (chunk_of 0)
          (test_sk 0) (fun j => chunk_of j) 3 = some s ∧
        xmss_treehash test_xmss_env.tohash_env (2 ^ 2) (fun _ => chunk_of 0) (fun _ => 0)
          test_sig.auth_path (fun j => chunk_of j) (test_sk 0).pub_seed 3 = some out ∧
        s.randomness
          = test_xmss_env.shash96 (test_xmss_env.set_R_index
              (test_xmss_env.set_key (test_xmss_env.PRF_init test_xmss_env.SHASH_TYPE_PRF)
                (test_sk 0).prf_seed)
              (test_xmss_env.HtoNL 3)) ∧
        s.wots_sig
          = test_xmss_env.wotsp_sign
              (test_xmss_env.shash160
                { type31 := test_xmss_env.SHASH_TYPE_HASH
                  R := s.randomness
                  root := (test_sk 0).root
                  index := test_xmss_env.NtoHL 3
                  msg_hash := chunk_of 0 })
              (test_sk 0).pub_seed (xmss_get_seed_i test_xmss_env (test_sk 0) 3) 3 ∧
        xmss_get_seed_i test_xmss_env (test_sk 0) 3
          = test_xmss_env.shash96 (test_xmss_env.set_adrs_otshash_OTS
              (test_xmss_env.set_key (test_xmss_env.PRF_init test_xmss_env.SHASH_TYPE_PRF)
                (test_sk 0).seed)
              (test_xmss_env.HtoNL 3)) ∧
        xmss_gen_keys_2_get_nodes test_xmss_env 67 (test_sk 0) 3
          = xmss_ltree_gen test_xmss_env.tohash_env 67
              (test_xmss_env.wotsp_gen_pk (xmss_get_seed_i test_xmss_env (test_sk 0) 3)
                (test_sk 0).pub_seed 3)
              (test_sk 0).pub_seed 3 ∧
        s.auth_path = out.2 ∧
        (∀ (nodes0 authpath0 stack1 : Nat → chunk) (levels1 : Nat → Nat) (sk0 : xmss_sk_t)
            (sk_seed : bytes 48),
          ∃ sk1 : xmss_sk_t,
            xmss_gen_keys test_xmss_env 67 (2 ^ 2) nodes0 authpath0 stack1 levels1 sk0 sk_seed
              = some sk1 ∧
            xmss_get_seed_i test_xmss_env sk1 3
              = xmss_get_seed_i test_xmss_env
                  (xmss_gen_keys_1_get_seeds test_xmss_env sk0 sk_seed) 3 ∧
            sk1.pub_seed = (xmss_gen_keys_1_get_seeds test_xmss_env sk0 sk_seed).pub_seed) :=
  ⟨by decide,
    xmss_sign_fields test_xmss_env 67 (2 ^ 2) (by decide) (fun _ => chunk_of 0)
      (fun _ => 0) test_sig (chunk_of 0) (test_sk 0) (fun j => chunk_of j) 3⟩

/-! ## Claims on the public key and on the root -/

theorem xmss_pk_root (pk_out : xmss_pk_t) (sk_in : xmss_sk_t) :
    (xmss_pk pk_out sk_in).root = sk_in.root := by
  unfold xmss_pk xmss_pk_t.root
  simp only
  rw [bytes.slice_memcpy_outside _ 32 sk_in.pub_seed (by omega) 0 32 (by omega)
    (Or.inl (by omega))]
  exact (bytes.slice_memcpy_inside pk_out.raw 0 sk_in.root (by omega) 0 32 (by omega)
    (by omega)).trans (bytes.slice_full _)

theorem xmss_pk_pub_seed (pk_out : xmss_pk_t) (sk_in : xmss_sk_t) :
    (xmss_pk pk_out sk_in).pub_seed = sk_in.pub_seed := by
  unfold xmss_pk xmss_pk_t.pub_seed
  simp only
  exact (bytes.slice_memcpy_inside _ 32 sk_in.pub_seed (by omega) 32 32 (by omega)
    (by omega)).trans (bytes.slice_full _)

theorem xmss_pk_congr (pk1 pk2 : xmss_pk_t) (sk1 sk2 : xmss_sk_t) (hr : sk1.root = sk2.root)
    (hp : sk1.pub_seed = sk2.pub_seed) : xmss_pk pk1 sk1 = xmss_pk pk2 sk2 := by
  have hraw : (xmss_pk pk1 sk1).raw = (xmss_pk pk2 sk2).raw := by
    apply Subtype.ext
    rw [xmss_pk_raw, xmss_pk_raw, hr, hp]
  cases hx : xmss_pk pk1 sk1
  cases hy : xmss_pk pk2 sk2
  rw [hx, hy] at hraw
  simpa using hraw

/-- C12: for every secret key (and whatever the public-key record held before) `xmss_pk`
leaves `pk.root = sk.root` and `pk.pub_seed = sk.pub_seed`, copied byte for byte, so that the
64 raw bytes of `pk` are `root` followed by `pub_seed`; it reads nothing else of `sk`: two
secret keys that agree on `root` and `pub_seed` give the same public key. -/
theorem xmss_pk_copies_root_and_pub_seed (pk_out : xmss_pk_t) (sk_in : xmss_sk_t) :
    (xmss_pk pk_out sk_in).root = sk_in.root ∧
      (xmss_pk pk_out sk_in).pub_seed = sk_in.pub_seed ∧
      (xmss_pk pk_out sk_in).raw.1 = sk_in.root.1 ++ sk_in.pub_seed.1 ∧
      ∀ (pk2 : xmss_pk_t) (sk2 : xmss_sk_t),
        sk2.root = sk_in.root → sk2.pub_seed = sk_in.pub_seed →
          xmss_pk pk2 sk2 = xmss_pk pk_out sk_in :=
  ⟨xmss_pk_root pk_out sk_in, xmss_pk_pub_seed pk_out sk_in, xmss_pk_raw pk_out sk_in,
    fun pk2 sk2 hr hp => xmss_pk_congr pk2 pk_out sk2 sk_in hr hp⟩

/-- C13: for `2^H` leaves (`H ≤ 15`), every leaf array and public seed and any two target
indices `i` and `j`, valid or not, the two calls of `xmss_treehash` return and write the same
`root_out`, whatever the buffers and uninitialised locals held; in particular, for a key made
by `xmss_gen_keys` (which calls `xmss_treehash` with target 0), the call that `xmss_sign` makes
on the leaf array of that key with any target `index` recomputes the `root` of the key. -/
theorem xmss_treehash_root_target_independent {α : Type} (E : hash_env α) (H : Nat)
    (hH : H ≤ 15) (stack0 stack1 : Nat → α) (levels0 levels1 : Nat → Nat)
    (authpath0 authpath1 nodes : Nat → α) (pub_seed : α) (i j : Nat)
    (X : xmss_env) (WOTS_LEN : Nat) (nodes0 authpathK stackK : Nat → chunk)
    (levelsK : Nat → Nat) (sk : xmss_sk_t) (sk_seed : bytes 48)
    (stackS authpathS : Nat → chunk) (levelsS : Nat → Nat) (index : Nat) :
    (∃ (out_i out_j : α × (Nat → α)),
        xmss_treehash E (2 ^ H) stack0 levels0 authpath0 nodes pub_seed i = some out_i ∧
        xmss_treehash E (2 ^ H) stack1 levels1 authpath1 nodes pub_seed j = some out_j ∧
        out_i.1 = out_j.1) ∧
      (∃ (sk1 : xmss_sk_t) (leaves : Nat → chunk) (out : chunk × (Nat → chunk)),
        xmss_gen_keys X WOTS_LEN (2 ^ H) nodes0 authpathK stackK levelsK sk sk_seed
          = some sk1 ∧
        xmss_gen_keys_nodes X WOTS_LEN (2 ^ H) (xmss_gen_keys_1_get_seeds X sk sk_seed) nodes0
          = some leaves ∧
        xmss_treehash X.tohash_env (2 ^ H) stackS levelsS authpathS leaves sk1.pub_seed index
          = some out ∧
        out.1 = sk1.root) := by
  have hN := two_pow_le_of_le_15 H hH
  constructor
  · refine ⟨_, _, xmss_treehash_eq E (2 ^ H) hN stack0 levels0 authpath0 nodes pub_seed i,
      xmss_treehash_eq E (2 ^ H) hN stack1 levels1 authpath1 nodes pub_seed j, ?_⟩
    exact ((treehash_fold_fields E H hH stack0 levels0 authpath0 nodes pub_seed i).2.1).trans
      ((treehash_fold_fields E H hH stack1 levels1 authpath1 nodes pub_seed j).2.1).symm
  · refine ⟨_, _, _,
      xmss_gen_keys_eq X WOTS_LEN (2 ^ H) hN nodes0 authpathK stackK levelsK sk sk_seed,
      xmss_gen_keys_nodes_eq X WOTS_LEN (2 ^ H) hN _ nodes0,
      xmss_treehash_eq X.tohash_env (2 ^ H) hN _ _ _ _ _ _, ?_⟩
    rw [gen_keys_root, gen_keys_pub_seed]
    simp only [treehash_fold_out]
    rw [treehash_fold_congr X.tohash_env (2 ^ H) stackS levelsS authpathS _
      (fun i => xmss_gen_keys_2_get_nodes X WOTS_LEN (xmss_gen_keys_1_get_seeds X sk sk_seed) i)
      _ index (fun i hi => gen_keys_nodes_apply X WOTS_LEN _ nodes0 (2 ^ H) i hi)]
    exact ((treehash_fold_fields X.tohash_env H hH stackS levelsS authpathS _ _ index).2.1).trans
      ((treehash_fold_fields X.tohash_env H hH stackK levelsK authpathK _ _ 0).2.1).symm

/-- C13 at `H = 2` with targets 1 and 7, and at a key of 4 leaves signed at index 3. -/
theorem xmss_treehash_root_target_independent_witness :
    2 ≤ 15 ∧
      ((∃ (out_i out_j : Nat × (Nat → Nat)),
        xmss_treehash test_env (2 ^ 2) (fun _ => 0) (fun _ => 0) (fun _ => 0)
          (fun j => j + 1) 5 1 = some out_i ∧
        xmss_treehash test_env (2 ^ 2) (fun _ => 1) (fun _ => 2) (fun _ => 3)
          (fun j => j + 1) 5 7 = some out_j ∧
        out_i.1 = out_j.1) ∧
      (∃ (sk1 : xmss_sk_t) (leaves : Nat → chunk) (out : chunk × (Nat → chunk)),
        xmss_gen_keys test_xmss_env 67 (2 ^ 2) (fun _ => chunk_of 0) (fun _ => chunk_of 0)
          (fun _ => chunk_of 0) (fun _ => 0) (test_sk 0) test_master = some sk1 ∧
        xmss_gen_keys_nodes test_xmss_env 67 (2 ^ 2)
          (xmss_gen_keys_1_get_seeds test_xmss_env (test_sk 0) test_master)
          (fun _ => chunk_of 0) = some leaves ∧
        xmss_treehash test_xmss_env.tohash_env (2 ^ 2) (fun _ => chunk_of 1) (fun _ => 2)
          (fun _ => chunk_of 3) leaves sk1.pub_seed 3 = some out ∧
        out.1 = sk1.root)) :=
  ⟨by decide,
    xmss_treehash_root_target_independent test_env 2 (by decide) (fun _ => 0) (fun _ => 1)
      (fun _ => 0) (fun _ => 2) (fun _ => 0) (fun _ => 3) (fun j => j + 1) 5 1 7
      test_xmss_env 67 (fun _ => chunk_of 0) (fun _ => chunk_of 0) (fun _ => chunk_of 0)
      (fun _ => 0) (test_sk 0) test_master (fun _ => chunk_of 1) (fun _ => chunk_of 3)
      (fun _ => 2) 3⟩

/-! ## Claims on byte order and on the two back-ends -/

theorem host_bytes32_NtoHL_spec (little : Bool) (x : Nat) (hx : x < 4294967296) :
    host_bytes32 little (NtoHL_spec little x) = be_bytes32 x := by
  cases little
  · simp only [host_bytes32, NtoHL_spec, Bool.false_eq_true, if_false]
    rw [Nat.mod_eq_of_lt hx]
  · have key : ∀ a b c d : Nat, a < 256 → b < 256 → c < 256 → d < 256 →
        (a * 16777216 + b * 65536 + c * 256 + d) % 256 = d ∧
        (a * 16777216 + b * 65536 + c * 256 + d) / 256 % 256 = c ∧
        (a * 16777216 + b * 65536 + c * 256 + d) / 65536 % 256 = b ∧
        (a * 16777216 + b * 65536 + c * 256 + d) / 16777216 % 256 = a := by
      intro a b c d ha hb hc hd
      omega
    obtain ⟨k1, k2, k3, k4⟩ := key (x % 256) (x / 256 % 256) (x / 65536 % 256)
      (x / 16777216 % 256) (Nat.mod_lt _ (by norm_num)) (Nat.mod_lt _ (by norm_num))
      (Nat.mod_lt _ (by norm_num)) (Nat.mod_lt _ (by norm_num))
    simp only [host_bytes32, NtoHL_spec, if_true, le_bytes32, be_bytes32]
    apply Subtype.ext
    simp only [k1, k2, k3, k4]

theorem be_decode32_be_bytes32 (x : Nat) (hx : x < 4294967296) :
    be_decode32 (be_bytes32 x) = x := by
  simp only [be_decode32, be_bytes32]
  omega

/-- C11: with `NtoHL` the byte-order macro of the spec, on a little-endian or a big-endian
host, and for every index (a `uint16_t`), the four bytes of the signature's `index` field are
the network-byte-order (big-endian) encoding of the index, decoding them gives the index back,
and the `index` word mixed into the randomized digest is the same value `NtoHL(index)`, hence
the same four bytes. -/
theorem xmss_sign_index_network_order (E : xmss_env) (little : Bool)
    (hE : E.NtoHL = NtoHL_spec little) (XMSS_NUM_NODES : Nat) (hN : XMSS_NUM_NODES ≤ 65535)
    (stack0 : Nat → chunk) (levels0 : Nat → Nat) (sig : xmss_signature_t) (msg : chunk)
    (sk : xmss_sk_t) (xmss_nodes : Nat → chunk) (index : Nat) (hi : index < 65536) :
    ∃ s : xmss_signature_t,
      xmss_sign E XMSS_NUM_NODES stack0 levels0 sig msg sk xmss_nodes index = some s ∧
      host_bytes32 little s.index = be_bytes32 index ∧
      be_decode32 (host_bytes32 little s.index) = index ∧
      xmss_sign_digest E msg sk index =
        E.shash160
          { type31 := E.SHASH_TYPE_HASH
            R := s.randomness
            root := sk.root
            index := s.index
            msg_hash := msg } := by
  refine ⟨_, xmss_sign_eq E XMSS_NUM_NODES hN stack0 levels0 sig msg sk xmss_nodes index,
    ?_, ?_, rfl⟩
  · simp only [hE]
    exact host_bytes32_NtoHL_spec little index (by omega)
  · simp only [hE]
    rw [host_bytes32_NtoHL_spec little index (by omega)]
    exact be_decode32_be_bytes32 index (by omega)

/-- C11 on a little-endian host, `2^2` leaves, index 1. -/
theorem xmss_sign_index_network_order_witness :
    test_xmss_env_le.NtoHL = NtoHL_spec true ∧ 2 ^ 2 ≤ 65535 ∧ 1 < 65536 ∧
      ∃ s : xmss_signature_t,
        xmss_sign test_xmss_env_le (2 ^ 2) (fun _ => chunk_of 0) (fun _ => 0) test_sig
          (chunk_of 0) (test_sk 0) (fun j => chunk_of j) 1 = some s ∧
        host_bytes32 true s.index = be_bytes32 1 ∧
        be_decode32 (host_bytes32 true s.index) = 1 ∧
        xmss_sign_digest test_xmss_env_le (chunk_of 0) (test_sk 0) 1 =
          test_xmss_env_le.shash160
            { type31 := test_xmss_env_le.SHASH_TYPE_HASH
              R := s.randomness
              root := (test_sk 0).root
              index := s.index
              msg_hash := chunk_of 0 } :=
  ⟨rfl, by decide, by decide,
    xmss_sign_index_network_order test_xmss_env_le true rfl (2 ^ 2) (by decide)
      (fun _ => chunk_of 0) (fun _ => 0) test_sig (chunk_of 0) (test_sk 0)
      (fun j => chunk_of j) 1 (by decide)⟩

/-- C19 (the code at the failing input): for the master secret `0, ..., 0, 1` and a pointer of
4 bytes the `LEDGER_SPECIFIC` branch absorbs only the first 4 bytes, so it gives the XOF output
of `0, 0, 0, 0`, the same as for the all-zero secret, and not the 96 bytes that the software
branch gives for this secret. -/
theorem xmss_randombits_ledger_differs :
    xmss_randombits_ledger test_xmss_env 4 test_master_last
        = test_xmss_env.shake256 96 [0, 0, 0, 0] ∧
      xmss_randombits_ledger test_xmss_env 4 test_master_last
        = xmss_randombits_ledger test_xmss_env 4 test_master ∧
      xmss_randombits_ledger test_xmss_env 4 test_master_last
        ≠ xmss_randombits test_xmss_env test_master_last := by
  decide

/-! ## Claims on the L-tree loop -/

theorem ltree_round_tmp {α : Type} (E : hash_env α) (pub_seed : α) (index : Nat)
    (s : ltree_state α) :
    ∀ k, k < (s.l + 1) / 2 →
      (ltree_round E pub_seed index s).tmp_wotspk k =
        if k < s.l / 2 then
          E.shash_h (ltree_adrs E pub_seed index s.tree_height k)
            (s.tmp_wotspk (2 * k)) (s.tmp_wotspk (2 * k + 1))
        else s.tmp_wotspk (2 * k) := by
  have hsh : s.l >>> 1 = s.l / 2 := by rw [Nat.shiftRight_eq_div_pow, pow_one]
  have hand : s.l &&& 1 = s.l % 2 := Nat.and_one_is_mod s.l
  have hp := (ltree_pairs_apply E pub_seed index s (s.l / 2)).2.2
  unfold ltree_round
  simp only [hsh, hand]
  intro k hk
  by_cases hodd : s.l % 2 ≠ 0
  · rw [if_pos hodd]
    simp only
    by_cases hkl : k = s.l / 2
    · rw [hkl, chunk_write_same, hp, if_neg (by omega), if_neg (by omega)]
      congr 1
      omega
    · rw [chunk_write_other _ _ _ _ hkl, hp, if_pos (by omega), if_pos (by omega)]
  · rw [if_neg hodd]
    simp only
    rw [hp, if_pos (by omega), if_pos (by omega)]

theorem ltree_round_level {α : Type} (E : hash_env α) (pub_seed : α) (index : Nat)
    (s : ltree_state α) :
    (List.range ((s.l + 1) / 2)).map (ltree_round E pub_seed index s).tmp_wotspk =
      ltree_level_ref E pub_seed index s.tree_height 0 ((List.range s.l).map s.tmp_wotspk) := by
  have hlev := ltree_level_ref_map E pub_seed index s.tree_height s.tmp_wotspk s.l 0
  rw [Nat.mul_zero, ← List.range_eq_range'] at hlev
  rw [hlev, List.range_eq_range']
  apply List.map_congr_left
  intro k hk
  have hk2 : k < (s.l + 1) / 2 := by
    have := (List.mem_range'_1.mp hk).2
    omega
  rw [ltree_round_tmp E pub_seed index s k hk2, Nat.zero_add]

/-- C17: for every level width `w = s.l` with `2 ≤ w ≤ 255` (the 8-bit width) and chunk array,
the in-place pass (the loop that for `i = 0 .. w/2 - 1` in ascending order reads chunks `2i`
and `2i+1` and overwrites chunk `i`, then for odd `w` the copy of chunk `w-1` to chunk `w/2`)
leaves in chunks `0 .. ceil(w/2) - 1` the out-of-place level `ltree_level_ref` of the original
chunks `0 .. w-1`; no write destroys what is read later: pass `i` still finds the original
chunks `2i` and `2i+1`, and the odd carry still finds the original chunk `w-1`. -/
theorem ltree_round_in_place_eq_out_of_place {α : Type} (E : hash_env α) (pub_seed : α)
    (index : Nat) (s : ltree_state α) (h2 : 2 ≤ s.l) (h255 : s.l ≤ 255) :
    (List.range ((s.l + 1) / 2)).map (ltree_round E pub_seed index s).tmp_wotspk =
        ltree_level_ref E pub_seed index s.tree_height 0 ((List.range s.l).map s.tmp_wotspk) ∧
      (ltree_round E pub_seed index s).l = (s.l + 1) / 2 ∧
      (∀ i, i < s.l >>> 1 →
        ((List.range i).foldl (ltree_pair E pub_seed index) s).tmp_wotspk (2 * i)
            = s.tmp_wotspk (2 * i) ∧
          ((List.range i).foldl (ltree_pair E pub_seed index) s).tmp_wotspk (2 * i + 1)
            = s.tmp_wotspk (2 * i + 1)) ∧
      (s.l &&& 1 ≠ 0 →
        ((List.range (s.l >>> 1)).foldl (ltree_pair E pub_seed index) s).tmp_wotspk (s.l - 1)
          = s.tmp_wotspk (s.l - 1)) := by
  have hsh : s.l >>> 1 = s.l / 2 := by rw [Nat.shiftRight_eq_div_pow, pow_one]
  refine ⟨ltree_round_level E pub_seed index s, ?_, ?_, ?_⟩
  · have hand : s.l &&& 1 = s.l % 2 := Nat.and_one_is_mod s.l
    unfold ltree_round
    simp only [hsh, hand]
    by_cases hodd : s.l % 2 ≠ 0
    · rw [if_pos hodd]
      simp only
      rw [Nat.mod_eq_of_lt (by omega)]
      omega
    · rw [if_neg hodd]
      simp only
      omega
  · intro i _
    have hp := (ltree_pairs_apply E pub_seed index s i).2.2
    rw [hp, hp, if_neg (by omega), if_neg (by omega)]
    exact ⟨rfl, rfl⟩
  · intro _
    have hp := (ltree_pairs_apply E pub_seed index s (s.l >>> 1)).2.2
    rw [hp, if_neg (by omega)]

/-- C17 at width 5, height 0, chunks `1, 3, 5, 7, 9`. -/
theorem ltree_round_in_place_eq_out_of_place_witness :
    2 ≤ 5 ∧ 5 ≤ 255 ∧
      ((List.range ((5 + 1) / 2)).map
          (ltree_round test_env 5 9
            { l := 5, tree_height := 0, tmp_wotspk := fun j => 2 * j + 1 }).tmp_wotspk =
          ltree_level_ref test_env 5 9 0 0 ((List.range 5).map (fun j => 2 * j + 1)) ∧
        (ltree_round test_env 5 9
          { l := 5, tree_height := 0, tmp_wotspk := fun j => 2 * j + 1 }).l = (5 + 1) / 2 ∧
        (∀ i, i < 5 >>> 1 →
          ((List.range i).foldl (ltree_pair test_env 5 9)
              { l := 5, tree_height := 0, tmp_wotspk := fun j => 2 * j + 1 }).tmp_wotspk (2 * i)
              = (fun j => 2 * j + 1) (2 * i) ∧
            ((List.range i).foldl (ltree_pair test_env 5 9)
              { l := 5, tree_height := 0, tmp_wotspk := fun j => 2 * j + 1 }).tmp_wotspk
                (2 * i + 1)
              = (fun j => 2 * j + 1) (2 * i + 1)) ∧
        (5 &&& 1 ≠ 0 →
          ((List.range (5 >>> 1)).foldl (ltree_pair test_env 5 9)
            { l := 5, tree_height := 0, tmp_wotspk := fun j => 2 * j + 1 }).tmp_wotspk (5 - 1)
            = (fun j => 2 * j + 1) (5 - 1))) :=
  ⟨by decide, by decide,
    ltree_round_in_place_eq_out_of_place test_env 5 9
      { l := 5, tree_height := 0, tmp_wotspk := fun j => 2 * j + 1 } (by decide) (by decide)⟩

theorem ltree_while_of_le_one {α : Type} (E : hash_env α) (pub_seed : α) (index : Nat)
    (k : Nat) (s : ltree_state α) (h : s.l ≤ 1) : ltree_while E pub_seed index k s = s := by
  cases k with
  | zero => rfl
  | succ k => rw [ltree_while, if_neg (by omega)]

/-- Once the `while` loop of `xmss_ltree_gen` has been left, allowing more passes changes
nothing. -/
theorem ltree_while_stable {α : Type} (E : hash_env α) (pub_seed : α) (index : Nat) :
    ∀ (f k : Nat) (s : ltree_state α), (ltree_while E pub_seed index f s).l ≤ 1 →
      ltree_while E pub_seed index (f + k) s = ltree_while E pub_seed index f s := by
  intro f
  induction f with
  | zero =>
    intro k s h
    rw [ltree_while] at h
    rw [Nat.zero_add, ltree_while, ltree_while_of_le_one E pub_seed index k s h]
  | succ f ih =>
    intro k s h
    have e1 : ltree_while E pub_seed index (f + 1 + k) s
        = if 1 < s.l then ltree_while E pub_seed index (f + k) (ltree_round E pub_seed index s)
          else s := by
      rw [Nat.succ_add, ltree_while]
    have e2 : ltree_while E pub_seed index (f + 1) s
        = if 1 < s.l then ltree_while E pub_seed index f (ltree_round E pub_seed index s)
          else s := by
      rw [ltree_while]
    rw [e1, e2]
    rw [e2] at h
    by_cases hl : 1 < s.l
    · rw [if_pos hl] at h
      rw [if_pos hl, if_pos hl]
      exact ih k _ h
    · rw [if_neg hl, if_neg hl]

/-- Along the `while` loop of `xmss_ltree_gen` the width stays between 1 and its start, follows
`ltree_width`, and the height counts the halvings: height plus `clog 2` of the width is
constant. -/
theorem ltree_while_inv {α : Type} (E : hash_env α) (pub_seed : α) (index : Nat) :
    ∀ (j : Nat) (s : ltree_state α), 1 ≤ s.l → s.l + s.tree_height ≤ 255 →
      1 ≤ (ltree_while E pub_seed index j s).l ∧
      (ltree_while E pub_seed index j s).l ≤ s.l ∧
      (ltree_while E pub_seed index j s).l + (ltree_while E pub_seed index j s).tree_height
        ≤ 255 ∧
      (ltree_while E pub_seed index j s).l = ltree_width j s.l ∧
      (ltree_while E pub_seed index j s).tree_height
          + Nat.clog 2 (ltree_while E pub_seed index j s).l
        = s.tree_height + Nat.clog 2 s.l := by
  intro j
  induction j with
  | zero => intro s h1 h2; exact ⟨h1, le_refl _, h2, rfl, rfl⟩
  | succ j ih =>
    intro s h1 h2
    rw [ltree_while, ltree_width]
    by_cases hl : 1 < s.l
    · rw [if_pos hl, if_pos hl]
      obtain ⟨r1, r2, _⟩ := ltree_round_spec E pub_seed index s (by omega) (by omega)
      obtain ⟨i1, i2, i3, i4, i5⟩ := ih (ltree_round E pub_seed index s) (by rw [r1]; omega)
        (by rw [r1, r2]; omega)
      refine ⟨i1, by rw [r1] at i2; omega, i3, by rw [i4, r1], ?_⟩
      rw [i5, r1, r2, Nat.clog_of_two_le (by norm_num) hl]
      have e : (s.l + 2 - 1) / 2 = (s.l + 1) / 2 := by omega
      rw [e]
      omega
    · rw [if_neg hl, if_neg hl]
      exact ⟨h1, le_refl _, h2, rfl, rfl⟩

/-- C18: for every starting width `1 ≤ L ≤ 255` (the 8-bit `l`) the `while` loop of
`xmss_ltree_gen` ends: with the `L` passes allowed it is left at width 1 and allowing more
passes changes nothing; a pass at width `l > 1` replaces it by `ceil(l/2) < l` and adds 1 to
`tree_height`; the final `tree_height` is `ceil(log2 L)`; at every point of the loop the width
is in `1 .. 255`, the bound of the pair index is at most 127 and the height at most 8, so
nothing wraps at 256. For `L = 67` the widths are 67, 34, 17, 9, 5, 3, 2, 1 and the final
height is 7. -/
theorem xmss_ltree_loop_terminates {α : Type} (E : hash_env α) (L : Nat) (h1 : 1 ≤ L)
    (h2 : L ≤ 255) (tmp_wotspk : Nat → α) (pub_seed : α) (index : Nat) :
    (xmss_ltree_run E L tmp_wotspk pub_seed index).l = 1 ∧
      (xmss_ltree_run E L tmp_wotspk pub_seed index).tree_height = Nat.clog 2 L ∧
      (∀ k, ltree_while E pub_seed index (L % 256 + k)
          { l := L % 256, tree_height := 0, tmp_wotspk := tmp_wotspk }
        = xmss_ltree_run E L tmp_wotspk pub_seed index) ∧
      (∀ j,
        1 ≤ (ltree_while E pub_seed index j
          { l := L % 256, tree_height := 0, tmp_wotspk := tmp_wotspk }).l ∧
        (ltree_while E pub_seed index j
          { l := L % 256, tree_height := 0, tmp_wotspk := tmp_wotspk }).l ≤ 255 ∧
        (ltree_while E pub_seed index j
          { l := L % 256, tree_height := 0, tmp_wotspk := tmp_wotspk }).l >>> 1 ≤ 127 ∧
        (ltree_while E pub_seed index j
          { l := L % 256, tree_height := 0, tmp_wotspk := tmp_wotspk }).tree_height ≤ 8 ∧
        (ltree_while E pub_seed index j
          { l := L % 256, tree_height := 0, tmp_wotspk := tmp_wotspk }).l = ltree_width j L ∧
        (1 < (ltree_while E pub_seed index j
            { l := L % 256, tree_height := 0, tmp_wotspk := tmp_wotspk }).l →
          (ltree_round E pub_seed index (ltree_while E pub_seed index j
              { l := L % 256, tree_height := 0, tmp_wotspk := tmp_wotspk })).l
            = ((ltree_while E pub_seed index j
              { l := L % 256, tree_height := 0, tmp_wotspk := tmp_wotspk }).l + 1) / 2 ∧
          (ltree_round E pub_seed index (ltree_while E pub_seed index j
              { l := L % 256, tree_height := 0, tmp_wotspk := tmp_wotspk })).l
            < (ltree_while E pub_seed index j
              { l := L % 256, tree_height := 0, tmp_wotspk := tmp_wotspk }).l ∧
          (ltree_round E pub_seed index (ltree_while E pub_seed index j
              { l := L % 256, tree_height := 0, tmp_wotspk := tmp_wotspk })).tree_height
            = (ltree_while E pub_seed index j
              { l := L % 256, tree_height := 0, tmp_wotspk := tmp_wotspk }).tree_height + 1)) ∧
      (List.range 8).map (fun j => ltree_width j 67) = [67, 34, 17, 9, 5, 3, 2, 1] ∧
      Nat.clog 2 67 = 7 := by
  have hmod : L % 256 = L := Nat.mod_eq_of_lt (by omega)
  have hclog8 : Nat.clog 2 L ≤ 8 :=
    (Nat.le_pow_iff_clog_le (by norm_num)).mp (by norm_num; omega)
  have hinv := fun j => ltree_while_inv E pub_seed index j
    { l := L, tree_height := 0, tmp_wotspk := tmp_wotspk } h1 (by simpa using h2)
  have hexit := ltree_while_exit E pub_seed index L
    { l := L, tree_height := 0, tmp_wotspk := tmp_wotspk } (le_refl L) (by simpa using h2)
  simp only [xmss_ltree_run, hmod]
  obtain ⟨f1, _, _, _, f5⟩ := hinv L
  have hone : (ltree_while E pub_seed index L
      { l := L, tree_height := 0, tmp_wotspk := tmp_wotspk }).l = 1 := by omega
  refine ⟨hone, ?_, ?_, ?_, by decide, by norm_num [Nat.clog]⟩
  · rw [hone, Nat.clog_one_right] at f5
    simpa using f5
  · intro k
    exact ltree_while_stable E pub_seed index L k _ (by omega)
  · intro j
    obtain ⟨j1, j2, j3, j4, j5⟩ := hinv j
    simp only at j2 j5
    refine ⟨j1, by omega, ?_, by omega, j4, ?_⟩
    · rw [Nat.shiftRight_eq_div_pow, pow_one]; omega
    · intro hl
      obtain ⟨r1, r2, _⟩ := ltree_round_spec E pub_seed index
        (ltree_while E pub_seed index j { l := L, tree_height := 0, tmp_wotspk := tmp_wotspk })
        (by omega) (by omega)
      exact ⟨r1, by rw [r1]; omega, r2⟩

/-- C18 at `WOTS_LEN = 67` with the chunks `1, 3, 5, ...`. -/
theorem xmss_ltree_loop_terminates_witness :
    1 ≤ 67 ∧ 67 ≤ 255 ∧
      (xmss_ltree_run test_env 67 (fun j => 2 * j + 1) 5 9).l = 1 ∧
      (xmss_ltree_run test_env 67 (fun j => 2 * j + 1) 5 9).tree_height = Nat.clog 2 67 :=
  ⟨by decide, by decide,
    (xmss_ltree_loop_terminates test_env 67 (by decide) (by decide) (fun j => 2 * j + 1) 5 9).1,
    (xmss_ltree_loop_terminates test_env 67 (by decide) (by decide)
      (fun j => 2 * j + 1) 5 9).2.1⟩

/-! ## The calls of the L-tree are distinct -/

theorem ltree_while_calls_nodup {α : Type} (E : hash_env α) (pub_seed : α) (index : Nat) :
    ∀ (fuel : Nat) (s : ltree_state α), s.l + s.tree_height ≤ 255 →
      (ltree_while_calls E pub_seed index fuel s).Nodup ∧
      ∀ c ∈ ltree_while_calls E pub_seed index fuel s, s.tree_height ≤ c.1 := by
  intro fuel
  induction fuel with
  | zero => intro s _; simp [ltree_while_calls]
  | succ fuel ih =>
    intro s h
    rw [ltree_while_calls]
    by_cases hl : 1 < s.l
    · rw [if_pos hl]
      obtain ⟨r1, r2, _⟩ := ltree_round_spec E pub_seed index s (by omega) (by omega)
      obtain ⟨i1, i2⟩ := ih (ltree_round E pub_seed index s) (by rw [r1, r2]; omega)
      rw [r2] at i2
      have hround : (ltree_round_calls s).Nodup := by
        unfold ltree_round_calls
        exact List.Nodup.map (fun a b hab => (Prod.mk.inj hab).2) (List.nodup_range _)
      have hmem : ∀ c ∈ ltree_round_calls s, c.1 = s.tree_height := by
        intro c hc
        unfold ltree_round_calls at hc
        obtain ⟨i, _, rfl⟩ := List.mem_map.mp hc
        rfl
      refine ⟨List.nodup_append.mpr ⟨hround, i1, ?_⟩, ?_⟩
      · intro c hc1 hc2
        have := hmem c hc1
        have := i2 c hc2
        omega
      · intro c hc
        rcases List.mem_append.mp hc with hc | hc
        · exact le_of_eq (hmem c hc).symm
        · have := i2 c hc
          omega
    · rw [if_neg hl]
      simp

/-! ## The calls and writes of the loop, read off the stack view -/

theorem treehash_while_events_view {α : Type} (E : hash_env α) (pub_seed : α)
    (leaf_index idx : Nat) :
    ∀ (fuel : Nat) (s : treehash_state α), s.stack_offset ≤ fuel + 1 → 1 ≤ s.stack_offset →
      treehash_while_events E pub_seed leaf_index idx fuel s =
        cascade_events leaf_index idx (s.stack_levels (s.stack_offset - 1))
          (stack_list (fun j => (s.stack j, s.stack_levels j)) (s.stack_offset - 1)) := by
  intro fuel
  induction fuel with
  | zero =>
    intro s h1 h2
    have h : s.stack_offset = 1 := by omega
    simp [treehash_while_events, h, stack_list, cascade_events]
  | succ fuel ih =>
    intro s h1 h2
    obtain ⟨st, lv, off, ap⟩ := s
    simp only at h1 h2
    obtain ⟨n, rfl⟩ : ∃ n, off = n + 1 := ⟨off - 1, by omega⟩
    cases n with
    | zero =>
      simp [treehash_while_events, treehash_guard, stack_list, cascade_events]
    | succ n =>
      by_cases hg : lv (n + 1) = lv n
      · have hguard : treehash_guard
            ({ stack := st, stack_levels := lv, stack_offset := n + 1 + 1, authpath := ap } :
              treehash_state α) = true := by
          simp [treehash_guard, hg]
        rw [treehash_while_events, if_pos hguard]
        rw [ih _ (by simp [treehash_merge]; omega) (by simp [treehash_merge])]
        have e1 : n + 1 + 1 - 2 = n := by omega
        have e2 : n + 1 + 1 - 1 = n + 1 := by omega
        have e3 : n + 1 - 1 = n := by omega
        simp only [treehash_merge, treehash_merge_events, e1, e2, e3, chunk_write_same,
          stack_list]
        have hl : stack_list (fun j => (chunk_write st n
              (E.shash_h
                { key := pub_seed, type := E.HtoNL E.SHASH_TYPE_HASH, ltree := 0,
                  height := E.HtoNL (lv (n + 1)),
                  index := E.HtoNL (idx >>> (lv (n + 1) + 1) % 65536) }
                (st n) (st (n + 1))) j,
              chunk_write lv n ((lv n + 1) % 65536) j)) n
            = stack_list (fun j => (st j, lv j)) n := by
          apply stack_list_congr
          intro j hj
          have hne : j ≠ n := by omega
          simp [chunk_write_other _ _ _ _ hne]
        rw [hl]
        conv_rhs => rw [cascade_events]
        simp only [hg, if_true]
      · have hguard : treehash_guard
            ({ stack := st, stack_levels := lv, stack_offset := n + 1 + 1, authpath := ap } :
              treehash_state α) = false := by
          simp [treehash_guard, hg]
        rw [treehash_while_events, hguard]
        simp [stack_list, cascade_events, hg]

theorem treehash_body_events_view {α : Type} (E : hash_env α) (nodes : Nat → α) (pub_seed : α)
    (leaf_index : Nat) (s : treehash_state α) (idx : Nat) :
    treehash_body_events E nodes pub_seed leaf_index s idx =
      treehash_push_events leaf_index idx ++
        cascade_events leaf_index idx 0 (treehash_view s).1 := by
  unfold treehash_body_events
  rw [treehash_while_events_view E pub_seed leaf_index idx _ _ (Nat.le_succ _)
    (by simp [treehash_push])]
  have hl : stack_list (fun j => ((treehash_push nodes leaf_index idx s).stack j,
      (treehash_push nodes leaf_index idx s).stack_levels j)) s.stack_offset
      = stack_list (fun j => (s.stack j, s.stack_levels j)) s.stack_offset := by
    apply stack_list_congr
    intro j hj
    have hne : j ≠ s.stack_offset := by omega
    simp [treehash_push, chunk_write_other _ _ _ _ hne]
  have e1 : s.stack_offset + 1 - 1 = s.stack_offset := by omega
  simp only [treehash_push, e1, chunk_write_same] at hl ⊢
  rw [hl]
  rfl

theorem treehash_events_from_view {α : Type} (E : hash_env α) (nodes : Nat → α) (pub_seed : α)
    (leaf_index : Nat) (L : List Nat) :
    ∀ s : treehash_state α,
      treehash_events_from E nodes pub_seed leaf_index L s =
        view_events_from E nodes pub_seed leaf_index L (treehash_view s) := by
  induction L with
  | nil => intro s; rfl
  | cons a L ih =>
    intro s
    rw [treehash_events_from, view_events_from, ih, treehash_body_view,
      treehash_body_events_view]

theorem view_events_from_append {α : Type} (E : hash_env α) (nodes : Nat → α) (pub_seed : α)
    (leaf_index : Nat) (L1 L2 : List Nat) :
    ∀ v : List (α × Nat) × (Nat → α),
      view_events_from E nodes pub_seed leaf_index (L1 ++ L2) v =
        view_events_from E nodes pub_seed leaf_index L1 v ++
          view_events_from E nodes pub_seed leaf_index L2
            (L1.foldl (view_body E nodes pub_seed leaf_index) v) := by
  induction L1 with
  | nil => intro v; rfl
  | cons a L1 ih =>
    intro v
    rw [List.cons_append, view_events_from, view_events_from, ih, List.foldl_cons]
    simp only [List.append_assoc]

theorem cascade_events_stop {α : Type} (leaf_index idx top : Nat) (stk : List (α × Nat))
    (h : ∀ e ∈ stk.head?, e.2 ≠ top) : cascade_events leaf_index idx top stk = [] := by
  cases stk with
  | nil => rfl
  | cons y rest =>
    have hy : y.2 ≠ top := h y (by simp)
    rw [cascade_events, if_neg (fun e => hy e.symm)]

theorem cascade_events_merge {α : Type} (leaf_index idx : Nat) (y : α) (l : Nat)
    (rest : List (α × Nat)) (hidx : idx < 65536) (hl : l + 1 < 65536) :
    cascade_events leaf_index idx l ((y, l) :: rest) =
      (treehash_event.call l (idx >>> (l + 1)) ::
        (if ((leaf_index >>> (l + 1)) ^^^ 1) = idx >>> (l + 1) then
          [treehash_event.write (l + 1)]
        else [])) ++ cascade_events leaf_index idx (l + 1) rest := by
  have h1 : (idx >>> (l + 1)) % 65536 = idx >>> (l + 1) :=
    Nat.mod_eq_of_lt (lt_of_le_of_lt (shiftRight_le_self idx (l + 1)) hidx)
  have h2 : (l + 1) % 65536 = l + 1 := Nat.mod_eq_of_lt hl
  rw [cascade_events]
  simp only [if_true, h1, h2]

/-- The calls and writes over the leaves of the subtree below node (`l`, `p`): those of the
subtree, then those of merging its root into what the stack held. -/
theorem subtree_events {α : Type} (E : hash_env α) (nodes : Nat → α) (pub_seed : α)
    (leaf_index : Nat) :
    ∀ (l p : Nat) (stk : List (α × Nat)) (ap : Nat → α),
      (p + 1) * 2 ^ l ≤ 65536 → l < 65535 → (∀ e ∈ stk.head?, l ≤ e.2) →
      view_events_from E nodes pub_seed leaf_index (List.range' (p * 2 ^ l) (2 ^ l)) (stk, ap) =
        tree_events leaf_index l p ++
          cascade_events leaf_index ((p + 1) * 2 ^ l - 1) l stk := by
  intro l
  induction l with
  | zero =>
    intro p stk ap _ _ _
    simp [view_events_from, tree_events, treehash_push_events]
  | succ l ih =>
    intro p stk ap hp hl hstk
    have hpos : 0 < 2 ^ l := Nat.pow_pos (by norm_num)
    have hpow : 2 ^ (l + 1) = 2 ^ l + 2 ^ l := by rw [pow_succ]; omega
    have hsplit : List.range' (p * 2 ^ (l + 1)) (2 ^ (l + 1)) =
        List.range' (2 * p * 2 ^ l) (2 ^ l) ++ List.range' ((2 * p + 1) * 2 ^ l) (2 ^ l) := by
      rw [hpow]
      have e1 : p * (2 ^ l + 2 ^ l) = 2 * p * 2 ^ l := by ring
      have e2 : (2 * p + 1) * 2 ^ l = 2 * p * 2 ^ l + 1 * 2 ^ l := by ring
      rw [e1, e2, List.range'_append]
    have hA : (2 * p + 1) * 2 ^ l ≤ 65536 := by
      have e : (p + 1) * 2 ^ (l + 1) = (2 * p + 1) * 2 ^ l + 2 ^ l := by rw [pow_succ]; ring
      omega
    have hB : (2 * p + 1 + 1) * 2 ^ l ≤ 65536 := by
      have e : (p + 1) * 2 ^ (l + 1) = (2 * p + 1 + 1) * 2 ^ l := by rw [pow_succ]; ring
      omega
    have hlast : (2 * p + 1 + 1) * 2 ^ l - 1 = (p + 1) * 2 ^ (l + 1) - 1 := by
      have e : (p + 1) * 2 ^ (l + 1) = (2 * p + 1 + 1) * 2 ^ l := by rw [pow_succ]; ring
      rw [e]
    rw [hsplit, view_events_from_append,
      ih (2 * p) stk ap hA (by omega) (fun e he => by have := hstk e he; omega),
      cascade_events_stop leaf_index _ l stk (fun e he => by have := hstk e he; omega),
      subtree_fold E nodes pub_seed leaf_index l (2 * p) stk ap hA (by omega)
        (fun e he => by have := hstk e he; omega),
      cascade_stop E pub_seed leaf_index _ _ stk _
        (fun e he => by have := hstk e he; simp only; omega),
      ih (2 * p + 1) _ _ hB (by omega) (fun e he => by simp at he; subst he; simp),
      cascade_events_merge leaf_index _ _ l stk (by omega) (by omega),
      hlast, shiftRight_last, tree_events]
    simp only [List.append_nil, List.append_assoc]

/-- The calls and writes of `xmss_treehash` over `2^H` leaves are those of building the whole
tree. -/
theorem xmss_treehash_events_eq {α : Type} (E : hash_env α) (H : Nat) (hH : H ≤ 15)
    (stack0 : Nat → α) (levels0 : Nat → Nat) (authpath nodes : Nat → α) (pub_seed : α)
    (leaf_index : Nat) :
    xmss_treehash_events E (2 ^ H) stack0 levels0 authpath nodes pub_seed leaf_index =
      tree_events leaf_index H 0 := by
  have hpow : 2 ^ H ≤ 2 ^ 15 := Nat.pow_le_pow_right (by norm_num) hH
  have h := subtree_events E nodes pub_seed leaf_index H 0 [] authpath
    (by norm_num at hpow ⊢; omega) (by omega) (by simp)
  rw [Nat.zero_mul] at h
  unfold xmss_treehash_events
  rw [treehash_events_from_view, List.range_eq_range']
  simp only [treehash_view, treehash_init, stack_list]
  rw [h]
  simp [cascade_events]

/-! ## Counting the calls and the writes of a subtree -/

theorem count_call_tail (leaf_index l p : Nat) (e : treehash_event) :
    List.count e (treehash_event.call l p ::
        (if ((leaf_index >>> (l + 1)) ^^^ 1) = p then [treehash_event.write (l + 1)] else []))
      = (if e = treehash_event.call l p then 1 else 0)
        + (if e = treehash_event.write (l + 1) ∧ ((leaf_index >>> (l + 1)) ^^^ 1) = p then 1
          else 0) := by
  by_cases hq : ((leaf_index >>> (l + 1)) ^^^ 1) = p
  · by_cases h1 : e = treehash_event.call l p
    · subst h1; simp [hq]
    · by_cases h2 : e = treehash_event.write (l + 1)
      · subst h2; simp [hq]
      · simp [hq, h1, h2, List.count_cons, Ne.symm h1, Ne.symm h2]
  · by_cases h1 : e = treehash_event.call l p
    · subst h1; simp [hq]
    · simp [hq, h1, List.count_cons, Ne.symm h1]

theorem tree_events_count_call (leaf_index : Nat) :
    ∀ (l p l' p' : Nat),
      List.count (treehash_event.call l' p') (tree_events leaf_index l p) =
        if l' < l ∧ p' >>> (l - 1 - l') = p then 1 else 0 := by
  intro l
  induction l with
  | zero =>
    intro p l' p'
    rw [tree_events]
    split <;> simp
  | succ l ih =>
    intro p l' p'
    rw [tree_events, List.count_append, List.count_append, ih, ih, count_call_tail]
    simp only [treehash_event.call.injEq, reduceCtorEq, false_and, if_false, Nat.add_zero]
    rcases Nat.lt_trichotomy l' l with hlt | heq | hgt
    · have hs : p' >>> (l + 1 - 1 - l') = (p' >>> (l - 1 - l')) / 2 := by
        rw [show l + 1 - 1 - l' = (l - 1 - l') + 1 by omega, Nat.shiftRight_succ]
      rw [hs]
      generalize p' >>> (l - 1 - l') = x
      split_ifs <;> omega
    · subst heq
      have e0 : l' + 1 - 1 - l' = 0 := by omega
      rw [e0, Nat.shiftRight_zero]
      split_ifs <;> omega
    · split_ifs <;> omega

theorem tree_events_count_write (leaf_index : Nat) :
    ∀ (l p k : Nat),
      List.count (treehash_event.write k) (tree_events leaf_index l p) =
        if k ≤ l ∧ ((leaf_index >>> k) ^^^ 1) >>> (l - k) = p then 1 else 0 := by
  intro l
  induction l with
  | zero =>
    intro p k
    rw [tree_events]
    by_cases hk : k = 0
    · subst hk
      by_cases hq : (leaf_index ^^^ 1) = p
      · simp [hq]
      · simp [hq]
    · have hk2 : ¬ (k ≤ 0 ∧ ((leaf_index >>> k) ^^^ 1) >>> (0 - k) = p) := by
        intro h; omega
      have hne : treehash_event.write 0 ≠ treehash_event.write k := by
        intro h; injection h with h; omega
      rw [if_neg hk2]
      by_cases hq : (leaf_index ^^^ 1) = p
      · rw [if_pos hq]; simp [List.count_cons, hne]
      · rw [if_neg hq]; simp
  | succ l ih =>
    intro p k
    rw [tree_events, List.count_append, List.count_append, ih, ih, count_call_tail]
    simp only [treehash_event.write.injEq, reduceCtorEq, if_false, Nat.zero_add]
    rcases Nat.lt_trichotomy k (l + 1) with hlt | heq | hgt
    · have hs : ((leaf_index >>> k) ^^^ 1) >>> (l + 1 - k)
          = (((leaf_index >>> k) ^^^ 1) >>> (l - k)) / 2 := by
        rw [show l + 1 - k = (l - k) + 1 by omega, Nat.shiftRight_succ]
      rw [hs]
      generalize ((leaf_index >>> k) ^^^ 1) >>> (l - k) = x
      split_ifs <;> omega
    · subst heq
      have e0 : l + 1 - (l + 1) = 0 := by omega
      rw [e0, Nat.shiftRight_zero]
      split_ifs <;> omega
    · split_ifs <;> omega

theorem count_filterMap_address (L : List treehash_event) (c : Nat × Nat) :
    List.count c (L.filterMap treehash_event.address)
      = List.count (treehash_event.call c.1 c.2) L := by
  induction L with
  | nil => rfl
  | cons e L ih =>
    cases e with
    | call h i =>
      rw [List.filterMap_cons_some (by rfl : treehash_event.address (treehash_event.call h i)
        = some (h, i)), List.count_cons, List.count_cons, ih]
      congr 1
      by_cases hc : (h, i) = c
      · subst hc; simp
      · have hc2 : ¬ (h = c.1 ∧ i = c.2) := fun hh => hc (Prod.ext hh.1 hh.2)
        simp [hc, hc2]
    | write k =>
      rw [List.filterMap_cons_none (by rfl : treehash_event.address (treehash_event.write k)
        = none), List.count_cons, ih]
      simp

theorem tree_events_calls_length (leaf_index : Nat) :
    ∀ (l p : Nat),
      ((tree_events leaf_index l p).filterMap treehash_event.address).length = 2 ^ l - 1 := by
  intro l
  induction l with
  | zero =>
    intro p
    rw [tree_events]
    split <;> simp [treehash_event.address]
  | succ l ih =>
    intro p
    have hpos : 0 < 2 ^ l := Nat.pow_pos (by norm_num)
    have hpow : 2 ^ (l + 1) = 2 ^ l + 2 ^ l := by rw [pow_succ]; omega
    have htail : ((treehash_event.call l p ::
        (if ((leaf_index >>> (l + 1)) ^^^ 1) = p then [treehash_event.write (l + 1)]
          else [])).filterMap treehash_event.address).length = 1 := by
      split <;> simp [treehash_event.address]
    rw [tree_events, List.filterMap_append, List.filterMap_append, List.length_append,
      List.length_append, ih, ih, htail]
    omega

theorem shiftRight_eq_zero_iff_lt (p k : Nat) : p >>> k = 0 ↔ p < 2 ^ k := by
  rw [Nat.shiftRight_eq_div_pow]
  constructor
  · intro h
    by_contra hlt
    have h1 : 2 ^ k ≤ p := by omega
    have h2 : 0 < p / 2 ^ k := Nat.div_pos h1 (Nat.pow_pos (by norm_num))
    omega
  · intro h
    exact Nat.div_eq_of_lt h

theorem nodup_of_count_le_one {β : Type} [BEq β] [LawfulBEq β] :
    ∀ (l : List β), (∀ a, List.count a l ≤ 1) → l.Nodup
  | [], _ => List.nodup_nil
  | b :: t, h => by
    have hb : List.count b t = 0 := by
      have := h b
      rw [List.count_cons_self] at this
      omega
    have ht : ∀ a, List.count a t ≤ 1 := by
      intro a
      have := h a
      rw [List.count_cons] at this
      omega
    exact List.nodup_cons.mpr ⟨List.count_eq_zero.mp hb, nodup_of_count_le_one t ht⟩

/-- Every pair (height, index) occurs once among the calls of `xmss_treehash` over `2^H`
leaves if it names an inner node of the tree, and not at all otherwise. -/
theorem xmss_treehash_calls_count {α : Type} (E : hash_env α) (H : Nat) (hH : H ≤ 15)
    (stack0 : Nat → α) (levels0 : Nat → Nat) (authpath nodes : Nat → α) (pub_seed : α)
    (leaf_index : Nat) (c : Nat × Nat) :
    List.count c ((xmss_treehash_events E (2 ^ H) stack0 levels0 authpath nodes pub_seed
        leaf_index).filterMap treehash_event.address)
      = if c.1 < H ∧ c.2 < 2 ^ (H - 1 - c.1) then 1 else 0 := by
  rw [count_filterMap_address, xmss_treehash_events_eq E H hH, tree_events_count_call]
  by_cases h : c.1 < H ∧ c.2 < 2 ^ (H - 1 - c.1)
  · rw [if_pos h, if_pos ⟨h.1, (shiftRight_eq_zero_iff_lt _ _).mpr h.2⟩]
  · rw [if_neg h, if_neg (fun h2 => h ⟨h2.1, (shiftRight_eq_zero_iff_lt _ _).mp h2.2⟩)]

theorem ltree_while_calls_bound {α : Type} (E : hash_env α) (pub_seed : α) (index : Nat) :
    ∀ (fuel : Nat) (s : ltree_state α), s.l + s.tree_height ≤ 255 →
      ∀ c ∈ ltree_while_calls E pub_seed index fuel s, c.1 < 256 ∧ c.2 < 128 := by
  intro fuel
  induction fuel with
  | zero => intro s _ c hc; simp [ltree_while_calls] at hc
  | succ fuel ih =>
    intro s h c hc
    rw [ltree_while_calls] at hc
    by_cases hl : 1 < s.l
    · rw [if_pos hl] at hc
      obtain ⟨r1, r2, _⟩ := ltree_round_spec E pub_seed index s (by omega) (by omega)
      rcases List.mem_append.mp hc with hc | hc
      · unfold ltree_round_calls at hc
        obtain ⟨i, hi, rfl⟩ := List.mem_map.mp hc
        have hi2 := List.mem_range.mp hi
        rw [Nat.shiftRight_eq_div_pow, pow_one] at hi2
        exact ⟨by simp only; omega, by simp only; omega⟩
      · exact ih (ltree_round E pub_seed index s) (by rw [r1, r2]; omega) c hc
    · rw [if_neg hl] at hc
      simp at hc

/-- C16: over `2^H` leaves (`H ≤ 15`) and for every target index, the calls of `shash_h` in
one run of `xmss_treehash`, each named by the words (`height`, `index`) it passes to `HtoNL`,
are `2^H - 1` in number, pairwise distinct, and are exactly the pairs (`l`, `p`) with `l < H`
and `p < 2^(H-1-l)`, each made once; the words of a call are the level of the two entries
merged and `idx >> (level + 1)`, the ones `treehash_merge` hands to `shash_h`; the address
blocks themselves are pairwise distinct when `HtoNL` is one-to-one on 16-bit values. Likewise
the (`tree_height`, `i`) pairs of the calls of one `xmss_ltree_gen` run are pairwise distinct,
and so are its address blocks. -/
theorem xmss_treehash_calls_distinct {α : Type} (E : hash_env α) (H : Nat) (hH : H ≤ 15)
    (stack0 : Nat → α) (levels0 : Nat → Nat) (authpath nodes : Nat → α) (pub_seed : α)
    (leaf_index WOTS_LEN : Nat) (tmp_wotspk : Nat → α) (index : Nat) :
    ((xmss_treehash_events E (2 ^ H) stack0 levels0 authpath nodes pub_seed
        leaf_index).filterMap treehash_event.address).length = 2 ^ H - 1 ∧
      ((xmss_treehash_events E (2 ^ H) stack0 levels0 authpath nodes pub_seed
        leaf_index).filterMap treehash_event.address).Nodup ∧
      (∀ l p, (l, p) ∈ (xmss_treehash_events E (2 ^ H) stack0 levels0 authpath nodes pub_seed
          leaf_index).filterMap treehash_event.address ↔ l < H ∧ p < 2 ^ (H - 1 - l)) ∧
      (∀ l p, l < H → p < 2 ^ (H - 1 - l) →
        List.count (treehash_event.call l p) (xmss_treehash_events E (2 ^ H) stack0 levels0
          authpath nodes pub_seed leaf_index) = 1) ∧
      (∀ (s : treehash_state α) (idx : Nat),
        (treehash_merge_events leaf_index idx s).head? =
            some (treehash_event.call (s.stack_levels (s.stack_offset - 1))
              ((idx >>> (s.stack_levels (s.stack_offset - 1) + 1)) % 65536)) ∧
          (treehash_merge E pub_seed leaf_index idx s).stack (s.stack_offset - 2) =
            E.shash_h (tree_adrs E pub_seed (s.stack_levels (s.stack_offset - 1))
                ((idx >>> (s.stack_levels (s.stack_offset - 1) + 1)) % 65536))
              (s.stack (s.stack_offset - 2)) (s.stack (s.stack_offset - 2 + 1))) ∧
      ((∀ x y, x < 65536 → y < 65536 → E.HtoNL x = E.HtoNL y → x = y) →
        (((xmss_treehash_events E (2 ^ H) stack0 levels0 authpath nodes pub_seed
          leaf_index).filterMap treehash_event.address).map
            (fun c => tree_adrs E pub_seed c.1 c.2)).Nodup) ∧
      (xmss_ltree_calls E WOTS_LEN tmp_wotspk pub_seed index).Nodup ∧
      ((∀ x y, x < 65536 → y < 65536 → E.HtoNL x = E.HtoNL y → x = y) →
        ((xmss_ltree_calls E WOTS_LEN tmp_wotspk pub_seed index).map
          (fun c => ltree_adrs E pub_seed index c.1 c.2)).Nodup) := by
  have hcount := xmss_treehash_calls_count E H hH stack0 levels0 authpath nodes pub_seed
    leaf_index
  have hnodup : ((xmss_treehash_events E (2 ^ H) stack0 levels0 authpath nodes pub_seed
      leaf_index).filterMap treehash_event.address).Nodup := by
    apply nodup_of_count_le_one
    intro c
    rw [hcount c]
    split <;> omega
  have hmem : ∀ l p, (l, p) ∈ (xmss_treehash_events E (2 ^ H) stack0 levels0 authpath nodes
      pub_seed leaf_index).filterMap treehash_event.address ↔ l < H ∧ p < 2 ^ (H - 1 - l) := by
    intro l p
    rw [← List.count_pos_iff, hcount (l, p)]
    by_cases h : l < H ∧ p < 2 ^ (H - 1 - l)
    · simp [h]
    · simp only [h, if_false]
      exact ⟨fun h0 => absurd h0 (by omega), fun h0 => absurd h0 (by simp)⟩
  have hmod : (WOTS_LEN % 256) + 0 ≤ 255 := by omega
  have hlt := ltree_while_calls_nodup E pub_seed index (WOTS_LEN % 256)
    { l := WOTS_LEN % 256, tree_height := 0, tmp_wotspk := tmp_wotspk } hmod
  have hlb := ltree_while_calls_bound E pub_seed index (WOTS_LEN % 256)
    { l := WOTS_LEN % 256, tree_height := 0, tmp_wotspk := tmp_wotspk } hmod
  refine ⟨?_, hnodup, hmem, ?_, ?_, ?_, hlt.1, ?_⟩
  · rw [xmss_treehash_events_eq E H hH, tree_events_calls_length]
  · intro l p hl hp
    have h := hcount (l, p)
    rw [count_filterMap_address, if_pos ⟨hl, hp⟩] at h
    exact h
  · intro s idx
    refine ⟨rfl, ?_⟩
    simp only [treehash_merge, chunk_write_same, tree_adrs]
  · intro hinj
    refine List.Nodup.map_on ?_ hnodup
    intro a ha b hb hab
    obtain ⟨a1, a2⟩ := a
    obtain ⟨b1, b2⟩ := b
    obtain ⟨ha1, ha2⟩ := (hmem a1 a2).mp ha
    obtain ⟨hb1, hb2⟩ := (hmem b1 b2).mp hb
    have hpa : 2 ^ (H - 1 - a1) ≤ 2 ^ 15 := Nat.pow_le_pow_right (by norm_num) (by omega)
    have hpb : 2 ^ (H - 1 - b1) ≤ 2 ^ 15 := Nat.pow_le_pow_right (by norm_num) (by omega)
    norm_num at hpa hpb
    simp only [tree_adrs, hashh_basic.mk.injEq, true_and] at hab
    rw [hinj a1 b1 (by omega) (by omega) hab.1, hinj a2 b2 (by omega) (by omega) hab.2]
  · intro hinj
    refine List.Nodup.map_on ?_ hlt.1
    intro a ha b hb hab
    obtain ⟨a1, a2⟩ := a
    obtain ⟨b1, b2⟩ := b
    obtain ⟨ha1, ha2⟩ := hlb _ ha
    obtain ⟨hb1, hb2⟩ := hlb _ hb
    simp only at ha1 ha2 hb1 hb2
    simp only [ltree_adrs, hashh_basic.mk.injEq, true_and] at hab
    rw [hinj a1 b1 (by omega) (by omega) hab.1, hinj a2 b2 (by omega) (by omega) hab.2]

/-- C16 at `H = 2`, target 1, and at `WOTS_LEN = 67`. -/
theorem xmss_treehash_calls_distinct_witness :
    2 ≤ 15 ∧
      ((xmss_treehash_events test_env (2 ^ 2) (fun _ => 0) (fun _ => 0) (fun _ => 0)
        (fun j => j + 1) 5 1).filterMap treehash_event.address).length = 2 ^ 2 - 1 ∧
      (xmss_ltree_calls test_env 67 (fun j => 2 * j + 1) 5 9).Nodup :=
  ⟨by decide,
    (xmss_treehash_calls_distinct test_env 2 (by decide) (fun _ => 0) (fun _ => 0) (fun _ => 0)
      (fun j => j + 1) 5 1 67 (fun j => 2 * j + 1) 9).1,
    (xmss_treehash_calls_distinct test_env 2 (by decide) (fun _ => 0) (fun _ => 0) (fun _ => 0)
      (fun j => j + 1) 5 1 67 (fun j => 2 * j + 1) 9).2.2.2.2.2.2.1⟩

/-! ## Claims on the slots of the authentication path -/

theorem sibling_shiftRight_zero (H i k : Nat) (hi : i < 2 ^ H) (hk : k < H) :
    ((i >>> k) ^^^ 1) >>> (H - k) = 0 := by
  have h2 : 2 ^ H = 2 ^ (H - k) * 2 ^ k := by
    rw [← pow_add]; congr 1; omega
  have h3 : i >>> k < 2 ^ (H - k) := by
    rw [Nat.shiftRight_eq_div_pow, Nat.div_lt_iff_lt_mul (Nat.pow_pos (by norm_num))]
    omega
  have h4 : 1 < 2 ^ (H - k) := Nat.one_lt_two_pow (by omega)
  rw [Nat.shiftRight_eq_div_pow]
  exact Nat.div_eq_of_lt (Nat.xor_lt_two_pow h3 h4)

theorem treehash_push_authpath_frame {α : Type} (nodes : Nat → α) (leaf_index idx k : Nat)
    (s : treehash_state α) (h : treehash_event.write k ∉ treehash_push_events leaf_index idx) :
    (treehash_push nodes leaf_index idx s).authpath k = s.authpath k := by
  unfold treehash_push_events at h
  unfold treehash_push
  by_cases hq : (leaf_index ^^^ 1) = idx
  · rw [if_pos hq] at h
    have hk : k ≠ 0 := by
      intro h0; subst h0; exact h (by simp)
    simp only [if_pos hq]
    exact chunk_write_other _ _ _ _ hk
  · simp only [if_neg hq]

theorem treehash_merge_authpath_frame {α : Type} (E : hash_env α) (pub_seed : α)
    (leaf_index idx k : Nat) (s : treehash_state α)
    (h : treehash_event.write k ∉ treehash_merge_events leaf_index idx s) :
    (treehash_merge E pub_seed leaf_index idx s).authpath k = s.authpath k := by
  unfold treehash_merge_events at h
  unfold treehash_merge
  simp only at h ⊢
  split
  · rename_i hq
    rw [if_pos hq] at h
    have hk : k ≠ chunk_write s.stack_levels (s.stack_offset - 2)
        ((s.stack_levels (s.stack_offset - 2) + 1) % 65536) (s.stack_offset - 1 - 1) := by
      intro h0
      apply h
      rw [h0]
      simp
    exact chunk_write_other _ _ _ _ hk
  · rfl

/-- C14: over `2^H` leaves (`H ≤ 15`), for every valid target `i < 2^H` and every level
`k < H`, `xmss_treehash` returns with slot `k` of `authpath` holding the reference Merkle node
of height `k` at position `(i >> k) XOR 1`; the run writes slot `k` exactly once (the slot
keeps its value at every step of the run that is not a logged write to it), so whatever the
buffers held before, the slot ends the same; for target 0 slot `k` holds the node of height
`k` at position 1. -/
theorem xmss_treehash_authpath_slots {α : Type} (E : hash_env α) (H : Nat) (hH : H ≤ 15)
    (stack0 : Nat → α) (levels0 : Nat → Nat) (authpath nodes : Nat → α) (pub_seed : α)
    (i : Nat) (hi : i < 2 ^ H) (k : Nat) (hk : k < H) :
    (∃ out, xmss_treehash E (2 ^ H) stack0 levels0 authpath nodes pub_seed i = some out ∧
        out.2 k = merkle_node E nodes pub_seed k ((i >>> k) ^^^ 1)) ∧
      List.count (treehash_event.write k)
        (xmss_treehash_events E (2 ^ H) stack0 levels0 authpath nodes pub_seed i) = 1 ∧
      (∀ (s : treehash_state α) (idx : Nat),
        (treehash_event.write k ∉ treehash_push_events i idx →
          (treehash_push nodes i idx s).authpath k = s.authpath k) ∧
        (treehash_event.write k ∉ treehash_merge_events i idx s →
          (treehash_merge E pub_seed i idx s).authpath k = s.authpath k)) ∧
      (∀ (stack1 : Nat → α) (levels1 : Nat → Nat) (authpath1 : Nat → α),
        ∃ out1, xmss_treehash E (2 ^ H) stack1 levels1 authpath1 nodes pub_seed i = some out1 ∧
          out1.2 k = merkle_node E nodes pub_seed k ((i >>> k) ^^^ 1)) ∧
      (∃ out0, xmss_treehash E (2 ^ H) stack0 levels0 authpath nodes pub_seed 0 = some out0 ∧
        out0.2 k = merkle_node E nodes pub_seed k 1) := by
  have hN := two_pow_le_of_le_15 H hH
  have hpos : 0 < 2 ^ H := Nat.pow_pos (by norm_num)
  refine ⟨⟨_, xmss_treehash_eq E (2 ^ H) hN stack0 levels0 authpath nodes pub_seed i,
      treehash_authpath_slot E H hH stack0 levels0 authpath nodes pub_seed i hi k hk⟩, ?_,
    fun s idx => ⟨treehash_push_authpath_frame nodes i idx k s,
      treehash_merge_authpath_frame E pub_seed i idx k s⟩,
    fun stack1 levels1 authpath1 =>
      ⟨_, xmss_treehash_eq E (2 ^ H) hN stack1 levels1 authpath1 nodes pub_seed i,
        treehash_authpath_slot E H hH stack1 levels1 authpath1 nodes pub_seed i hi k hk⟩, ?_⟩
  · rw [xmss_treehash_events_eq E H hH, tree_events_count_write,
      if_pos ⟨le_of_lt hk, sibling_shiftRight_zero H i k hi hk⟩]
  · refine ⟨_, xmss_treehash_eq E (2 ^ H) hN stack0 levels0 authpath nodes pub_seed 0, ?_⟩
    have h := treehash_authpath_slot E H hH stack0 levels0 authpath nodes pub_seed 0 hpos k hk
    rw [h]
    simp

/-- C14 at `H = 2`, target 2, slot 1. -/
theorem xmss_treehash_authpath_slots_witness :
    2 ≤ 15 ∧ 2 < 2 ^ 2 ∧ 1 < 2 ∧
      List.count (treehash_event.write 1)
        (xmss_treehash_events test_env (2 ^ 2) (fun _ => 0) (fun _ => 0) (fun _ => 0)
          (fun j => j + 1) 5 2) = 1 :=
  ⟨by decide, by decide, by decide,
    (xmss_treehash_authpath_slots test_env 2 (by decide) (fun _ => 0) (fun _ => 0) (fun _ => 0)
      (fun j => j + 1) 5 2 (by decide) 1 (by decide)).2.1⟩

/-! ## The shape of the stack after every leaf -/

theorem bits_stack_zero {α : Type} (E : hash_env α) (nodes : Nat → α) (pub_seed : α) :
    ∀ (n l : Nat), bits_stack E nodes pub_seed n l 0 = []
  | 0, _ => rfl
  | n + 1, l => by
    rw [bits_stack, if_neg (by decide), Nat.zero_div]
    exact bits_stack_zero E nodes pub_seed n (l + 1)

theorem bits_stack_levels {α : Type} (E : hash_env α) (nodes : Nat → α) (pub_seed : α) :
    ∀ (n l m : Nat), ∀ e ∈ bits_stack E nodes pub_seed n l m, l ≤ e.2 := by
  intro n
  induction n with
  | zero => intro l m e he; simp [bits_stack] at he
  | succ n ih =>
    intro l m e he
    rw [bits_stack] at he
    by_cases hm : m % 2 = 1
    · rw [if_pos hm] at he
      rcases List.mem_cons.mp he with he | he
      · subst he; exact le_refl _
      · have := ih (l + 1) (m / 2) e he
        omega
    · rw [if_neg hm] at he
      have := ih (l + 1) (m / 2) e he
      omega

theorem bits_stack_length_le {α : Type} (E : hash_env α) (nodes : Nat → α) (pub_seed : α) :
    ∀ (n l m k : Nat), m < 2 ^ k → (bits_stack E nodes pub_seed n l m).length ≤ k := by
  intro n
  induction n with
  | zero => intro l m k _; simp [bits_stack]
  | succ n ih =>
    intro l m k hm
    cases k with
    | zero =>
      have h0 : m = 0 := by simpa using hm
      rw [h0, bits_stack_zero]
      simp
    | succ k =>
      have hhalf : m / 2 < 2 ^ k := by
        rw [pow_succ] at hm
        omega
      have := ih (l + 1) (m / 2) k hhalf
      rw [bits_stack]
      split
      · simp only [List.length_cons]; omega
      · omega

/-- Bringing the node (`l`, `m`) onto a stack that holds `m` merged nodes of level `l` leaves
the stack that holds `m + 1` of them. -/
theorem cascade_bits {α : Type} (E : hash_env α) (nodes : Nat → α) (pub_seed : α)
    (leaf_index idx : Nat) (hidx : idx < 65536) :
    ∀ (n l m : Nat) (ap : Nat → α), idx >>> l = m → m + 1 < 2 ^ n → l + n < 65536 →
      (cascade E pub_seed leaf_index idx (merkle_node E nodes pub_seed l m, l)
        (bits_stack E nodes pub_seed n l m) ap).1 = bits_stack E nodes pub_seed n l (m + 1) := by
  intro n
  induction n with
  | zero => intro l m ap _ h _; simp at h
  | succ n ih =>
    intro l m ap hm hlt hl
    have hpow : 2 ^ (n + 1) = 2 * 2 ^ n := by rw [pow_succ]; omega
    have hshift : idx >>> (l + 1) = m / 2 := by rw [Nat.shiftRight_succ, hm]
    by_cases hodd : m % 2 = 1
    · have hnext : (m + 1) % 2 ≠ 1 := by omega
      have hdiv : (m + 1) / 2 = m / 2 + 1 := by omega
      have hnode : E.shash_h (tree_adrs E pub_seed l (idx >>> (l + 1)))
          (merkle_node E nodes pub_seed l (m - 1)) (merkle_node E nodes pub_seed l m)
          = merkle_node E nodes pub_seed (l + 1) (m / 2) := by
        rw [merkle_node, hshift, show 2 * (m / 2) = m - 1 by omega,
          show m - 1 + 1 = m by omega]
      rw [bits_stack, if_pos hodd, bits_stack, if_neg hnext, hdiv,
        cascade_merge E pub_seed leaf_index idx _ _ l _ _ hidx (by omega), hnode]
      exact ih (l + 1) (m / 2) _ hshift (by omega) (by omega)
    · have hnext : (m + 1) % 2 = 1 := by omega
      have hdiv : (m + 1) / 2 = m / 2 := by omega
      rw [bits_stack, if_neg hodd, bits_stack, if_pos hnext, hdiv,
        cascade_stop E pub_seed leaf_index idx _ _ _ (fun e he => by
          have := bits_stack_levels E nodes pub_seed n (l + 1) (m / 2) e
            (List.mem_of_mem_head? he)
          simp only
          omega)]
      simp

/-- After `k ≤ 2^H` leaves the stack of `xmss_treehash` holds the merged nodes of `k` leaves. -/
theorem treehash_fold_bits {α : Type} (E : hash_env α) (H : Nat) (hH : H ≤ 15)
    (stack0 : Nat → α) (levels0 : Nat → Nat) (authpath nodes : Nat → α) (pub_seed : α)
    (leaf_index : Nat) :
    ∀ k, k ≤ 2 ^ H →
      (treehash_view (treehash_fold E k stack0 levels0 authpath nodes pub_seed leaf_index)).1
        = bits_stack E nodes pub_seed (H + 1) 0 k := by
  have hN := two_pow_le_of_le_15 H hH
  intro k
  induction k with
  | zero =>
    intro _
    rw [bits_stack_zero]
    rfl
  | succ k ih =>
    intro hk
    have h := ih (by omega)
    unfold treehash_fold at h ⊢
    rw [List.range_succ, List.foldl_append, List.foldl_cons, List.foldl_nil,
      treehash_body_view, view_body, h]
    have hpow : 2 ^ (H + 1) = 2 * 2 ^ H := by rw [pow_succ]; omega
    exact cascade_bits E nodes pub_seed leaf_index k (by omega) (H + 1) 0 k _
      (Nat.shiftRight_zero) (by omega) (by omega)

theorem treehash_fold_split {α : Type} (E : hash_env α) (N k : Nat) (hk : k ≤ N)
    (stack0 : Nat → α) (levels0 : Nat → Nat) (authpath nodes : Nat → α) (pub_seed : α)
    (leaf_index : Nat) :
    treehash_fold E N stack0 levels0 authpath nodes pub_seed leaf_index =
      (List.range' k (N - k)).foldl (treehash_body E nodes pub_seed leaf_index)
        (treehash_fold E k stack0 levels0 authpath nodes pub_seed leaf_index) := by
  unfold treehash_fold
  rw [← List.foldl_append, List.range_eq_range', List.range_eq_range']
  congr 1
  have h := List.range'_append 0 k (N - k) 1
  rw [show N - k + k = N by omega] at h
  simpa using h.symm

theorem bits_stack_eq_filter {α : Type} (E : hash_env α) (nodes : Nat → α) (pub_seed : α)
    (M : Nat) :
    ∀ (n l : Nat), bits_stack E nodes pub_seed n l (M >>> l) =
      ((List.range' l n).filter (fun j => M.testBit j)).map
        (fun j => (merkle_node E nodes pub_seed j ((M >>> j) - 1), j)) := by
  intro n
  induction n with
  | zero => intro l; rfl
  | succ n ih =>
    intro l
    have hnext : (M >>> l) / 2 = M >>> (l + 1) := (Nat.shiftRight_succ M l).symm
    have hbit : M.testBit l = decide ((M >>> l) % 2 = 1) := by
      rw [Nat.testBit_to_div_mod, Nat.shiftRight_eq_div_pow]
    rw [bits_stack, hnext, ih (l + 1), List.range'_succ]
    by_cases hodd : (M >>> l) % 2 = 1
    · have hb : M.testBit l = true := by rw [hbit]; exact decide_eq_true hodd
      rw [if_pos hodd, List.filter_cons_of_pos hb, List.map_cons]
    · have hb : ¬ (M.testBit l = true) := by
        rw [hbit]; intro h; exact hodd (of_decide_eq_true h)
      rw [if_neg hodd, List.filter_cons_of_neg hb]

theorem stack_list_map {β γ : Type} (f : Nat → β) (g : β → γ) :
    ∀ n, (stack_list f n).map g = stack_list (fun j => g (f j)) n
  | 0 => rfl
  | n + 1 => by simp [stack_list, stack_list_map f g n]

theorem stack_list_mem {β : Type} (f : Nat → β) :
    ∀ (n j : Nat), j < n → f j ∈ stack_list f n := by
  intro n
  induction n with
  | zero => intro j h; omega
  | succ n ih =>
    intro j h
    rw [stack_list]
    by_cases hj : j = n
    · subst hj; exact List.mem_cons_self _ _
    · exact List.mem_cons_of_mem _ (ih j (by omega))

theorem stack_list_pairwise {β : Type} (R : β → β → Prop) (f : Nat → β) :
    ∀ n, List.Pairwise R (stack_list f n) → ∀ j, j + 1 < n → R (f (j + 1)) (f j) := by
  intro n
  induction n with
  | zero => intro _ j h; omega
  | succ n ih =>
    intro hp j hj
    rw [stack_list, List.pairwise_cons] at hp
    by_cases hjn : j + 1 = n
    · rw [hjn]
      exact hp.1 _ (stack_list_mem f n j (by omega))
    · exact ih hp.2 j (by omega)

theorem treehash_while_offset_pos {α : Type} (E : hash_env α) (pub_seed : α)
    (leaf_index idx : Nat) :
    ∀ (fuel : Nat) (s : treehash_state α), 1 ≤ s.stack_offset →
      1 ≤ (treehash_while E pub_seed leaf_index idx fuel s).stack_offset := by
  intro fuel
  induction fuel with
  | zero => intro s h; exact h
  | succ fuel ih =>
    intro s h
    rw [treehash_while]
    by_cases hg : treehash_guard s = true
    · rw [if_pos hg]
      apply ih
      have h2 : 1 < s.stack_offset := by
        simp only [treehash_guard, Bool.and_eq_true, decide_eq_true_eq] at hg
        exact hg.1
      simp only [treehash_merge]
      omega
    · rw [if_neg hg]
      exact h

theorem treehash_fold_succ {α : Type} (E : hash_env α) (k : Nat)
    (stack0 : Nat → α) (levels0 : Nat → Nat) (authpath nodes : Nat → α) (pub_seed : α)
    (leaf_index : Nat) :
    treehash_fold E (k + 1) stack0 levels0 authpath nodes pub_seed leaf_index =
      treehash_body E nodes pub_seed leaf_index
        (treehash_fold E k stack0 levels0 authpath nodes pub_seed leaf_index) k := by
  unfold treehash_fold
  rw [List.range_succ, List.foldl_append, List.foldl_cons, List.foldl_nil]

/-- C15: in the run of `xmss_treehash` over `2^H` leaves (`H ≤ 15`), for every target index
and every leaf `idx < 2^H`: when the leaf is brought in, the stack holds at most `H` entries,
so the entry written has index at most `H`; at every point of the merge loop for that leaf
(after any number `j` of passes) `stack_offset` is between 1 and `H + 1`, so entry
`stack_offset - 1` exists in arrays of `H + 1` entries and `stack_offset - 1` does not
underflow; whenever the guard holds, `stack_offset ≥ 2`, so `stack_offset - 2` does not
underflow in the body. The states named are those the run passes through: the body for leaf
`idx` starts from the state after `idx` leaves, and the run over `2^H` leaves continues from
it. -/
theorem xmss_treehash_stack_bound {α : Type} (E : hash_env α) (H : Nat) (hH : H ≤ 15)
    (stack0 : Nat → α) (levels0 : Nat → Nat) (authpath nodes : Nat → α) (pub_seed : α)
    (leaf_index idx : Nat) (hidx : idx < 2 ^ H) :
    (treehash_fold E idx stack0 levels0 authpath nodes pub_seed leaf_index).stack_offset ≤ H ∧
      (∀ j,
        1 ≤ (treehash_while E pub_seed leaf_index idx j
            (treehash_push nodes leaf_index idx
              (treehash_fold E idx stack0 levels0 authpath nodes pub_seed
                leaf_index))).stack_offset ∧
          (treehash_while E pub_seed leaf_index idx j
            (treehash_push nodes leaf_index idx
              (treehash_fold E idx stack0 levels0 authpath nodes pub_seed
                leaf_index))).stack_offset ≤ H + 1 ∧
          (treehash_guard (treehash_while E pub_seed leaf_index idx j
            (treehash_push nodes leaf_index idx
              (treehash_fold E idx stack0 levels0 authpath nodes pub_seed
                leaf_index))) = true →
            2 ≤ (treehash_while E pub_seed leaf_index idx j
              (treehash_push nodes leaf_index idx
                (treehash_fold E idx stack0 levels0 authpath nodes pub_seed
                  leaf_index))).stack_offset)) ∧
      treehash_fold E (idx + 1) stack0 levels0 authpath nodes pub_seed leaf_index =
        treehash_while E pub_seed leaf_index idx
          (treehash_push nodes leaf_index idx
            (treehash_fold E idx stack0 levels0 authpath nodes pub_seed
              leaf_index)).stack_offset
          (treehash_push nodes leaf_index idx
            (treehash_fold E idx stack0 levels0 authpath nodes pub_seed leaf_index)) ∧
      xmss_treehash_run E (2 ^ H) stack0 levels0 authpath nodes pub_seed leaf_index =
        some ((List.range' idx (2 ^ H - idx)).foldl (treehash_body E nodes pub_seed leaf_index)
          (treehash_fold E idx stack0 levels0 authpath nodes pub_seed leaf_index)) := by
  have hbits := treehash_fold_bits E H hH stack0 levels0 authpath nodes pub_seed leaf_index
    idx (le_of_lt hidx)
  have hoff : (treehash_fold E idx stack0 levels0 authpath nodes pub_seed
      leaf_index).stack_offset ≤ H := by
    have hlen := congrArg List.length hbits
    simp only [treehash_view, stack_list_length] at hlen
    rw [hlen]
    exact bits_stack_length_le E nodes pub_seed (H + 1) 0 idx H hidx
  refine ⟨hoff, ?_, ?_, ?_⟩
  · intro j
    have hpush : (treehash_push nodes leaf_index idx
        (treehash_fold E idx stack0 levels0 authpath nodes pub_seed
          leaf_index)).stack_offset
        = (treehash_fold E idx stack0 levels0 authpath nodes pub_seed
          leaf_index).stack_offset + 1 := rfl
    refine ⟨treehash_while_offset_pos E pub_seed leaf_index idx j _ (by rw [hpush]; omega), ?_,
      ?_⟩
    · have := treehash_while_offset_le E pub_seed leaf_index idx j
        (treehash_push nodes leaf_index idx
          (treehash_fold E idx stack0 levels0 authpath nodes pub_seed leaf_index))
      omega
    · intro hg
      simp only [treehash_guard, Bool.and_eq_true, decide_eq_true_eq] at hg
      exact hg.1
  · rw [treehash_fold_succ]
    rfl
  · rw [xmss_treehash_run_eq E (2 ^ H) (two_pow_le_of_le_15 H hH),
      treehash_fold_split E (2 ^ H) idx (le_of_lt hidx)]

/-- C15 at `H = 2`, target 1, leaf 3, before any pass of the merge loop: three entries. -/
theorem xmss_treehash_stack_bound_witness :
    2 ≤ 15 ∧ 3 < 2 ^ 2 ∧
      (treehash_fold test_env 3 (fun _ => 0) (fun _ => 0) (fun _ => 0) (fun j => j + 1) 5
        1).stack_offset ≤ 2 :=
  ⟨by decide, by decide,
    (xmss_treehash_stack_bound test_env 2 (by decide) (fun _ => 0) (fun _ => 0) (fun _ => 0)
      (fun j => j + 1) 5 1 3 (by decide)).1⟩

theorem stack_list_mem_iff {β : Type} (f : Nat → β) (x : β) :
    ∀ n, x ∈ stack_list f n → ∃ j, j < n ∧ f j = x := by
  intro n
  induction n with
  | zero => intro h; simp [stack_list] at h
  | succ n ih =>
    intro h
    rw [stack_list] at h
    rcases List.mem_cons.mp h with h | h
    · exact ⟨n, by omega, h.symm⟩
    · obtain ⟨j, hj, hx⟩ := ih h
      exact ⟨j, by omega, hx⟩

theorem shiftRight_block (x l : Nat) :
    (x >>> l) * 2 ^ l ≤ x ∧ x < (x >>> l + 1) * 2 ^ l := by
  have hpos : 0 < 2 ^ l := Nat.pow_pos (by norm_num)
  have h1 := Nat.div_add_mod x (2 ^ l)
  have h2 := Nat.mod_lt x hpos
  rw [Nat.shiftRight_eq_div_pow, Nat.add_mul, Nat.one_mul, Nat.mul_comm]
  omega

/-- What a stack view made of the 1-bits of `M` below `n` says about the arrays. -/
theorem stack_shape_of_view {α : Type} (E : hash_env α) (nodes : Nat → α) (pub_seed : α)
    (M n : Nat) (s : treehash_state α)
    (hview : (treehash_view s).1 =
      ((List.range n).filter (fun l => M.testBit l)).map
        (fun l => (merkle_node E nodes pub_seed l ((M >>> l) - 1), l))) :
    s.stack_offset = ((List.range n).filter (fun l => M.testBit l)).length ∧
      (∀ j, j + 1 < s.stack_offset → s.stack_levels (j + 1) < s.stack_levels j) ∧
      (∀ j, j < s.stack_offset →
        M.testBit (s.stack_levels j) = true ∧
          s.stack j = merkle_node E nodes pub_seed (s.stack_levels j)
            ((M >>> s.stack_levels j) - 1)) ∧
      (∀ l, l < n → M.testBit l = true → ∃ j, j < s.stack_offset ∧ s.stack_levels j = l) := by
  refine ⟨?_, ?_, ?_, ?_⟩
  · have hlen := congrArg List.length hview
    simp only [treehash_view, stack_list_length, List.length_map] at hlen
    exact hlen
  · intro j hj
    have hp : List.Pairwise (fun a b : α × Nat => a.2 < b.2) (treehash_view s).1 := by
      rw [hview]
      exact List.Pairwise.map _ (fun a b hab => hab)
        (List.Pairwise.filter _ (List.pairwise_lt_range n))
    exact stack_list_pairwise (fun a b : α × Nat => a.2 < b.2)
      (fun j => (s.stack j, s.stack_levels j)) s.stack_offset hp j hj
  · intro j hj
    have hm : (s.stack j, s.stack_levels j) ∈ (treehash_view s).1 :=
      stack_list_mem (fun j => (s.stack j, s.stack_levels j)) s.stack_offset j hj
    rw [hview] at hm
    obtain ⟨l, hl, heq⟩ := List.mem_map.mp hm
    have hl2 := (List.mem_filter.mp hl).2
    simp only [Prod.mk.injEq] at heq
    obtain ⟨h1, h2⟩ := heq
    subst h2
    exact ⟨hl2, h1.symm⟩
  · intro l hln hl
    have hm : (merkle_node E nodes pub_seed l ((M >>> l) - 1), l) ∈ (treehash_view s).1 := by
      rw [hview]
      exact List.mem_map.mpr ⟨l, List.mem_filter.mpr ⟨List.mem_range.mpr hln, hl⟩, rfl⟩
    obtain ⟨j, hj, hx⟩ := stack_list_mem_iff (fun j => (s.stack j, s.stack_levels j)) _
      s.stack_offset hm
    simp only [Prod.mk.injEq] at hx
    exact ⟨j, hj, hx.2⟩

/-- C20: in the run of `xmss_treehash` over `2^H` leaves (`H ≤ 15`), for every target index
and every leaf `idx < 2^H`, once the merge loop for leaf `idx` has finished (its guard is
false): read from the top, the stack holds one entry for every 1-bit `l` of `idx + 1`, lowest
bit first, and the entry of level `l` is the reference Merkle node of height `l` at position
`((idx+1) >> l) - 1`, the last block of `2^l` leaves complete by leaf `idx`; so in the arrays
the levels strictly decrease from bottom to top, every entry sits at a 1-bit of `idx + 1`,
every 1-bit has its entry, and `stack_offset` is the number of 1-bits of `idx + 1`. The state
named is the one the run over `2^H` leaves passes through after leaf `idx`. -/
theorem xmss_treehash_stack_shape {α : Type} (E : hash_env α) (H : Nat) (hH : H ≤ 15)
    (stack0 : Nat → α) (levels0 : Nat → Nat) (authpath nodes : Nat → α) (pub_seed : α)
    (leaf_index idx : Nat) (hidx : idx < 2 ^ H) :
    treehash_guard (treehash_fold E (idx + 1) stack0 levels0 authpath nodes pub_seed
        leaf_index) = false ∧
      (treehash_view (treehash_fold E (idx + 1) stack0 levels0 authpath nodes pub_seed
          leaf_index)).1 =
        ((List.range (H + 1)).filter (fun l => (idx + 1).testBit l)).map
          (fun l => (merkle_node E nodes pub_seed l (((idx + 1) >>> l) - 1), l)) ∧
      (∀ l, (idx + 1).testBit l = true → l ≤ H) ∧
      (treehash_fold E (idx + 1) stack0 levels0 authpath nodes pub_seed leaf_index).stack_offset
        = ((List.range (H + 1)).filter (fun l => (idx + 1).testBit l)).length ∧
      (∀ j, j + 1 < (treehash_fold E (idx + 1) stack0 levels0 authpath nodes pub_seed
          leaf_index).stack_offset →
        (treehash_fold E (idx + 1) stack0 levels0 authpath nodes pub_seed
            leaf_index).stack_levels (j + 1)
          < (treehash_fold E (idx + 1) stack0 levels0 authpath nodes pub_seed
            leaf_index).stack_levels j) ∧
      (∀ j, j < (treehash_fold E (idx + 1) stack0 levels0 authpath nodes pub_seed
          leaf_index).stack_offset →
        (idx + 1).testBit ((treehash_fold E (idx + 1) stack0 levels0 authpath nodes pub_seed
            leaf_index).stack_levels j) = true ∧
          (treehash_fold E (idx + 1) stack0 levels0 authpath nodes pub_seed leaf_index).stack j
            = merkle_node E nodes pub_seed
              ((treehash_fold E (idx + 1) stack0 levels0 authpath nodes pub_seed
                leaf_index).stack_levels j)
              (((idx + 1) >>> (treehash_fold E (idx + 1) stack0 levels0 authpath nodes pub_seed
                leaf_index).stack_levels j) - 1)) ∧
      (∀ l, (idx + 1).testBit l = true →
        ∃ j, j < (treehash_fold E (idx + 1) stack0 levels0 authpath nodes pub_seed
            leaf_index).stack_offset ∧
          (treehash_fold E (idx + 1) stack0 levels0 authpath nodes pub_seed
            leaf_index).stack_levels j = l) ∧
      (∀ l, ((idx + 1) >>> l) * 2 ^ l ≤ idx + 1 ∧ idx + 1 < ((idx + 1) >>> l + 1) * 2 ^ l) ∧
      xmss_treehash_run E (2 ^ H) stack0 levels0 authpath nodes pub_seed leaf_index =
        some ((List.range' (idx + 1) (2 ^ H - (idx + 1))).foldl
          (treehash_body E nodes pub_seed leaf_index)
          (treehash_fold E (idx + 1) stack0 levels0 authpath nodes pub_seed leaf_index)) := by
  have hview : (treehash_view (treehash_fold E (idx + 1) stack0 levels0 authpath nodes pub_seed
      leaf_index)).1 =
      ((List.range (H + 1)).filter (fun l => (idx + 1).testBit l)).map
        (fun l => (merkle_node E nodes pub_seed l (((idx + 1) >>> l) - 1), l)) := by
    rw [treehash_fold_bits E H hH stack0 levels0 authpath nodes pub_seed leaf_index (idx + 1)
      (by omega)]
    have h := bits_stack_eq_filter E nodes pub_seed (idx + 1) (H + 1) 0
    rw [Nat.shiftRight_zero] at h
    rw [h, List.range_eq_range']
  have hbits : ∀ l, (idx + 1).testBit l = true → l ≤ H := by
    intro l hl
    by_contra hlt
    have h1 : 2 ^ (H + 1) ≤ 2 ^ l := Nat.pow_le_pow_right (by norm_num) (by omega)
    have h2 : 2 ^ (H + 1) = 2 * 2 ^ H := by rw [pow_succ]; omega
    have h3 := Nat.testBit_lt_two_pow (show idx + 1 < 2 ^ l by omega)
    rw [h3] at hl
    exact Bool.false_ne_true hl
  have hguard : treehash_guard (treehash_fold E (idx + 1) stack0 levels0 authpath nodes
      pub_seed leaf_index) = false := by
    rw [treehash_fold_succ]
    unfold treehash_body
    exact treehash_while_exit E pub_seed leaf_index idx _ _ (Nat.le_succ _)
  have hrun : xmss_treehash_run E (2 ^ H) stack0 levels0 authpath nodes pub_seed leaf_index =
      some ((List.range' (idx + 1) (2 ^ H - (idx + 1))).foldl
        (treehash_body E nodes pub_seed leaf_index)
        (treehash_fold E (idx + 1) stack0 levels0 authpath nodes pub_seed leaf_index)) := by
    rw [xmss_treehash_run_eq E (2 ^ H) (two_pow_le_of_le_15 H hH),
      treehash_fold_split E (2 ^ H) (idx + 1) (by omega)]
  obtain ⟨a1, a2, a3, a4⟩ := stack_shape_of_view E nodes pub_seed (idx + 1) (H + 1) _ hview
  exact ⟨hguard, hview, hbits, a1, a2, a3,
    fun l hl => a4 l (by have := hbits l hl; omega) hl,
    fun l => shiftRight_block (idx + 1) l, hrun⟩

/-- C20 at `H = 2`, target 1, leaf 2: `idx + 1 = 3` has two 1-bits, the stack two entries. -/
theorem xmss_treehash_stack_shape_witness :
    2 ≤ 15 ∧ 2 < 2 ^ 2 ∧
      (treehash_fold test_env (2 + 1) (fun _ => 0) (fun _ => 0) (fun _ => 0) (fun j => j + 1) 5
        1).stack_offset
        = ((List.range (2 + 1)).filter (fun l => (2 + 1).testBit l)).length :=
  ⟨by decide, by decide,
    (xmss_treehash_stack_shape test_env 2 (by decide) (fun _ => 0) (fun _ => 0) (fun _ => 0)
      (fun j => j + 1) 5 1 2 (by decide)).2.2.2.1⟩
